import Mathlib

/-!
# Prime-Number-Generator: odd-only sieve and cache-blocked sieve

A shallow embedding of `src/main.cpp` (class `Sieve`) and the properties of its
two constructors and two queries.

Conventions of the embedding.

* `std::vector<bool>` and the `std::vector<char>` block buffer are `List Bool`.
* Every loop of the source is a function indexed by a fuel argument that bounds
  the number of iterations of that loop; the result is an `Option`, and `none`
  means that no result is produced: the fuel ran out, or an access that the
  source leaves undefined (an unchecked read or write past the end) or that throws
  (`at`) was reached.  Theorems give an explicit amount of fuel that suffices.
* 64-bit quantities whose computation cannot leave the 64-bit range for a
  64-bit `limit` are natural numbers.  The three 64-bit computations that can
  wrap on admissible arguments (`low + cache_size - 1`, `copyIndex - low`,
  `end + 1`) wrap, and so does every 32-bit computation (`index1`,
  `copyIndex`, the entries of `primes` and `next`, `j`, `increment`, the
  counter of `CountPrimes`).
* `std::sqrt` on `double` followed by the cast is taken as the exact integer
  square root `Nat.sqrt`.
-/

namespace PrimeGen

/-! ## Machine arithmetic -/

/-- The constant `UPPER_BOUND` of the source, `2^31 - 1`. -/
def UPPER_BOUND : Nat := 2147483647

/-- The constant `L1_CACHE_SIZE` of the source, `2^15`. -/
def L1_CACHE_SIZE : Nat := 32768

/-- Truncation to `uint32_t`. -/
def u32 (n : Nat) : Nat := n % 2 ^ 32

/-- Truncation to `uint64_t`. -/
def u64 (n : Nat) : Nat := n % 2 ^ 64

/-- Subtraction `a - b` with the result stored in a `uint32_t`. -/
def sub32 (a b : Nat) : Nat := (a + 2 ^ 32 - b % 2 ^ 32) % 2 ^ 32

/-- Subtraction `a - b` of `uint64_t` values. -/
def sub64 (a b : Nat) : Nat := (a + 2 ^ 64 - b % 2 ^ 64) % 2 ^ 64

/-! ## `Sieve::Sieve(uint64_t limit)` -/

/-- The inner loop `for (uint64_t j{(i+1)*i*2}; j<memory; j+=2*i+1) answer[j] = false;`
started at `j`. -/
def markLoop (memory i : Nat) : Nat → Nat → List Bool → Option (List Bool)
  | 0, _, _ => none
  | fuel + 1, j, answer =>
    if j < memory then markLoop memory i fuel (j + (2 * i + 1)) (answer.set j false)
    else some answer

/-- The outer loop `for (uint64_t i{1}; i<checkingRange; ++i) if (answer[i]) ...`
started at `i`; `fuel` is handed to every inner loop, the first numeric argument
bounds the iterations of the outer loop. -/
def sieveLoop (memory checkingRange fuel : Nat) : Nat → Nat → List Bool → Option (List Bool)
  | 0, _, _ => none
  | n + 1, i, answer =>
    if i < checkingRange then
      match answer[i]? with
      | none => none
      | some true =>
        match markLoop memory i fuel ((i + 1) * i * 2) answer with
        | none => none
        | some answer1 => sieveLoop memory checkingRange fuel n (i + 1) answer1
      | some false => sieveLoop memory checkingRange fuel n (i + 1) answer
    else some answer

/-- The one-argument constructor; the result is the member `m_sieve`. -/
def Sieve (fuel limit : Nat) : Option (List Bool) :=
  let memory := limit / 2 + 1
  let checkingRange := Nat.sqrt limit / 2 + 1
  sieveLoop memory checkingRange fuel fuel 1 (List.replicate memory true)

/-! ## `Sieve::Sieve(const uint64_t limit, const uint32_t cache_size)` -/

/-- The variables that live across the iterations of the block loop
`for (uint64_t low = 0; low <= memory; low += cache_size)`. -/
structure SegState where
  /-- The loop variable `low` (`uint64_t`). -/
  low : Nat
  /-- The discovery cursor `index1` (`uint32_t`). -/
  index1 : Nat
  /-- The commit cursor `copyIndex` (`uint32_t`). -/
  copyIndex : Nat
  /-- The vector `primes`. -/
  primes : List Nat
  /-- The vector `next`. -/
  next : List Nat
  /-- The vector `answer`. -/
  answer : List Bool

/-- The discovery loop
`for (; (index1+1)*index1*2 <= high; ++index1) if (auxiliarySieve.m_sieve[index1]) {...}`.
The product is computed in `uint32_t`; the pushed offset is the 64-bit difference
truncated to `uint32_t`. -/
def discoverLoop (aux : List Bool) (low high : Nat) :
    Nat → Nat → List Nat → List Nat → Option (Nat × List Nat × List Nat)
  | 0, _, _, _ => none
  | fuel + 1, index1, primes, next =>
    if u32 (u32 (u32 (index1 + 1) * index1) * 2) ≤ high then
      match aux[index1]? with
      | none => none
      | some true =>
        discoverLoop aux low high fuel (u32 (index1 + 1)) (primes ++ [index1])
          (next ++ [sub32 (u32 (u32 (u32 (index1 + 1) * index1) * 2)) low])
      | some false => discoverLoop aux low high fuel (u32 (index1 + 1)) primes next
    else some (index1, primes, next)

/-- The inner marking loop `for (...; j<cache_size ; j+=increment) sieve[j] = false;`
started at `j`; it returns the final `j` and the block buffer. -/
def markBlock (cache_size increment : Nat) : Nat → Nat → List Bool → Option (Nat × List Bool)
  | 0, _, _ => none
  | fuel + 1, j, sieve =>
    if j < cache_size then
      markBlock cache_size increment fuel (u32 (j + increment)) (sieve.set j false)
    else some (j, sieve)

/-- The marking loop `for (std::size_t i{0}; i<primes.size(); ++i)` over the carry
list: entry `i` starts at `next[i]`, steps by `primes[i]*2+1` and stores
`j - cache_size` back into `next[i]`.  It returns the new `next` and the buffer. -/
def markAll (cache_size fuel : Nat) :
    List Nat → List Nat → List Bool → Option (List Nat × List Bool)
  | [], [], sieve => some ([], sieve)
  | p :: ps, n :: ns, sieve =>
    match markBlock cache_size (u32 (u32 (p * 2) + 1)) fuel n sieve with
    | none => none
    | some (j, sieve1) =>
      match markAll cache_size fuel ps ns sieve1 with
      | none => none
      | some (ns1, sieve2) => some (sub32 j cache_size :: ns1, sieve2)
  | _, _, _ => none

/-- The commit loop
`for (; copyIndex <= high; ++copyIndex) if (sieve[copyIndex-low]) answer[copyIndex] = true;`.
The read index is a 64-bit difference.  Both accesses are unchecked: a read past the end
of the buffer gives no result, and so does the write `answer[copyIndex] = true` at an
index that is not below the size of `answer`. -/
def commitLoop (low high : Nat) (sieve : List Bool) :
    Nat → Nat → List Bool → Option (Nat × List Bool)
  | 0, _, _ => none
  | fuel + 1, copyIndex, answer =>
    if copyIndex ≤ high then
      match sieve[sub64 copyIndex low]? with
      | none => none
      | some true =>
        if copyIndex < answer.length then
          commitLoop low high sieve fuel (u32 (copyIndex + 1)) (answer.set copyIndex true)
        else none
      | some false => commitLoop low high sieve fuel (u32 (copyIndex + 1)) answer
    else some (copyIndex, answer)

/-- The upper end `high` of the block that starts at `low`:
`std::min(low + cache_size - 1, memory)`. -/
def blockHigh (memory cache_size low : Nat) : Nat :=
  min (sub64 (low + cache_size) 1) memory

/-- One iteration of the block loop: reset of the buffer, discovery, marking, commit,
and the increment `low += cache_size`. -/
def block (aux : List Bool) (memory cache_size fuel : Nat) (st : SegState) :
    Option SegState :=
  let high := blockHigh memory cache_size st.low
  let sieve := List.replicate cache_size true
  match discoverLoop aux st.low high fuel st.index1 st.primes st.next with
  | none => none
  | some (index1, primes, next) =>
    match markAll cache_size fuel primes next sieve with
    | none => none
    | some (next1, sieve1) =>
      match commitLoop st.low high sieve1 fuel st.copyIndex st.answer with
      | none => none
      | some (copyIndex, answer) =>
        some { low := st.low + cache_size, index1 := index1, copyIndex := copyIndex,
               primes := primes, next := next1, answer := answer }

/-- The block loop `for (uint64_t low = 0; low <= memory; low += cache_size)`; the
first numeric argument bounds the number of blocks, `fuel` is handed to the inner
loops. -/
def blockLoop (aux : List Bool) (memory cache_size fuel : Nat) :
    Nat → SegState → Option SegState
  | 0, _ => none
  | n + 1, st =>
    if st.low ≤ memory then
      match block aux memory cache_size fuel st with
      | none => none
      | some st1 => blockLoop aux memory cache_size fuel n st1
    else some st

/-- The state before the first block: `index1 {1}`, `copyIndex {1}`, empty `primes`
and `next`, `answer (memory, 0)`. -/
def initState (memory : Nat) : SegState :=
  { low := 0, index1 := 1, copyIndex := 1, primes := [], next := [],
    answer := List.replicate memory false }

/-- The local `uint32_t segment_size {8*cache_size}` of the segmented constructor; it is
initialised and never read. -/
def segment_size (cache_size : Nat) : Nat := u32 (8 * cache_size)

/-- The two-argument (segmented) constructor; the result is the member `m_sieve`.
The square root of a 64-bit `limit` fits 32 bits, the increment is a 32-bit addition. -/
def Sieve2 (fuel limit cache_size : Nat) : Option (List Bool) :=
  let sqrt := u32 (Nat.sqrt limit + 1)
  let memory := limit / 2 + 1
  let _segment_size := segment_size cache_size
  match Sieve fuel sqrt with
  | none => none
  | some auxiliarySieve =>
    (blockLoop auxiliarySieve memory cache_size fuel fuel (initState memory)).map
      SegState.answer

/-! ## The queries `CountPrimes` and `print` -/

/-- The loop `for (uint64_t i{start/2}; i<(end+1)/2; ++i) if (m_sieve.at(i)) ++answer;`
with `n` iterations left; `answer` is a `uint32_t`. -/
def countLoop (m_sieve : List Bool) : Nat → Nat → Nat → Option Nat
  | 0, _, answer => some answer
  | n + 1, i, answer =>
    match m_sieve[i]? with
    | none => none
    | some b => countLoop m_sieve n (i + 1) (if b then u32 (answer + 1) else answer)

/-- The method `CountPrimes`; `none` is the exception of `at`. -/
def CountPrimes (m_sieve : List Bool) (start end_ : Nat) : Option Nat :=
  let two := decide (start ≤ 2 ∧ 2 ≤ end_)
  let answer := if two then 1 else 0
  let start1 := if two then 2 else start
  countLoop m_sieve (u64 (end_ + 1) / 2 - start1 / 2) (start1 / 2) answer

/-- The loop `for (uint64_t i{start/2}; i<(end+1)/2; ++i) if (m_sieve.at(i)) std::cout << i*2 +1`
with `n` iterations left; `out` is what has been written so far. -/
def printLoop (m_sieve : List Bool) : Nat → Nat → List Nat → Option (List Nat)
  | 0, _, out => some out
  | n + 1, i, out =>
    match m_sieve[i]? with
    | none => none
    | some b => printLoop m_sieve n (i + 1) (if b then out ++ [u64 (i * 2 + 1)] else out)

/-- The method `print`: the list of the numbers written to `std::cout`; `none` is the
exception of `at`. -/
def print (m_sieve : List Bool) (start end_ : Nat) : Option (List Nat) :=
  let out := if start ≤ 2 then [2] else []
  let start1 := if start ≤ 2 then 2 else start
  printLoop m_sieve (u64 (end_ + 1) / 2 - start1 / 2) (start1 / 2) out

/-! ## The array indices read by `CountPrimes` -/

/-- The indices passed to `m_sieve.at` by the loop of `CountPrimes`, in order, with `n`
iterations left from index `i`; the walk stops at the first index at which `at` throws. -/
def countReads (m_sieve : List Bool) : Nat → Nat → List Nat
  | 0, _ => []
  | n + 1, i =>
    i :: (match m_sieve[i]? with
      | none => []
      | some _ => countReads m_sieve n (i + 1))

/-- The indices passed to `m_sieve.at` by `CountPrimes(start, end)`, in order. -/
def CountPrimesReads (m_sieve : List Bool) (start end_ : Nat) : List Nat :=
  let two := decide (start ≤ 2 ∧ 2 ≤ end_)
  let start1 := if two then 2 else start
  countReads m_sieve (u64 (end_ + 1) / 2 - start1 / 2) (start1 / 2)

/-! ## The accesses made by the loops of the segmented constructor

The functions of this section follow the loops of the segmented constructor and list, in
order, what they touch.  They are total: the list is cut where the loop stops, where the
fuel ends, or right after an access outside a vector (a read or a write). -/

/-- The indices `index1` at which the discovery loop reads `auxiliarySieve.m_sieve`,
started at `index1`. -/
def discoverReads (aux : List Bool) (low high : Nat) : Nat → Nat → List Nat
  | 0, _ => []
  | fuel + 1, index1 =>
    if u32 (u32 (u32 (index1 + 1) * index1) * 2) ≤ high then
      index1 :: (match aux[index1]? with
        | none => []
        | some _ => discoverReads aux low high fuel (u32 (index1 + 1)))
    else []

/-- The pairs `(index1, offset)` that the discovery loop, started at `index1`, pushes onto
`primes` and `next`. -/
def discoverPushes (aux : List Bool) (low high : Nat) : Nat → Nat → List (Nat × Nat)
  | 0, _ => []
  | fuel + 1, index1 =>
    if u32 (u32 (u32 (index1 + 1) * index1) * 2) ≤ high then
      match aux[index1]? with
      | none => []
      | some true =>
        (index1, sub32 (u32 (u32 (u32 (index1 + 1) * index1) * 2)) low) ::
          discoverPushes aux low high fuel (u32 (index1 + 1))
      | some false => discoverPushes aux low high fuel (u32 (index1 + 1))
    else []

/-- The values of `copyIndex` for which the commit loop, started at `copyIndex`, reads
`sieve[copyIndex-low]`; `size` is the size of `answer`. -/
def commitExamined (low high : Nat) (sieve : List Bool) (size : Nat) :
    Nat → Nat → List Nat
  | 0, _ => []
  | fuel + 1, copyIndex =>
    if copyIndex ≤ high then
      copyIndex :: (match sieve[sub64 copyIndex low]? with
        | none => []
        | some true =>
          if copyIndex < size then
            commitExamined low high sieve size fuel (u32 (copyIndex + 1))
          else []
        | some false => commitExamined low high sieve size fuel (u32 (copyIndex + 1)))
    else []

/-- The values of `copyIndex` for which the commit loop, started at `copyIndex`, executes
`answer[copyIndex] = true`; `size` is the size of `answer`. -/
def commitWrites (low high : Nat) (sieve : List Bool) (size : Nat) : Nat → Nat → List Nat
  | 0, _ => []
  | fuel + 1, copyIndex =>
    if copyIndex ≤ high then
      match sieve[sub64 copyIndex low]? with
      | none => []
      | some true =>
        copyIndex :: (if copyIndex < size then
            commitWrites low high sieve size fuel (u32 (copyIndex + 1))
          else [])
      | some false => commitWrites low high sieve size fuel (u32 (copyIndex + 1))
    else []

/-- The block buffer `sieve` after the marking loop of the block that starts in state
`st`. -/
def blockBuffer (aux : List Bool) (memory cache_size fuel : Nat) (st : SegState) :
    Option (List Bool) :=
  match discoverLoop aux st.low (blockHigh memory cache_size st.low) fuel st.index1
      st.primes st.next with
  | none => none
  | some (_, primes, next) =>
    (markAll cache_size fuel primes next (List.replicate cache_size true)).map Prod.snd

/-- The indices at which the block that starts in state `st` reads the auxiliary sieve. -/
def blockReads (aux : List Bool) (memory cache_size fuel : Nat) (st : SegState) : List Nat :=
  discoverReads aux st.low (blockHigh memory cache_size st.low) fuel st.index1

/-- The pairs `(index1, offset)` that the block that starts in state `st` appends to
`primes` and `next`. -/
def blockPushes (aux : List Bool) (memory cache_size fuel : Nat) (st : SegState) :
    List (Nat × Nat) :=
  discoverPushes aux st.low (blockHigh memory cache_size st.low) fuel st.index1

/-- The indices examined by the commit loop of the block that starts in state `st`. -/
def blockExamined (aux : List Bool) (memory cache_size fuel : Nat) (st : SegState) :
    List Nat :=
  match blockBuffer aux memory cache_size fuel st with
  | none => []
  | some sieve =>
    commitExamined st.low (blockHigh memory cache_size st.low) sieve st.answer.length fuel
      st.copyIndex

/-- The indices of `answer` written by the commit loop of the block that starts in state
`st`. -/
def blockWrites (aux : List Bool) (memory cache_size fuel : Nat) (st : SegState) :
    List Nat :=
  match blockBuffer aux memory cache_size fuel st with
  | none => []
  | some sieve =>
    commitWrites st.low (blockHigh memory cache_size st.low) sieve st.answer.length fuel
      st.copyIndex

/-- The state in which block number `k` of the block loop starts, counting from `0`;
`none` when the loop does not execute `k` blocks: the loop has ended before
(`low > memory`) or an earlier block gives no result. -/
def blocksRun (aux : List Bool) (memory cache_size fuel : Nat) : Nat → Option SegState
  | 0 => some (initState memory)
  | k + 1 =>
    match blocksRun aux memory cache_size fuel k with
    | none => none
    | some st => if st.low ≤ memory then block aux memory cache_size fuel st else none

/-- The indices examined by the commit loops of the first `k` blocks, in order. -/
def runExamined (aux : List Bool) (memory cache_size fuel : Nat) : Nat → List Nat
  | 0 => []
  | k + 1 =>
    runExamined aux memory cache_size fuel k ++
      (match blocksRun aux memory cache_size fuel k with
        | none => []
        | some st =>
          if st.low ≤ memory then blockExamined aux memory cache_size fuel st else [])

/-! ## The indices visited by the marking loop of `Sieve::Sieve(uint64_t limit)` -/

/-- The indices `j` at which the inner loop
`for (uint64_t j{(i+1)*i*2}; j<memory; j+=2*i+1) answer[j] = false;`, started at `j`,
executes `answer[j] = false`, in order. -/
def markVisited (memory i : Nat) : Nat → Nat → List Nat
  | 0, _ => []
  | fuel + 1, j =>
    if j < memory then j :: markVisited memory i fuel (j + (2 * i + 1)) else []

/-! ## Predicates used in the statements and invariants -/

/-- An earlier prime index `t < i` whose value `2t+1` divides `2k+1` and whose
square does not exceed `2k+1`: index `k` has been struck out before round `i`. -/
def Struck (i k : Nat) : Prop :=
  ∃ t, 1 ≤ t ∧ t < i ∧ Nat.Prime (2 * t + 1) ∧ (2 * t + 1) ∣ (2 * k + 1) ∧
    (2 * t + 1) * (2 * t + 1) ≤ 2 * k + 1

/-- The loop invariant of the outer loop of `Sieve(limit)` before round `i`. -/
def SieveInv (memory i : Nat) (a : List Bool) : Prop :=
  a.length = memory ∧ ∀ k, k < memory → (a[k]? = some true ↔ ¬ Struck i k)

/-- The carry invariant of one entry of `primes`/`next` at the start of the block that
begins at `low`: `p` is a small prime index, and `low + n` is the first index not
below `low` on the progression `(p+1)*p*2 + k*(2*p+1)`. -/
def Carry (low p n : Nat) : Prop :=
  1 ≤ p ∧ p < 2 ^ 15 ∧ n < 2 ^ 31 ∧ (p + 1) * p * 2 ≤ low + n ∧
    (2 * p + 1) ∣ (low + n - (p + 1) * p * 2) ∧
    (low + n = (p + 1) * p * 2 ∨ n < 2 * p + 1)

/-- The auxiliary sieve answers correctly at every index the discovery loop reads
while `high ≤ memory`. -/
def AuxOK (aux : List Bool) (memory : Nat) : Prop :=
  ∀ t, 1 ≤ t → (t + 1) * t * 2 ≤ memory →
    ∃ v, aux[t]? = some v ∧ (v = true ↔ Nat.Prime (2 * t + 1))

/-- The invariant of the block loop, at the start of an iteration. -/
def SegInv (memory : Nat) (st : SegState) : Prop :=
  1 ≤ st.index1 ∧
  (∀ t, 1 ≤ t → (t < st.index1 ↔ (t + 1) * t * 2 < min st.low (memory + 1))) ∧
  st.copyIndex = max 1 (min st.low (memory + 1)) ∧
  List.Forall₂ (Carry st.low) st.primes st.next ∧
  (∀ t, t ∈ st.primes ↔ (1 ≤ t ∧ t < st.index1 ∧ Nat.Prime (2 * t + 1))) ∧
  st.answer.length = memory ∧
  (∀ k, k < memory →
    (st.answer[k]? = some true ↔ (1 ≤ k ∧ k < st.copyIndex ∧ Nat.Prime (2 * k + 1))))

/-- The indices in `[lo, hi)` whose odd value is prime. -/
def oddPrimeIdx (lo hi : Nat) : Finset Nat :=
  (Finset.Ico lo hi).filter (fun x => Nat.Prime (2 * x + 1))

/-- The odd primes below `223`, the possible least prime factors of the odd composite
values below `223^2`. -/
def smallPrimes : List Nat :=
  [3, 5, 7, 11, 13, 17, 19, 23, 29, 31, 37, 41, 43, 47, 53, 59, 61, 67, 71, 73, 79, 83, 89, 97,
   101, 103, 107, 109, 113, 127, 131, 137, 139, 149, 151, 157, 163, 167, 173, 179, 181, 191,
   193, 197, 199, 211]

/-- The product of the entries of `smallPrimes`. -/
def smallPrimesProd : Nat :=
  822891775397605193867790505717795363990583661334824624707314926098627967065375935455

/-- Primality test for the odd value `2*k+1` below `223^2`: below `223` by look-up in
`smallPrimes`, from `223` on by coprimality with the product of `smallPrimes`. -/
def oddPrimeB (k : Nat) : Bool :=
  bif Nat.blt (2 * k + 1) 223 then smallPrimes.elem (2 * k + 1)
  else Nat.beq (Nat.gcd (2 * k + 1) smallPrimesProd) 1

/-- The number of indices in `[i, i + n)` that pass the test `oddPrimeB`, added to `acc`. -/
def countOdd : Nat → Nat → Nat → Nat
  | 0, _, acc => acc
  | n + 1, i, acc => countOdd n (i + 1) (bif oddPrimeB i then acc + 1 else acc)

/-- The vector `testValues` of `Sieve::tests`. -/
def testValues : List Nat := [96, 97, 100, 101, 144, 1000, 26341, 46341]

/-- The vector `expectedResults` of `Sieve::tests`. -/
def expectedResults : List Nat := [24, 25, 25, 26, 34, 168, 2894, 4792]

/-- The array of length `n` in which entry `i` is true exactly when `2*i+1` is prime: the
content of a completed sieve array whose index `0` is marked correctly. -/
def primeArray (n : Nat) : List Bool :=
  (List.range n).map fun i => decide (Nat.Prime (2 * i + 1))

/-! ## The segmented constructor over unbounded natural numbers

The same loops with every `uint32_t` and `uint64_t` variable a natural number: nothing is
truncated, and a difference is the difference of natural numbers.  The accesses to the
vectors are as in the source: one outside a vector gives no result. -/

/-- The discovery loop over natural numbers. -/
def discoverLoopNat (aux : List Bool) (low high : Nat) :
    Nat → Nat → List Nat → List Nat → Option (Nat × List Nat × List Nat)
  | 0, _, _, _ => none
  | fuel + 1, index1, primes, next =>
    if (index1 + 1) * index1 * 2 ≤ high then
      match aux[index1]? with
      | none => none
      | some true =>
        discoverLoopNat aux low high fuel (index1 + 1) (primes ++ [index1])
          (next ++ [(index1 + 1) * index1 * 2 - low])
      | some false => discoverLoopNat aux low high fuel (index1 + 1) primes next
    else some (index1, primes, next)

/-- The inner marking loop over natural numbers. -/
def markBlockNat (cache_size increment : Nat) :
    Nat → Nat → List Bool → Option (Nat × List Bool)
  | 0, _, _ => none
  | fuel + 1, j, sieve =>
    if j < cache_size then
      markBlockNat cache_size increment fuel (j + increment) (sieve.set j false)
    else some (j, sieve)

/-- The marking loop over the carry list, over natural numbers. -/
def markAllNat (cache_size fuel : Nat) :
    List Nat → List Nat → List Bool → Option (List Nat × List Bool)
  | [], [], sieve => some ([], sieve)
  | p :: ps, n :: ns, sieve =>
    match markBlockNat cache_size (p * 2 + 1) fuel n sieve with
    | none => none
    | some (j, sieve1) =>
      match markAllNat cache_size fuel ps ns sieve1 with
      | none => none
      | some (ns1, sieve2) => some ((j - cache_size) :: ns1, sieve2)
  | _, _, _ => none

/-- The commit loop over natural numbers. -/
def commitLoopNat (low high : Nat) (sieve : List Bool) :
    Nat → Nat → List Bool → Option (Nat × List Bool)
  | 0, _, _ => none
  | fuel + 1, copyIndex, answer =>
    if copyIndex ≤ high then
      match sieve[copyIndex - low]? with
      | none => none
      | some true =>
        if copyIndex < answer.length then
          commitLoopNat low high sieve fuel (copyIndex + 1) (answer.set copyIndex true)
        else none
      | some false => commitLoopNat low high sieve fuel (copyIndex + 1) answer
    else some (copyIndex, answer)

/-- One iteration of the block loop over natural numbers. -/
def blockNat (aux : List Bool) (memory cache_size fuel : Nat) (st : SegState) :
    Option SegState :=
  let high := min (st.low + cache_size - 1) memory
  let sieve := List.replicate cache_size true
  match discoverLoopNat aux st.low high fuel st.index1 st.primes st.next with
  | none => none
  | some (index1, primes, next) =>
    match markAllNat cache_size fuel primes next sieve with
    | none => none
    | some (next1, sieve1) =>
      match commitLoopNat st.low high sieve1 fuel st.copyIndex st.answer with
      | none => none
      | some (copyIndex, answer) =>
        some { low := st.low + cache_size, index1 := index1, copyIndex := copyIndex,
               primes := primes, next := next1, answer := answer }

/-- The block loop over natural numbers. -/
def blockLoopNat (aux : List Bool) (memory cache_size fuel : Nat) :
    Nat → SegState → Option SegState
  | 0, _ => none
  | n + 1, st =>
    if st.low ≤ memory then
      match blockNat aux memory cache_size fuel st with
      | none => none
      | some st1 => blockLoopNat aux memory cache_size fuel n st1
    else some st

/-- The segmented constructor over natural numbers. -/
def Sieve2Nat (fuel limit cache_size : Nat) : Option (List Bool) :=
  let sqrt := Nat.sqrt limit + 1
  let memory := limit / 2 + 1
  let _segment_size := 8 * cache_size
  match Sieve fuel sqrt with
  | none => none
  | some auxiliarySieve =>
    (blockLoopNat auxiliarySieve memory cache_size fuel fuel (initState memory)).map
      SegState.answer

/-! ## The segmented constructor with every 32-bit quantity checked

The loops over natural numbers again, giving no result as soon as a value assigned to a
`uint32_t` variable is `2^32` or more, or a difference is negative: `segment_size`, the
`uint32_t sqrt`, the product `(index1+1)*index1*2`, the pushed offset, `++index1`,
`increment`, `j += increment`, `j - cache_size`, `++copyIndex`, `copyIndex - low`.  A
result is therefore the result of a run without wrap and without access outside a
vector. -/

/-- The discovery loop, checked. -/
def discoverLoopChk (aux : List Bool) (low high : Nat) :
    Nat → Nat → List Nat → List Nat → Option (Nat × List Nat × List Nat)
  | 0, _, _, _ => none
  | fuel + 1, index1, primes, next =>
    if (index1 + 1) * index1 * 2 < 2 ^ 32 then
      if (index1 + 1) * index1 * 2 ≤ high then
        match aux[index1]? with
        | none => none
        | some true =>
          if low ≤ (index1 + 1) * index1 * 2 ∧ index1 + 1 < 2 ^ 32 then
            discoverLoopChk aux low high fuel (index1 + 1) (primes ++ [index1])
              (next ++ [(index1 + 1) * index1 * 2 - low])
          else none
        | some false =>
          if index1 + 1 < 2 ^ 32 then
            discoverLoopChk aux low high fuel (index1 + 1) primes next
          else none
      else some (index1, primes, next)
    else none

/-- The inner marking loop, checked. -/
def markBlockChk (cache_size increment : Nat) :
    Nat → Nat → List Bool → Option (Nat × List Bool)
  | 0, _, _ => none
  | fuel + 1, j, sieve =>
    if j < cache_size then
      if j + increment < 2 ^ 32 then
        markBlockChk cache_size increment fuel (j + increment) (sieve.set j false)
      else none
    else some (j, sieve)

/-- The marking loop over the carry list, checked. -/
def markAllChk (cache_size fuel : Nat) :
    List Nat → List Nat → List Bool → Option (List Nat × List Bool)
  | [], [], sieve => some ([], sieve)
  | p :: ps, n :: ns, sieve =>
    if p * 2 + 1 < 2 ^ 32 ∧ n < 2 ^ 32 then
      match markBlockChk cache_size (p * 2 + 1) fuel n sieve with
      | none => none
      | some (j, sieve1) =>
        if cache_size ≤ j then
          match markAllChk cache_size fuel ps ns sieve1 with
          | none => none
          | some (ns1, sieve2) => some ((j - cache_size) :: ns1, sieve2)
        else none
    else none
  | _, _, _ => none

/-- The commit loop, checked. -/
def commitLoopChk (low high : Nat) (sieve : List Bool) :
    Nat → Nat → List Bool → Option (Nat × List Bool)
  | 0, _, _ => none
  | fuel + 1, copyIndex, answer =>
    if copyIndex ≤ high then
      if low ≤ copyIndex ∧ copyIndex + 1 < 2 ^ 32 then
        match sieve[copyIndex - low]? with
        | none => none
        | some true =>
          if copyIndex < answer.length then
            commitLoopChk low high sieve fuel (copyIndex + 1) (answer.set copyIndex true)
          else none
        | some false => commitLoopChk low high sieve fuel (copyIndex + 1) answer
      else none
    else some (copyIndex, answer)

/-- One iteration of the block loop, checked. -/
def blockChk (aux : List Bool) (memory cache_size fuel : Nat) (st : SegState) :
    Option SegState :=
  let high := min (st.low + cache_size - 1) memory
  let sieve := List.replicate cache_size true
  match discoverLoopChk aux st.low high fuel st.index1 st.primes st.next with
  | none => none
  | some (index1, primes, next) =>
    match markAllChk cache_size fuel primes next sieve with
    | none => none
    | some (next1, sieve1) =>
      match commitLoopChk st.low high sieve1 fuel st.copyIndex st.answer with
      | none => none
      | some (copyIndex, answer) =>
        some { low := st.low + cache_size, index1 := index1, copyIndex := copyIndex,
               primes := primes, next := next1, answer := answer }

/-- The block loop, checked. -/
def blockLoopChk (aux : List Bool) (memory cache_size fuel : Nat) :
    Nat → SegState → Option SegState
  | 0, _ => none
  | n + 1, st =>
    if st.low ≤ memory then
      match blockChk aux memory cache_size fuel st with
      | none => none
      | some st1 => blockLoopChk aux memory cache_size fuel n st1
    else some st

/-- The segmented constructor, checked. -/
def Sieve2Chk (fuel limit cache_size : Nat) : Option (List Bool) :=
  let memory := limit / 2 + 1
  if 8 * cache_size < 2 ^ 32 ∧ Nat.sqrt limit + 1 < 2 ^ 32 then
    match Sieve fuel (Nat.sqrt limit + 1) with
    | none => none
    | some auxiliarySieve =>
      (blockLoopChk auxiliarySieve memory cache_size fuel fuel (initState memory)).map
        SegState.answer
  else none

/-! # Theorems -/

/-! ## Arithmetic of the odd-only encoding -/

theorem struck_mono {i i1 k : Nat} (h : i ≤ i1) (hs : Struck i k) : Struck i1 k := by
  obtain ⟨t, h1, h2, h3⟩ := hs
  exact ⟨t, h1, lt_of_lt_of_le h2 h, h3⟩

/-- The indices visited from `(i+1)*i*2` in steps of `2i+1` are those whose value is a
multiple of `2i+1` not below its square. -/
theorem progression_iff (i k : Nat) :
    ((i + 1) * i * 2 ≤ k ∧ (2 * i + 1) ∣ (k - (i + 1) * i * 2)) ↔
      ((2 * i + 1) ∣ (2 * k + 1) ∧ (2 * i + 1) * (2 * i + 1) ≤ 2 * k + 1) := by
  have hsq : (2 * i + 1) * (2 * i + 1) = 2 * ((i + 1) * i * 2) + 1 := by ring
  constructor
  · rintro ⟨hle, c, hc⟩
    refine ⟨⟨2 * c + (2 * i + 1), ?_⟩, by omega⟩
    have hk : k = (i + 1) * i * 2 + (2 * i + 1) * c := by omega
    rw [hk]; ring
  · rintro ⟨hd, hle⟩
    have hle1 : (i + 1) * i * 2 ≤ k := by omega
    refine ⟨hle1, ?_⟩
    have h2 : (2 * i + 1) ∣ 2 * (k - (i + 1) * i * 2) := by
      have e : 2 * (k - (i + 1) * i * 2) = (2 * k + 1) - (2 * i + 1) * (2 * i + 1) := by omega
      rw [e]
      exact Nat.dvd_sub' hd (dvd_mul_right _ _)
    have hcop : Nat.Coprime (2 * i + 1) 2 := by
      rw [Nat.coprime_comm, Nat.coprime_two_left]
      exact ⟨i, by ring⟩
    exact hcop.dvd_of_dvd_mul_left h2

/-- For `k ≥ 1`, if every odd prime whose square is at most `2k+1` has its index
below `B`, then index `k` is struck before round `B` exactly when `2k+1` is composite. -/
theorem not_struck_iff_prime (B k : Nat) (hk : 1 ≤ k)
    (hB : ∀ t, 1 ≤ t → (2 * t + 1) * (2 * t + 1) ≤ 2 * k + 1 → t < B) :
    ¬ Struck B k ↔ Nat.Prime (2 * k + 1) := by
  constructor
  · intro hns
    by_contra hnp
    apply hns
    have hpos : 0 < 2 * k + 1 := by omega
    have hsq := Nat.minFac_sq_le_self hpos hnp
    have hp : Nat.Prime (Nat.minFac (2 * k + 1)) := Nat.minFac_prime (by omega)
    have hd : Nat.minFac (2 * k + 1) ∣ 2 * k + 1 := Nat.minFac_dvd _
    have hodd : Nat.minFac (2 * k + 1) % 2 = 1 := by
      rcases Nat.Prime.eq_two_or_odd hp with h2 | h2
      · exfalso
        rw [h2] at hd
        omega
      · exact h2
    obtain ⟨t, ht⟩ : ∃ t, Nat.minFac (2 * k + 1) = 2 * t + 1 := ⟨Nat.minFac (2 * k + 1) / 2, by omega⟩
    have ht1 : 1 ≤ t := by
      have := hp.two_le
      omega
    rw [ht] at hp hd hsq
    have hsq1 : (2 * t + 1) * (2 * t + 1) ≤ 2 * k + 1 := by
      rw [sq] at hsq; exact hsq
    exact ⟨t, ht1, hB t ht1 hsq1, hp, hd, hsq1⟩
  · rintro hp ⟨t, ht1, _, hpt, hd, hsq⟩
    rcases (Nat.dvd_prime hp).1 hd with h | h
    · omega
    · rw [h] at hsq
      have : 2 * k + 1 < (2 * k + 1) * (2 * k + 1) := by nlinarith
      omega

/-! ## Correctness of the one-argument constructor -/

theorem markLoop_spec (memory i : Nat) :
    ∀ (fuel j : Nat) (a : List Bool), memory - j < fuel →
      ∃ r, markLoop memory i fuel j a = some r ∧ r.length = a.length ∧
        ∀ k, (r[k]? = some true ↔
          (a[k]? = some true ∧ ¬ (j ≤ k ∧ k < memory ∧ (2 * i + 1) ∣ (k - j)))) := by
  intro fuel
  induction fuel with
  | zero => intro j a h; omega
  | succ fuel ih =>
    intro j a h
    by_cases hj : j < memory
    · obtain ⟨r, hr, hlen, hk⟩ := ih (j + (2 * i + 1)) (a.set j false) (by omega)
      refine ⟨r, ?_, ?_, ?_⟩
      · simp only [markLoop, hj, if_true]; exact hr
      · rw [hlen, List.length_set]
      · intro k
        rw [hk k, List.getElem?_set]
        by_cases hkj : j = k
        · subst hkj
          simp only [if_true]
          constructor
          · rintro ⟨h1, _⟩
            split at h1 <;> simp at h1
          · rintro ⟨_, h2⟩
            exact absurd ⟨le_refl _, hj, by simp⟩ h2
        · simp only [hkj, if_false]
          apply and_congr_right
          intro _
          apply not_congr
          constructor
          · rintro ⟨h1, h2, h3⟩
            refine ⟨by omega, h2, ?_⟩
            have e : k - j = (k - (j + (2 * i + 1))) + (2 * i + 1) := by omega
            rw [e]
            exact Dvd.dvd.add h3 (dvd_refl _)
          · rintro ⟨h1, h2, c, hc⟩
            have hc0 : c ≠ 0 := by
              rintro rfl
              omega
            obtain ⟨c1, rfl⟩ := Nat.exists_eq_succ_of_ne_zero hc0
            have hge : 2 * i + 1 ≤ k - j := by
              rw [hc]; exact Nat.le_mul_of_pos_right _ (Nat.succ_pos _)
            refine ⟨by omega, h2, c1, ?_⟩
            have e : k - (j + (2 * i + 1)) = (k - j) - (2 * i + 1) := by omega
            rw [e, hc, Nat.mul_succ]
            omega
    · refine ⟨a, ?_, rfl, ?_⟩
      · simp only [markLoop, hj, if_false]
      · intro k
        constructor
        · intro h1
          exact ⟨h1, fun h2 => hj (by omega)⟩
        · exact fun h1 => h1.1

theorem struck_succ_iff (i k : Nat) (hi : 1 ≤ i) :
    Struck (i + 1) k ↔ (Struck i k ∨ (Nat.Prime (2 * i + 1) ∧ (2 * i + 1) ∣ (2 * k + 1) ∧
      (2 * i + 1) * (2 * i + 1) ≤ 2 * k + 1)) := by
  constructor
  · rintro ⟨t, h1, h2, h3⟩
    by_cases ht : t < i
    · exact Or.inl ⟨t, h1, ht, h3⟩
    · have : t = i := by omega
      subst this
      exact Or.inr h3
  · rintro (h | h)
    · exact struck_mono (Nat.le_succ i) h
    · exact ⟨i, hi, Nat.lt_succ_self i, h⟩

theorem not_struck_self_iff_prime (i : Nat) (hi : 1 ≤ i) :
    ¬ Struck i i ↔ Nat.Prime (2 * i + 1) := by
  apply not_struck_iff_prime i i hi
  intro t ht hsq
  by_contra hlt
  have h1 : i ≤ t := by omega
  have : 2 * i + 1 < (2 * t + 1) * (2 * t + 1) := by nlinarith
  omega

theorem sieveInv_step (memory i : Nat) (a r : List Bool) (hi : 1 ≤ i) (him : i < memory)
    (hinv : SieveInv memory i a)
    (hr : r.length = a.length)
    (hk : ∀ k, (r[k]? = some true ↔
      (a[k]? = some true ∧ ¬ ((i + 1) * i * 2 ≤ k ∧ k < memory ∧
        (2 * i + 1) ∣ (k - (i + 1) * i * 2)))))
    (hai : a[i]? = some true) : SieveInv memory (i + 1) r := by
  obtain ⟨hlen, hinv⟩ := hinv
  have hp : Nat.Prime (2 * i + 1) :=
    (not_struck_self_iff_prime i hi).1 ((hinv i him).1 hai)
  refine ⟨by rw [hr, hlen], ?_⟩
  intro k hkm
  rw [hk k, hinv k hkm, struck_succ_iff i k hi, not_or]
  apply and_congr_right
  intro _
  apply not_congr
  rw [← progression_iff i k]
  constructor
  · rintro ⟨h1, _, h3⟩
    exact ⟨hp, h1, h3⟩
  · rintro ⟨_, h1, h3⟩
    exact ⟨h1, hkm, h3⟩

theorem sieveInv_skip (memory i : Nat) (a : List Bool) (hi : 1 ≤ i) (him : i < memory)
    (hinv : SieveInv memory i a) (hai : a[i]? = some false) :
    SieveInv memory (i + 1) a := by
  obtain ⟨hlen, hinv⟩ := hinv
  have hnp : ¬ Nat.Prime (2 * i + 1) := by
    intro hp
    have := (hinv i him).2 ((not_struck_self_iff_prime i hi).2 hp)
    rw [hai] at this
    simp at this
  refine ⟨hlen, ?_⟩
  intro k hkm
  rw [hinv k hkm, struck_succ_iff i k hi]
  apply not_congr
  constructor
  · exact Or.inl
  · rintro (h | h)
    · exact h
    · exact absurd h.1 hnp

theorem sieveLoop_spec (memory checkingRange fuel : Nat) (hf : memory < fuel)
    (hcr : checkingRange ≤ memory) :
    ∀ (n i : Nat) (a : List Bool), checkingRange - i < n → 1 ≤ i → SieveInv memory i a →
      ∃ r, sieveLoop memory checkingRange fuel n i a = some r ∧
        SieveInv memory (max i checkingRange) r := by
  intro n
  induction n with
  | zero => intro i a h; omega
  | succ n ih =>
    intro i a h hi hinv
    by_cases hic : i < checkingRange
    · have him : i < memory := by omega
      have hmax : max i checkingRange = max (i + 1) checkingRange := by
        rw [max_eq_right (by omega), max_eq_right (by omega)]
      have hsome : ∃ b, a[i]? = some b := by
        have hia : i < a.length := by rw [hinv.1]; exact him
        exact ⟨a[i], List.getElem?_eq_getElem hia⟩
      obtain ⟨b, hb⟩ := hsome
      cases b with
      | true =>
        obtain ⟨r1, hr1, hlen1, hk1⟩ := markLoop_spec memory i fuel ((i + 1) * i * 2) a (by omega)
        have hinv1 := sieveInv_step memory i a r1 hi him hinv hlen1 hk1 hb
        obtain ⟨r, hr, hfin⟩ := ih (i + 1) r1 (by omega) (by omega) hinv1
        refine ⟨r, ?_, by rw [hmax]; exact hfin⟩
        simp only [sieveLoop, hic, if_true, hb, hr1]
        exact hr
      | false =>
        have hinv1 := sieveInv_skip memory i a hi him hinv hb
        obtain ⟨r, hr, hfin⟩ := ih (i + 1) a (by omega) (by omega) hinv1
        refine ⟨r, ?_, by rw [hmax]; exact hfin⟩
        simp only [sieveLoop, hic, if_true, hb]
        exact hr
    · refine ⟨a, ?_, ?_⟩
      · simp only [sieveLoop, hic, if_false]
      · rw [max_eq_left (by omega)]
        exact hinv

theorem sieveInv_init (memory : Nat) : SieveInv memory 1 (List.replicate memory true) := by
  refine ⟨List.length_replicate _ _, ?_⟩
  intro k hk
  rw [List.getElem?_replicate]
  simp only [hk, if_true, true_iff]
  rintro ⟨t, h1, h2, _⟩
  omega

/-- Every odd prime whose square is at most `limit + 1` has its index below
`checkingRange = sqrt(limit)/2 + 1`. -/
theorem checkingRange_covers (limit k t : Nat) (hk : k ≤ limit / 2) (ht : 1 ≤ t)
    (hsq : (2 * t + 1) * (2 * t + 1) ≤ 2 * k + 1) : t < Nat.sqrt limit / 2 + 1 := by
  have h1 : 2 * t ≤ Nat.sqrt limit := by
    rw [Nat.le_sqrt]
    have : 2 * k ≤ limit := by omega
    nlinarith
  omega

/-- Full description of the array built by `Sieve(limit)`. -/
theorem Sieve_spec (limit fuel : Nat) (hf : limit / 2 + 2 ≤ fuel) :
    ∃ a, Sieve fuel limit = some a ∧ a.length = limit / 2 + 1 ∧
      ∀ k, k ≤ limit / 2 → (a[k]? = some true ↔ ¬ Struck (Nat.sqrt limit / 2 + 1) k) := by
  have hcr : Nat.sqrt limit / 2 + 1 ≤ limit / 2 + 1 := by
    have := Nat.sqrt_le_self limit
    omega
  obtain ⟨r, hr, hlen, hinv⟩ := sieveLoop_spec (limit / 2 + 1) (Nat.sqrt limit / 2 + 1) fuel
    (by omega) hcr fuel 1 (List.replicate (limit / 2 + 1) true) (by omega) (le_refl 1)
    (sieveInv_init _)
  refine ⟨r, hr, hlen, ?_⟩
  intro k hk
  have := hinv k (by omega)
  rw [max_eq_right (by omega)] at this
  exact this

/-- Entry `i` of `Sieve(limit)` for `1 ≤ i ≤ limit/2`. -/
theorem Sieve_entry_iff_prime (L fuel i : Nat) (hf : L / 2 + 2 ≤ fuel) (h1 : 1 ≤ i) (h2 : i ≤ L / 2) :
    ∃ a, Sieve fuel L = some a ∧ a.length = L / 2 + 1 ∧
      (a[i]? = some true ↔ Nat.Prime (2 * i + 1)) := by
  obtain ⟨a, ha, hlen, hk⟩ := Sieve_spec L fuel hf
  refine ⟨a, ha, hlen, ?_⟩
  rw [hk i h2]
  exact not_struck_iff_prime _ i h1 (fun t ht hsq => checkingRange_covers L i t h2 ht hsq)

/-! ## Machine arithmetic without wrap-around -/

theorem u32_of_lt {n : Nat} (h : n < 2 ^ 32) : u32 n = n := by
  unfold u32
  exact Nat.mod_eq_of_lt h

theorem u64_of_lt {n : Nat} (h : n < 2 ^ 64) : u64 n = n := by
  unfold u64
  exact Nat.mod_eq_of_lt h

theorem sub32_of_le {a b : Nat} (hba : b ≤ a) (ha : a < 2 ^ 32) : sub32 a b = a - b := by
  unfold sub32
  have hb : b % 2 ^ 32 = b := Nat.mod_eq_of_lt (by omega)
  rw [hb]
  have e : a + 2 ^ 32 - b = (a - b) + 2 ^ 32 := by omega
  rw [e, Nat.add_mod_right]
  exact Nat.mod_eq_of_lt (by omega)

theorem sub64_of_le {a b : Nat} (hba : b ≤ a) (ha : a < 2 ^ 64) : sub64 a b = a - b := by
  unfold sub64
  have hb : b % 2 ^ 64 = b := Nat.mod_eq_of_lt (by omega)
  rw [hb]
  have e : a + 2 ^ 64 - b = (a - b) + 2 ^ 64 := by omega
  rw [e, Nat.add_mod_right]
  exact Nat.mod_eq_of_lt (by omega)

/-- The index of the square, `(t+1)*t*2`, is strictly increasing in `t`. -/
theorem square_index_lt_iff (t s : Nat) : (t + 1) * t * 2 < (s + 1) * s * 2 ↔ t < s := by
  constructor
  · intro h
    by_contra hn
    have hst : s ≤ t := by omega
    have : (s + 1) * s * 2 ≤ (t + 1) * t * 2 := by nlinarith
    omega
  · intro h
    have h1 : t + 1 ≤ s := h
    nlinarith

theorem square_index_le_iff (t s : Nat) : (t + 1) * t * 2 ≤ (s + 1) * s * 2 ↔ t ≤ s := by
  have := square_index_lt_iff s t
  constructor
  · intro h
    by_contra hn
    have h1 := (square_index_lt_iff s t).2 (by omega)
    omega
  · intro h
    by_contra hn
    have h1 := (square_index_lt_iff s t).1 (by omega)
    omega

/-- A prime index whose square index is at most `2^30` is below `2^15`. -/
theorem small_index {t : Nat} (h : (t + 1) * t * 2 ≤ 2 ^ 30) : t < 2 ^ 15 := by
  by_contra hn
  have h1 : 2 ^ 15 ≤ t := by omega
  have h2 : (2 ^ 15 + 1) * 2 ^ 15 * 2 ≤ (t + 1) * t * 2 := (square_index_le_iff _ _).2 h1
  norm_num at h2 h
  omega

theorem progression_step (j inc k : Nat) (hinc : 0 < inc) (hkj : j ≠ k) :
    (j ≤ k ∧ inc ∣ (k - j)) ↔ (j + inc ≤ k ∧ inc ∣ (k - (j + inc))) := by
  constructor
  · rintro ⟨h1, c, hc⟩
    have hc0 : c ≠ 0 := by
      rintro rfl
      omega
    obtain ⟨c1, rfl⟩ := Nat.exists_eq_succ_of_ne_zero hc0
    have hge : inc ≤ k - j := by
      rw [hc]; exact Nat.le_mul_of_pos_right _ (Nat.succ_pos _)
    refine ⟨by omega, c1, ?_⟩
    have e : k - (j + inc) = (k - j) - inc := by omega
    rw [e, hc, Nat.mul_succ]
    omega
  · rintro ⟨h1, h3⟩
    refine ⟨by omega, ?_⟩
    have e : k - j = (k - (j + inc)) + inc := by omega
    rw [e]
    exact Dvd.dvd.add h3 (dvd_refl _)

/-! ## The marking loops of the segmented constructor -/

theorem markBlock_spec (b inc : Nat) (hinc : 0 < inc) (hb : b + inc ≤ 2 ^ 32) :
    ∀ (fuel j : Nat) (s : List Bool), b - j < fuel → j < 2 ^ 32 →
      ∃ j1 s1, markBlock b inc fuel j s = some (j1, s1) ∧ s1.length = s.length ∧
        b ≤ j1 ∧ j ≤ j1 ∧ j1 < 2 ^ 32 ∧ inc ∣ (j1 - j) ∧ (j1 = j ∨ j1 < b + inc) ∧
        ∀ x, (s1[x]? = some true ↔
          (s[x]? = some true ∧ ¬ (j ≤ x ∧ x < b ∧ inc ∣ (x - j)))) := by
  intro fuel
  induction fuel with
  | zero => intro j s h; omega
  | succ fuel ih =>
    intro j s h hj32
    by_cases hj : j < b
    · have hu : u32 (j + inc) = j + inc := u32_of_lt (by omega)
      obtain ⟨j1, s1, hr, hlen, h1, h2, h32, h3, h4, hx⟩ :=
        ih (j + inc) (s.set j false) (by omega) (by omega)
      refine ⟨j1, s1, ?_, ?_, h1, by omega, h32, ?_, Or.inr (by omega), ?_⟩
      · simp only [markBlock, hj, if_true, hu]; exact hr
      · rw [hlen, List.length_set]
      · have e : j1 - j = (j1 - (j + inc)) + inc := by omega
        rw [e]
        exact Dvd.dvd.add h3 (dvd_refl _)
      · intro x
        rw [hx x, List.getElem?_set]
        by_cases hxj : j = x
        · subst hxj
          simp only [if_true]
          constructor
          · rintro ⟨h5, _⟩
            split at h5 <;> simp at h5
          · rintro ⟨_, h6⟩
            exact absurd ⟨le_refl _, hj, by simp⟩ h6
        · simp only [hxj, if_false]
          apply and_congr_right
          intro _
          apply not_congr
          have := progression_step j inc x hinc hxj
          constructor
          · rintro ⟨h5, h6, h7⟩
            exact ⟨(this.2 ⟨h5, h7⟩).1, h6, (this.2 ⟨h5, h7⟩).2⟩
          · rintro ⟨h5, h6, h7⟩
            exact ⟨(this.1 ⟨h5, h7⟩).1, h6, (this.1 ⟨h5, h7⟩).2⟩
    · refine ⟨j, s, ?_, rfl, by omega, le_refl _, hj32, by simp, Or.inl rfl, ?_⟩
      · simp only [markBlock, hj, if_false]
      · intro x
        constructor
        · intro h1
          exact ⟨h1, fun h2 => hj (by omega)⟩
        · exact fun h1 => h1.1

/-- The positions struck in the block buffer for a carried entry are the offsets of
the indices on its progression. -/
theorem carry_marks {low p n : Nat} (b x : Nat) (hc : Carry low p n) :
    (n ≤ x ∧ x < b ∧ (2 * p + 1) ∣ (x - n)) ↔
      (x < b ∧ (p + 1) * p * 2 ≤ low + x ∧ (2 * p + 1) ∣ (low + x - (p + 1) * p * 2)) := by
  obtain ⟨_, _, _, hle, hd, hmin⟩ := hc
  constructor
  · rintro ⟨h1, h2, h3⟩
    refine ⟨h2, by omega, ?_⟩
    have e : low + x - (p + 1) * p * 2 = (low + n - (p + 1) * p * 2) + (x - n) := by omega
    rw [e]
    exact Dvd.dvd.add hd h3
  · rintro ⟨h1, h2, h3⟩
    have hnx : n ≤ x := by
      rcases hmin with h | h
      · omega
      · by_contra hlt
        have hd2 : (2 * p + 1) ∣ (n - x) := by
          have e : n - x = (low + n - (p + 1) * p * 2) - (low + x - (p + 1) * p * 2) := by
            omega
          rw [e]
          exact Nat.dvd_sub' hd h3
        have := Nat.le_of_dvd (by omega) hd2
        omega
    refine ⟨hnx, h1, ?_⟩
    have e : x - n = (low + x - (p + 1) * p * 2) - (low + n - (p + 1) * p * 2) := by omega
    rw [e]
    exact Nat.dvd_sub' h3 hd

/-- The offset stored back after the marking of a block satisfies the carry invariant
of the following block. -/
theorem carry_next {low p n b j1 : Nat} (hc : Carry low p n) (hb : b ≤ 2 ^ 31)
    (h1 : b ≤ j1) (h2 : n ≤ j1) (h3 : (2 * p + 1) ∣ (j1 - n))
    (h4 : j1 = n ∨ j1 < b + (2 * p + 1)) : Carry (low + b) p (j1 - b) := by
  obtain ⟨hp1, hp2, hn, hle, hd, hmin⟩ := hc
  have hp3 : 2 * p + 1 < 2 ^ 31 := by
    have : (2:Nat) ^ 15 = 32768 := by norm_num
    have : (2:Nat) ^ 31 = 2147483648 := by norm_num
    omega
  refine ⟨hp1, hp2, ?_, by omega, ?_, ?_⟩
  · rcases h4 with h | h <;> omega
  · have e : low + b + (j1 - b) - (p + 1) * p * 2 = (low + n - (p + 1) * p * 2) + (j1 - n) := by
      omega
    rw [e]
    exact Dvd.dvd.add hd h3
  · rcases h4 with h | h
    · rcases hmin with h5 | h5
      · left; omega
      · right; omega
    · right; omega

theorem markAll_spec (b fuel low : Nat) (hb : b ≤ 2 ^ 31) (hf : b < fuel) :
    ∀ (P N : List Nat) (s : List Bool), List.Forall₂ (Carry low) P N →
      ∃ N1 s1, markAll b fuel P N s = some (N1, s1) ∧ s1.length = s.length ∧
        List.Forall₂ (Carry (low + b)) P N1 ∧
        ∀ x, (s1[x]? = some true ↔
          (s[x]? = some true ∧ ∀ p, p ∈ P →
            ¬ (x < b ∧ (p + 1) * p * 2 ≤ low + x ∧
              (2 * p + 1) ∣ (low + x - (p + 1) * p * 2)))) := by
  intro P N s hPN
  induction hPN generalizing s with
  | nil =>
    refine ⟨[], s, rfl, rfl, List.Forall₂.nil, ?_⟩
    intro x
    simp
  | @cons p n ps ns hc _ ih =>
    have hp2 : p < 2 ^ 15 := hc.2.1
    have hn : n < 2 ^ 31 := hc.2.2.1
    have h15 : (2:Nat) ^ 15 = 32768 := by norm_num
    have h31 : (2:Nat) ^ 31 = 2147483648 := by norm_num
    have h32 : (2:Nat) ^ 32 = 4294967296 := by norm_num
    have hinc : u32 (u32 (p * 2) + 1) = 2 * p + 1 := by
      have e1 : u32 (p * 2) = p * 2 := u32_of_lt (by omega)
      have e2 : u32 (p * 2 + 1) = p * 2 + 1 := u32_of_lt (by omega)
      rw [e1, e2]
      omega
    obtain ⟨j1, s1, hr, hlen, h1, h2, _, h3, h4, hx⟩ :=
      markBlock_spec b (2 * p + 1) (by omega) (by omega) fuel n s (by omega) (by omega)
    obtain ⟨N1, s2, hr2, hlen2, hF, hx2⟩ := ih s1
    have hj32 : j1 < 2 ^ 32 := by
      rcases h4 with h | h <;> omega
    refine ⟨(j1 - b) :: N1, s2, ?_, by rw [hlen2, hlen], ?_, ?_⟩
    · simp only [markAll, hinc, hr, hr2, sub32_of_le h1 hj32]
    · exact List.Forall₂.cons (carry_next hc hb h1 h2 h3 h4) hF
    · intro x
      rw [hx2 x, hx x, carry_marks b x hc]
      simp only [List.mem_cons, forall_eq_or_imp]
      tauto

/-! ## The discovery and commit loops -/

theorem square_index_lt_pow {i : Nat} (h1 : 1 ≤ i) (h : i * (i - 1) * 2 ≤ 2 ^ 30) :
    (i + 1) * i * 2 < 2 ^ 32 ∧ i + 1 < 2 ^ 32 := by
  obtain ⟨t, rfl⟩ : ∃ t, i = t + 1 := ⟨i - 1, by omega⟩
  have ht : t < 2 ^ 15 := by
    apply small_index
    simpa using h
  have h15 : (2:Nat) ^ 15 = 32768 := by norm_num
  have h32 : (2:Nat) ^ 32 = 4294967296 := by norm_num
  rw [h15] at ht
  rw [h32]
  constructor
  · nlinarith
  · omega

theorem discoverLoop_spec (aux : List Bool) (low high M : Nat) (hM : M ≤ 2 ^ 30)
    (hh : high ≤ M) (haux : AuxOK aux M) :
    ∀ (fuel i : Nat) (P N : List Nat), high + 1 - i < fuel → 1 ≤ i →
      i * (i - 1) * 2 ≤ M → low ≤ (i + 1) * i * 2 → List.Forall₂ (Carry low) P N →
      ∃ i1 P1 N1, discoverLoop aux low high fuel i P N = some (i1, P1, N1) ∧ i ≤ i1 ∧
        high < (i1 + 1) * i1 * 2 ∧ (∀ t, i ≤ t → t < i1 → (t + 1) * t * 2 ≤ high) ∧
        List.Forall₂ (Carry low) P1 N1 ∧
        ∀ t, t ∈ P1 ↔ (t ∈ P ∨ (i ≤ t ∧ t < i1 ∧ Nat.Prime (2 * t + 1))) := by
  intro fuel
  induction fuel with
  | zero => intro i P N h; omega
  | succ fuel ih =>
    intro i P N hf hi hbound hlow hPN
    obtain ⟨hv32, hi32⟩ := square_index_lt_pow hi (le_trans hbound hM)
    have e1 : u32 (i + 1) = i + 1 := u32_of_lt hi32
    have e2 : u32 ((i + 1) * i) = (i + 1) * i := u32_of_lt (by omega)
    have e3 : u32 ((i + 1) * i * 2) = (i + 1) * i * 2 := u32_of_lt hv32
    by_cases hg : (i + 1) * i * 2 ≤ high
    · have hile : i ≤ high := by nlinarith
      have hnext : low ≤ (i + 1 + 1) * (i + 1) * 2 :=
        le_trans hlow ((square_index_le_iff _ _).2 (Nat.le_succ i))
      have hb1 : (i + 1) * (i + 1 - 1) * 2 ≤ M := by
        simp only [Nat.add_sub_cancel]
        omega
      obtain ⟨v, hv, hvp⟩ := haux i hi (le_trans hg hh)
      cases v with
      | true =>
        have hp : Nat.Prime (2 * i + 1) := hvp.1 rfl
        have hc : Carry low i ((i + 1) * i * 2 - low) := by
          have h30 : (2:Nat) ^ 30 = 1073741824 := by norm_num
          have h31 : (2:Nat) ^ 31 = 2147483648 := by norm_num
          refine ⟨hi, small_index (by omega), by omega, by omega, ?_, Or.inl (by omega)⟩
          have e : low + ((i + 1) * i * 2 - low) - (i + 1) * i * 2 = 0 := by omega
          rw [e]
          exact dvd_zero _
        have hPN1 : List.Forall₂ (Carry low) (P ++ [i]) (N ++ [(i + 1) * i * 2 - low]) :=
          List.rel_append hPN (List.Forall₂.cons hc List.Forall₂.nil)
        obtain ⟨i1, P1, N1, hr, h1, h2, h3, h4, h5⟩ :=
          ih (i + 1) (P ++ [i]) (N ++ [(i + 1) * i * 2 - low]) (by omega) (by omega)
            hb1 hnext hPN1
        refine ⟨i1, P1, N1, ?_, by omega, h2, ?_, h4, ?_⟩
        · simp only [discoverLoop, e1, e2, e3, hg, if_true, hv, sub32_of_le hlow hv32]
          exact hr
        · intro t ht1 ht2
          by_cases hti : t = i
          · rw [hti]; exact hg
          · exact h3 t (by omega) ht2
        · intro t
          rw [h5 t, List.mem_append, List.mem_singleton]
          constructor
          · rintro ((h | h) | ⟨h6, h7, h8⟩)
            · exact Or.inl h
            · subst h
              exact Or.inr ⟨le_refl _, by omega, hp⟩
            · exact Or.inr ⟨by omega, h7, h8⟩
          · rintro (h | ⟨h6, h7, h8⟩)
            · exact Or.inl (Or.inl h)
            · by_cases hti : t = i
              · exact Or.inl (Or.inr hti)
              · exact Or.inr ⟨by omega, h7, h8⟩
      | false =>
        have hp : ¬ Nat.Prime (2 * i + 1) := fun h => by
          have := hvp.2 h
          simp at this
        obtain ⟨i1, P1, N1, hr, h1, h2, h3, h4, h5⟩ :=
          ih (i + 1) P N (by omega) (by omega) hb1 hnext hPN
        refine ⟨i1, P1, N1, ?_, by omega, h2, ?_, h4, ?_⟩
        · simp only [discoverLoop, e1, e2, e3, hg, if_true, hv]
          exact hr
        · intro t ht1 ht2
          by_cases hti : t = i
          · rw [hti]; exact hg
          · exact h3 t (by omega) ht2
        · intro t
          rw [h5 t]
          constructor
          · rintro (h | ⟨h6, h7, h8⟩)
            · exact Or.inl h
            · exact Or.inr ⟨by omega, h7, h8⟩
          · rintro (h | ⟨h6, h7, h8⟩)
            · exact Or.inl h
            · by_cases hti : t = i
              · rw [hti] at h8
                exact absurd h8 hp
              · exact Or.inr ⟨by omega, h7, h8⟩
    · refine ⟨i, P, N, ?_, le_refl _, by omega, ?_, hPN, ?_⟩
      · simp only [discoverLoop, e1, e2, e3, hg, if_false]
      · intro t ht1 ht2
        omega
      · intro t
        constructor
        · exact Or.inl
        · rintro (h | ⟨h6, h7, _⟩)
          · exact h
          · omega

/-- What a commit loop that gives a result has done. -/
theorem commitLoop_result (low high : Nat) (s : List Bool) (hh2 : high + 1 < 2 ^ 32) :
    ∀ (fuel c : Nat) (a : List Bool) (r : Nat × List Bool), low ≤ c →
      commitLoop low high s fuel c a = some r →
      r.1 = max c (high + 1) ∧ r.2.length = a.length ∧
        ∀ k, (r.2[k]? = some true ↔
          (a[k]? = some true ∨
            (c ≤ k ∧ k ≤ high ∧ k < a.length ∧ s[k - low]? = some true))) := by
  intro fuel
  induction fuel with
  | zero => intro c a r _ h; simp [commitLoop] at h
  | succ fuel ih =>
    intro c a r hlc h
    have h32 : (2:Nat) ^ 32 = 4294967296 := by norm_num
    have h64 : (2:Nat) ^ 64 = 18446744073709551616 := by norm_num
    by_cases hc : c ≤ high
    · have e1 : sub64 c low = c - low := sub64_of_le hlc (by omega)
      have e2 : u32 (c + 1) = c + 1 := u32_of_lt (by omega)
      simp only [commitLoop, hc, if_true, e1, e2] at h
      cases hv : s[c - low]? with
      | none => rw [hv] at h; simp at h
      | some v =>
        rw [hv] at h
        cases v with
        | true =>
          simp only at h
          by_cases hlt : c < a.length
          · simp only [hlt, if_true] at h
            obtain ⟨q1, q2, q3⟩ := ih (c + 1) (a.set c true) r (by omega) h
            rw [List.length_set] at q2
            refine ⟨by omega, q2, ?_⟩
            intro k
            rw [q3 k, List.length_set]
            by_cases hkc : k = c
            · subst hkc
              constructor
              · intro _
                exact Or.inr ⟨le_refl _, hc, hlt, hv⟩
              · intro _
                left
                rw [List.getElem?_set_self hlt]
            · rw [List.getElem?_set_ne (Ne.symm hkc)]
              constructor
              · rintro (h1 | ⟨h1, h2, h3, h4⟩)
                · exact Or.inl h1
                · exact Or.inr ⟨by omega, h2, h3, h4⟩
              · rintro (h1 | ⟨h1, h2, h3, h4⟩)
                · exact Or.inl h1
                · exact Or.inr ⟨by omega, h2, h3, h4⟩
          · simp only [hlt, if_false] at h
            simp at h
        | false =>
          simp only at h
          obtain ⟨q1, q2, q3⟩ := ih (c + 1) a r (by omega) h
          refine ⟨by omega, q2, ?_⟩
          intro k
          rw [q3 k]
          constructor
          · rintro (h1 | ⟨h1, h2, h3, h4⟩)
            · exact Or.inl h1
            · exact Or.inr ⟨by omega, h2, h3, h4⟩
          · rintro (h1 | ⟨h1, h2, h3, h4⟩)
            · exact Or.inl h1
            · by_cases hkc : k = c
              · subst hkc
                rw [hv] at h4
                simp at h4
              · exact Or.inr ⟨by omega, h2, h3, h4⟩
    · simp only [commitLoop, hc, if_false] at h
      have e := Option.some.inj h
      subst e
      refine ⟨by simp only; omega, rfl, ?_⟩
      intro k
      constructor
      · exact Or.inl
      · rintro (h1 | ⟨h1, h2, _⟩)
        · exact h1
        · omega

/-- A commit loop whose reads stay in the buffer and whose writes stay in `answer` ends,
with enough fuel. -/
theorem commitLoop_total (low high b : Nat) (s : List Bool) (hs : s.length = b)
    (hh : high < low + b) (hh2 : high + 1 < 2 ^ 32) :
    ∀ (fuel c : Nat) (a : List Bool), high + 1 - c < fuel → low ≤ c →
      (∀ k, c ≤ k → k ≤ high → s[k - low]? = some true → k < a.length) →
      ∃ r, commitLoop low high s fuel c a = some r := by
  intro fuel
  induction fuel with
  | zero => intro c a h; omega
  | succ fuel ih =>
    intro c a hf hlc hw
    have h32 : (2:Nat) ^ 32 = 4294967296 := by norm_num
    have h64 : (2:Nat) ^ 64 = 18446744073709551616 := by norm_num
    by_cases hc : c ≤ high
    · have e1 : sub64 c low = c - low := sub64_of_le hlc (by omega)
      have e2 : u32 (c + 1) = c + 1 := u32_of_lt (by omega)
      have hlt : c - low < s.length := by omega
      have hv : s[c - low]? = some (s[c - low]) := List.getElem?_eq_getElem hlt
      cases hb : s[c - low] with
      | true =>
        rw [hb] at hv
        have hca : c < a.length := hw c (le_refl _) hc hv
        obtain ⟨r, hr⟩ := ih (c + 1) (a.set c true) (by omega) (by omega)
          (fun k h1 h2 h3 => by rw [List.length_set]; exact hw k (by omega) h2 h3)
        refine ⟨r, ?_⟩
        simp only [commitLoop, hc, if_true, e1, e2, hv, hca]
        exact hr
      | false =>
        rw [hb] at hv
        obtain ⟨r, hr⟩ := ih (c + 1) a (by omega) (by omega)
          (fun k h1 h2 h3 => hw k (by omega) h2 h3)
        refine ⟨r, ?_⟩
        simp only [commitLoop, hc, if_true, e1, e2, hv]
        exact hr
    · exact ⟨(c, a), by simp only [commitLoop, hc, if_false]⟩

/-- A commit loop that writes past the end of `answer` gives no result, whatever the
fuel. -/
theorem commitLoop_fail (low high : Nat) (s : List Bool) (hh2 : high + 1 < 2 ^ 32)
    (k : Nat) (hk : k ≤ high) (hs : s[k - low]? = some true) :
    ∀ (fuel c : Nat) (a : List Bool), low ≤ c → c ≤ k → a.length ≤ k →
      commitLoop low high s fuel c a = none := by
  intro fuel
  induction fuel with
  | zero => intro c a _ _ _; rfl
  | succ fuel ih =>
    intro c a hlc hck hak
    have h32 : (2:Nat) ^ 32 = 4294967296 := by norm_num
    have h64 : (2:Nat) ^ 64 = 18446744073709551616 := by norm_num
    have hc : c ≤ high := le_trans hck hk
    have e1 : sub64 c low = c - low := sub64_of_le hlc (by omega)
    have e2 : u32 (c + 1) = c + 1 := u32_of_lt (by omega)
    simp only [commitLoop, hc, if_true, e1, e2]
    by_cases hkc : c = k
    · subst hkc
      have hna : ¬ c < a.length := by omega
      simp only [hs, hna, if_false]
    · cases s[c - low]? with
      | none => rfl
      | some v =>
        cases v with
        | true =>
          simp only
          by_cases hca : c < a.length
          · simp only [hca, if_true]
            exact ih (c + 1) _ (by omega) (by omega) (by rw [List.length_set]; exact hak)
          · simp only [hca, if_false]
        | false => exact ih (c + 1) a (by omega) (by omega) hak

/-! ## One block, the block loop and the segmented constructor -/

theorem blockHigh_eq (M b low : Nat) (hb1 : 1 ≤ b) (h : low + b < 2 ^ 64) :
    blockHigh M b low = min (low + b - 1) M := by
  unfold blockHigh
  rw [sub64_of_le (by omega) h]

/-- An entry of the marked block buffer is still true exactly when no carried prime
strikes the index it stands for. -/
theorem buffer_true_iff (low i1 k : Nat) (P : List Nat)
    (hP : ∀ t, t ∈ P ↔ (1 ≤ t ∧ t < i1 ∧ Nat.Prime (2 * t + 1))) (hlk : low ≤ k) :
    (∀ p, p ∈ P → ¬ ((p + 1) * p * 2 ≤ low + (k - low) ∧
        (2 * p + 1) ∣ (low + (k - low) - (p + 1) * p * 2))) ↔ ¬ Struck i1 k := by
  have e : low + (k - low) = k := by omega
  rw [e]
  constructor
  · rintro h ⟨t, h1, h2, h3, h4, h5⟩
    exact h t ((hP t).2 ⟨h1, h2, h3⟩) ((progression_iff t k).2 ⟨h4, h5⟩)
  · intro h p hp hprog
    obtain ⟨h1, h2, h3⟩ := (hP p).1 hp
    obtain ⟨h4, h5⟩ := (progression_iff p k).1 hprog
    exact h ⟨p, h1, h2, h3, h4, h5⟩

theorem max_max_succ {low high : Nat} (h : low ≤ high) :
    max (max 1 low) (high + 1) = max 1 (high + 1) := by
  omega

/-- The facts about the cursors with which a block starts, from the invariant. -/
theorem segInv_entry (M b : Nat) (hb1 : 1 ≤ b) (hb : b ≤ 2 ^ 31) (hM : M ≤ 2 ^ 30)
    (st : SegState) (hinv : SegInv M st) (hlow : st.low ≤ M) :
    blockHigh M b st.low ≤ M ∧ st.low ≤ blockHigh M b st.low ∧
      blockHigh M b st.low < st.low + b ∧ 1 ≤ st.index1 ∧
      st.index1 * (st.index1 - 1) * 2 ≤ M ∧ st.low ≤ (st.index1 + 1) * st.index1 * 2 := by
  obtain ⟨hi1, hidx, _, _, _, _, _⟩ := hinv
  have h30 : (2:Nat) ^ 30 = 1073741824 := by norm_num
  have h31 : (2:Nat) ^ 31 = 2147483648 := by norm_num
  have h64 : (2:Nat) ^ 64 = 18446744073709551616 := by norm_num
  have hhigh : blockHigh M b st.low = min (st.low + b - 1) M :=
    blockHigh_eq M b st.low hb1 (by omega)
  have hminlow : min st.low (M + 1) = st.low := min_eq_left (by omega)
  rw [hminlow] at hidx
  refine ⟨by rw [hhigh]; exact min_le_right _ _, by rw [hhigh]; exact le_min (by omega) hlow,
    by rw [hhigh]; exact lt_of_le_of_lt (min_le_left _ _) (by omega), hi1, ?_, ?_⟩
  · by_cases h1 : st.index1 = 1
    · rw [h1]; simp
    · obtain ⟨t, ht⟩ : ∃ t, st.index1 = t + 1 := ⟨st.index1 - 1, by omega⟩
      have := (hidx t (by omega)).1 (by omega)
      rw [ht]
      simp only [Nat.add_sub_cancel]
      omega
  · by_contra hn
    have := (hidx st.index1 hi1).2 (by omega)
    omega

/-- A block that gives a result is made of a discovery loop, a marking loop and a commit
loop that each give a result. -/
theorem block_some (aux : List Bool) (M b fuel : Nat) (st st1 : SegState)
    (h : block aux M b fuel st = some st1) :
    ∃ i1 P1 N1 N2 s1 c1 a1,
      discoverLoop aux st.low (blockHigh M b st.low) fuel st.index1 st.primes st.next =
        some (i1, P1, N1) ∧
      markAll b fuel P1 N1 (List.replicate b true) = some (N2, s1) ∧
      commitLoop st.low (blockHigh M b st.low) s1 fuel st.copyIndex st.answer =
        some (c1, a1) ∧
      st1 = { low := st.low + b, index1 := i1, copyIndex := c1, primes := P1, next := N2,
              answer := a1 } := by
  unfold block at h
  simp only at h
  cases hd : discoverLoop aux st.low (blockHigh M b st.low) fuel st.index1 st.primes
      st.next with
  | none => rw [hd] at h; simp at h
  | some r =>
    obtain ⟨i1, P1, N1⟩ := r
    rw [hd] at h
    simp only at h
    cases hm : markAll b fuel P1 N1 (List.replicate b true) with
    | none => rw [hm] at h; simp at h
    | some r2 =>
      obtain ⟨N2, s1⟩ := r2
      rw [hm] at h
      simp only at h
      cases hc : commitLoop st.low (blockHigh M b st.low) s1 fuel st.copyIndex st.answer with
      | none => rw [hc] at h; simp at h
      | some r3 =>
        obtain ⟨c1, a1⟩ := r3
        rw [hc] at h
        simp only at h
        exact ⟨i1, P1, N1, N2, s1, c1, a1, rfl, hm, hc, (Option.some.inj h).symm⟩

/-- The facts about the commit cursor with which a block starts, from the invariant. -/
theorem segInv_cursor (M b : Nat) (hb1 : 1 ≤ b) (hb : b ≤ 2 ^ 31) (hM : M ≤ 2 ^ 30)
    (st : SegState) (hinv : SegInv M st) (hlow : st.low ≤ M) :
    st.low ≤ st.copyIndex ∧ 1 ≤ st.copyIndex ∧
      st.copyIndex ≤ blockHigh M b st.low + 1 ∧
      max 1 (min (st.low + b) (M + 1)) = blockHigh M b st.low + 1 ∧
      min (st.low + b) (M + 1) = blockHigh M b st.low + 1 ∧
      (st.low + b ≤ M → blockHigh M b st.low < M) ∧ blockHigh M b st.low + 1 < 2 ^ 32 := by
  have hcopy := hinv.2.2.1
  have h30 : (2:Nat) ^ 30 = 1073741824 := by norm_num
  have h31 : (2:Nat) ^ 31 = 2147483648 := by norm_num
  have h32 : (2:Nat) ^ 32 = 4294967296 := by norm_num
  have h64 : (2:Nat) ^ 64 = 18446744073709551616 := by norm_num
  have hhigh : blockHigh M b st.low = min (st.low + b - 1) M :=
    blockHigh_eq M b st.low hb1 (by omega)
  have hminlow : min st.low (M + 1) = st.low := min_eq_left (by omega)
  rw [hminlow] at hcopy
  generalize blockHigh M b st.low = high at hhigh
  generalize st.copyIndex = c at hcopy
  generalize st.low = low at *
  clear hinv hminlow
  subst hhigh hcopy
  refine ⟨by omega, by omega, by omega, by omega, by omega, by omega, by omega⟩

/-- The discovery and marking loops of a block that starts in a state satisfying the
invariant: they end, and the marked buffer holds the primality of the indices of the
block. -/
theorem block_run (aux : List Bool) (M b fuel : Nat) (hb1 : 1 ≤ b) (hb : b ≤ 2 ^ 31)
    (hM : M ≤ 2 ^ 30) (hf : M + b + 1 < fuel) (haux : AuxOK aux M) (st : SegState)
    (hinv : SegInv M st) (hlow : st.low ≤ M) :
    ∃ i1 P1 N1 N2 s1,
      discoverLoop aux st.low (blockHigh M b st.low) fuel st.index1 st.primes st.next =
        some (i1, P1, N1) ∧
      markAll b fuel P1 N1 (List.replicate b true) = some (N2, s1) ∧ s1.length = b ∧
      1 ≤ i1 ∧
      (∀ t, 1 ≤ t → (t < i1 ↔ (t + 1) * t * 2 < min (st.low + b) (M + 1))) ∧
      List.Forall₂ (Carry (st.low + b)) P1 N2 ∧
      (∀ t, t ∈ P1 ↔ (1 ≤ t ∧ t < i1 ∧ Nat.Prime (2 * t + 1))) ∧
      (∀ k, st.copyIndex ≤ k → k ≤ blockHigh M b st.low →
        (s1[k - st.low]? = some true ↔ Nat.Prime (2 * k + 1))) := by
  obtain ⟨hhM, hlh, hhb, hi1, hbound, hstart⟩ := segInv_entry M b hb1 hb hM st hinv hlow
  obtain ⟨hlc, hk1, _, _, hfront, _, _⟩ := segInv_cursor M b hb1 hb hM st hinv hlow
  obtain ⟨_, hidx, _, hPN, hP, _, _⟩ := hinv
  have h30 : (2:Nat) ^ 30 = 1073741824 := by norm_num
  have h31 : (2:Nat) ^ 31 = 2147483648 := by norm_num
  have hminlow : min st.low (M + 1) = st.low := min_eq_left (by omega)
  rw [hminlow] at hidx
  generalize blockHigh M b st.low = high at *
  obtain ⟨i1, P1, N1, hd, hd1, hd2, hd3, hd4, hd5⟩ :=
    discoverLoop_spec aux st.low high M hM hhM haux fuel st.index1 st.primes st.next
      (by omega) hi1 hbound hstart hPN
  have hP1 : ∀ t, t ∈ P1 ↔ (1 ≤ t ∧ t < i1 ∧ Nat.Prime (2 * t + 1)) := by
    intro t
    rw [hd5 t, hP t]
    constructor
    · rintro (⟨h1, h2, h3⟩ | ⟨h1, h2, h3⟩)
      · exact ⟨h1, by omega, h3⟩
      · exact ⟨by omega, h2, h3⟩
    · rintro ⟨h1, h2, h3⟩
      by_cases h : t < st.index1
      · exact Or.inl ⟨h1, h, h3⟩
      · exact Or.inr ⟨by omega, h2, h3⟩
  have hidx1 : ∀ t, 1 ≤ t → (t < i1 ↔ (t + 1) * t * 2 < high + 1) := by
    intro t ht
    constructor
    · intro h
      by_cases h1 : t < st.index1
      · have := (hidx t ht).1 h1
        omega
      · have := hd3 t (by omega) h
        omega
    · intro h
      exact (square_index_lt_iff t i1).1 (by omega)
  obtain ⟨N2, s1, hm, hm1, hm2, hm3⟩ :=
    markAll_spec b fuel st.low hb (by omega) P1 N1 (List.replicate b true) hd4
  have hs1 : s1.length = b := by rw [hm1, List.length_replicate]
  have hkb : ∀ k, st.copyIndex ≤ k → k ≤ high → k - st.low < b := by
    intro k h1 h2
    have h3 : st.low ≤ k := le_trans hlc h1
    have h4 : k < st.low + b := lt_of_le_of_lt h2 hhb
    clear * - h3 h4
    omega
  refine ⟨i1, P1, N1, N2, s1, hd, hm, hs1, le_trans hi1 hd1, ?_, hm2, hP1, ?_⟩
  · intro t ht
    rw [hfront]
    exact hidx1 t ht
  · intro k hck hkh
    have hk1' : 1 ≤ k := le_trans hk1 hck
    rw [hm3 (k - st.low), List.getElem?_replicate]
    simp only [hkb k hck hkh, if_true, true_and, true_and]
    rw [buffer_true_iff st.low i1 k P1 hP1 (le_trans hlc hck)]
    apply not_struck_iff_prime i1 k hk1'
    intro t ht hsq
    have h5 : (t + 1) * t * 2 ≤ k := by nlinarith
    exact (hidx1 t ht).2 (Nat.lt_succ_of_le (le_trans h5 hkh))

/-- A block that starts in a state satisfying the invariant and gives a result leaves a
state satisfying the invariant. -/
theorem block_result (aux : List Bool) (M b fuel : Nat) (hb1 : 1 ≤ b) (hb : b ≤ 2 ^ 31)
    (hM : M ≤ 2 ^ 30) (hf : M + b + 1 < fuel) (haux : AuxOK aux M) (st st1 : SegState)
    (hinv : SegInv M st) (hlow : st.low ≤ M) (h : block aux M b fuel st = some st1) :
    SegInv M st1 ∧ st1.low = st.low + b := by
  obtain ⟨i1, P1, N1, N2, s1, hd, hm, hs1, hi1, hidxF, hcarry, hP1, hcase⟩ :=
    block_run aux M b fuel hb1 hb hM hf haux st hinv hlow
  obtain ⟨hlc, hk1, hk3, hfront, _, _, h32⟩ := segInv_cursor M b hb1 hb hM st hinv hlow
  obtain ⟨j1, Q1, R1, R2, t1, c1, a1, hd', hm', hc', e⟩ := block_some aux M b fuel st st1 h
  rw [hd] at hd'
  obtain ⟨rfl, rfl, rfl⟩ : i1 = j1 ∧ P1 = Q1 ∧ N1 = R1 := by
    have := Option.some.inj hd'
    simp only [Prod.mk.injEq] at this
    exact this
  rw [hm] at hm'
  obtain ⟨rfl, rfl⟩ : N2 = R2 ∧ s1 = t1 := by
    have := Option.some.inj hm'
    simp only [Prod.mk.injEq] at this
    exact this
  obtain ⟨q1, q2, q3⟩ :=
    commitLoop_result st.low (blockHigh M b st.low) s1 h32 fuel st.copyIndex st.answer _ hlc
      hc'
  simp only at q1 q2 q3
  obtain ⟨_, _, _, _, _, hlen, hans⟩ := hinv
  have hmax : max st.copyIndex (blockHigh M b st.low + 1) = blockHigh M b st.low + 1 :=
    max_eq_right hk3
  rw [hmax] at q1
  subst e
  refine ⟨⟨hi1, hidxF, by simp only; rw [q1, hfront], hcarry, hP1, by simp only; rw [q2, hlen],
    ?_⟩, rfl⟩
  intro k hk
  simp only
  rw [q3 k, hans k hk, hlen, q1]
  constructor
  · rintro (⟨h1, h2, h3⟩ | ⟨h1, h2, _, h4⟩)
    · exact ⟨h1, lt_of_lt_of_le h2 hk3, h3⟩
    · exact ⟨le_trans hk1 h1, Nat.lt_succ_of_le h2, (hcase k h1 h2).1 h4⟩
  · rintro ⟨h1, h2, h3⟩
    by_cases hlt : k < st.copyIndex
    · exact Or.inl ⟨h1, hlt, h3⟩
    · have hkh : k ≤ blockHigh M b st.low := Nat.le_of_lt_succ h2
      exact Or.inr ⟨Nat.le_of_not_lt hlt, hkh, hk,
        (hcase k (Nat.le_of_not_lt hlt) hkh).2 h3⟩

/-- A block that starts in a state satisfying the invariant ends, unless it is the last
block and the value `2 * memory + 1` of the index one past the array is prime. -/
theorem block_spec (aux : List Bool) (M b fuel : Nat) (hb1 : 1 ≤ b) (hb : b ≤ 2 ^ 31)
    (hM : M ≤ 2 ^ 30) (hf : M + b + 1 < fuel) (haux : AuxOK aux M) (st : SegState)
    (hinv : SegInv M st) (hlow : st.low ≤ M)
    (hlast : st.low + b ≤ M ∨ ¬ Nat.Prime (2 * M + 1)) :
    ∃ st1, block aux M b fuel st = some st1 ∧ SegInv M st1 ∧ st1.low = st.low + b := by
  obtain ⟨i1, P1, N1, N2, s1, hd, hm, hs1, _, _, _, _, hcase⟩ :=
    block_run aux M b fuel hb1 hb hM hf haux st hinv hlow
  obtain ⟨hhM, _, hhb, _, _, _⟩ := segInv_entry M b hb1 hb hM st hinv hlow
  obtain ⟨hlc, _, _, _, _, hnl, h32⟩ := segInv_cursor M b hb1 hb hM st hinv hlow
  have hlen : st.answer.length = M := hinv.2.2.2.2.2.1
  have hw : ∀ k, st.copyIndex ≤ k → k ≤ blockHigh M b st.low →
      s1[k - st.low]? = some true → k < st.answer.length := by
    intro k h1 h2 h3
    rw [hlen]
    rcases hlast with hl | hp
    · exact lt_of_le_of_lt h2 (hnl hl)
    · by_contra hn
      have hkM : k = M := le_antisymm (le_trans h2 hhM) (Nat.le_of_not_lt hn)
      have := (hcase k h1 h2).1 h3
      rw [hkM] at this
      exact hp this
  obtain ⟨⟨c1, a1⟩, hr⟩ := commitLoop_total st.low (blockHigh M b st.low) b s1 hs1 hhb h32
    fuel st.copyIndex st.answer (by omega) hlc hw
  have hblk : block aux M b fuel st = some
      { low := st.low + b, index1 := i1, copyIndex := c1, primes := P1, next := N2,
        answer := a1 } := by
    simp only [block, hd, hm, hr]
  obtain ⟨q1, q2⟩ := block_result aux M b fuel hb1 hb hM hf haux st _ hinv hlow hblk
  exact ⟨_, hblk, q1, q2⟩

/-- The last block gives no result when the value `2 * memory + 1` of the index one past
the array is prime: its commit loop writes `answer[memory]`. -/
theorem block_fail (aux : List Bool) (M b fuel : Nat) (hb1 : 1 ≤ b) (hb : b ≤ 2 ^ 31)
    (hM : M ≤ 2 ^ 30) (hf : M + b + 1 < fuel) (haux : AuxOK aux M) (st : SegState)
    (hinv : SegInv M st) (hlow : st.low ≤ M) (hlast : M < st.low + b)
    (hp : Nat.Prime (2 * M + 1)) : block aux M b fuel st = none := by
  obtain ⟨i1, P1, N1, N2, s1, hd, hm, hs1, _, _, _, _, hcase⟩ :=
    block_run aux M b fuel hb1 hb hM hf haux st hinv hlow
  obtain ⟨hlc, _, hk3, _, hfront, _, h32⟩ := segInv_cursor M b hb1 hb hM st hinv hlow
  have hlen : st.answer.length = M := hinv.2.2.2.2.2.1
  have hhigh : blockHigh M b st.low = M := by
    have : min (st.low + b) (M + 1) = M + 1 := min_eq_right (by omega)
    omega
  have hcM : st.copyIndex ≤ M := by
    have hcopy := hinv.2.2.1
    have hminlow : min st.low (M + 1) = st.low := min_eq_left (by omega)
    rw [hminlow] at hcopy
    have h1M : 1 ≤ M := by
      have := hp.two_le
      omega
    rw [hcopy]
    exact max_le h1M hlow
  have hsM : s1[M - st.low]? = some true := (hcase M hcM (by rw [hhigh])).2 hp
  have hc := commitLoop_fail st.low (blockHigh M b st.low) s1 h32 M (by rw [hhigh]) hsM fuel
    st.copyIndex st.answer hlc hcM (by rw [hlen])
  simp only [block, hd, hm, hc]

theorem blockLoop_spec (aux : List Bool) (M b fuel : Nat) (hb1 : 1 ≤ b) (hb : b ≤ 2 ^ 31)
    (hM : M ≤ 2 ^ 30) (hf : M + b + 1 < fuel) (haux : AuxOK aux M)
    (hp : ¬ Nat.Prime (2 * M + 1)) :
    ∀ (n : Nat) (st : SegState), M + 1 - st.low < n → SegInv M st →
      ∃ st1, blockLoop aux M b fuel n st = some st1 ∧ SegInv M st1 ∧ M < st1.low := by
  intro n
  induction n with
  | zero => intro st h; omega
  | succ n ih =>
    intro st hn hinv
    by_cases hlow : st.low ≤ M
    · obtain ⟨st1, hr, hinv1, hl1⟩ :=
        block_spec aux M b fuel hb1 hb hM hf haux st hinv hlow (Or.inr hp)
      obtain ⟨st2, hr2, hinv2, hl2⟩ := ih st1 (by omega) hinv1
      refine ⟨st2, ?_, hinv2, hl2⟩
      simp only [blockLoop, hlow, if_true, hr]
      exact hr2
    · refine ⟨st, ?_, hinv, by omega⟩
      simp only [blockLoop, hlow, if_false]

/-- Within the design range the block loop gives no result when the value `2 * memory + 1`
of the index one past the array is prime: the commit loop of the last block writes
`answer[memory]`. -/
theorem blockLoop_fail (aux : List Bool) (M b fuel : Nat) (hb1 : 1 ≤ b) (hb : b ≤ 2 ^ 31)
    (hM : M ≤ 2 ^ 30) (hf : M + b + 1 < fuel) (haux : AuxOK aux M)
    (hp : Nat.Prime (2 * M + 1)) :
    ∀ (n : Nat) (st : SegState), SegInv M st → st.low ≤ M →
      blockLoop aux M b fuel n st = none := by
  intro n
  induction n with
  | zero => intro st _ _; rfl
  | succ n ih =>
    intro st hinv hlow
    simp only [blockLoop, hlow, if_true]
    by_cases hl : st.low + b ≤ M
    · obtain ⟨st1, hr, hinv1, hl1⟩ :=
        block_spec aux M b fuel hb1 hb hM hf haux st hinv hlow (Or.inl hl)
      rw [hr]
      exact ih st1 hinv1 (by omega)
    · rw [block_fail aux M b fuel hb1 hb hM hf haux st hinv hlow (by omega) hp]

theorem segInv_init (M : Nat) : SegInv M (initState M) := by
  refine ⟨le_refl 1, ?_, ?_, List.Forall₂.nil, ?_, List.length_replicate _ _, ?_⟩
  · intro t ht
    simp only [initState]
    constructor
    · intro h; omega
    · intro h
      simp at h
  · simp [initState]
  · intro t
    simp only [initState, List.not_mem_nil, false_iff]
    rintro ⟨h1, h2, _⟩
    omega
  · intro k hk
    simp only [initState, List.getElem?_replicate, hk, if_true]
    constructor
    · intro h; simp at h
    · rintro ⟨h1, h2, _⟩
      omega

/-- The auxiliary sieve `Sieve(sqrt(limit) + 1)` answers correctly wherever the
discovery loop reads it. -/
theorem auxOK_Sieve (L fuel : Nat) (aux : List Bool) (hf : L / 2 + 3 ≤ fuel)
    (ha : Sieve fuel (Nat.sqrt L + 1) = some aux) : AuxOK aux (L / 2 + 1) := by
  intro t ht hsq
  have hs := Nat.sqrt_le_self L
  have hidx : t ≤ (Nat.sqrt L + 1) / 2 := by
    have h1 : 2 * t - 1 ≤ Nat.sqrt L := by
      rw [Nat.le_sqrt]
      obtain ⟨u, hu⟩ : ∃ u, 2 * t - 1 = u := ⟨_, rfl⟩
      have hu2 : 2 * t = u + 1 := by omega
      rw [hu]
      have h2 : 2 * (L / 2) ≤ L := by omega
      nlinarith
    omega
  obtain ⟨a, ha1, hlen, hp⟩ := Sieve_entry_iff_prime (Nat.sqrt L + 1) fuel t (by omega) ht hidx
  rw [ha] at ha1
  cases ha1
  have hlt : t < aux.length := by rw [hlen]; omega
  refine ⟨aux[t], List.getElem?_eq_getElem hlt, ?_⟩
  rw [← hp, List.getElem?_eq_getElem hlt]
  simp

/-- Full description of the array built by the segmented constructor within the
32-bit design range, when the last commit loop does not write past the end. -/
theorem Sieve2_spec (L b fuel : Nat) (hL : L ≤ UPPER_BOUND) (hb1 : 1 ≤ b) (hb : b ≤ 2 ^ 31)
    (hf : L / 2 + b + 3 ≤ fuel) (hp : ¬ Nat.Prime (2 * (L / 2 + 1) + 1)) :
    ∃ a, Sieve2 fuel L b = some a ∧ a.length = L / 2 + 1 ∧
      ∀ k, k ≤ L / 2 → (a[k]? = some true ↔ (1 ≤ k ∧ Nat.Prime (2 * k + 1))) := by
  have hUB : UPPER_BOUND = 2147483647 := rfl
  have h30 : (2:Nat) ^ 30 = 1073741824 := by norm_num
  have h32 : (2:Nat) ^ 32 = 4294967296 := by norm_num
  have hs := Nat.sqrt_le_self L
  have hsq : u32 (Nat.sqrt L + 1) = Nat.sqrt L + 1 := u32_of_lt (by omega)
  obtain ⟨aux, haux, _, _⟩ := Sieve_spec (Nat.sqrt L + 1) fuel (by omega)
  have hok : AuxOK aux (L / 2 + 1) := auxOK_Sieve L fuel aux (by omega) haux
  obtain ⟨st1, hr, hinv, hl⟩ :=
    blockLoop_spec aux (L / 2 + 1) b fuel hb1 hb (by omega) (by omega) hok hp fuel
      (initState (L / 2 + 1)) (by simp only [initState]; omega) (segInv_init _)
  obtain ⟨_, _, hcopy, _, _, hlen, hans⟩ := hinv
  refine ⟨st1.answer, ?_, hlen, ?_⟩
  · simp only [Sieve2, hsq, haux, hr, Option.map_some']
  · intro k hk
    rw [hans k (by omega), hcopy]
    have : min st1.low (L / 2 + 1 + 1) = L / 2 + 1 + 1 := min_eq_right (by omega)
    rw [this]
    constructor
    · rintro ⟨h1, _, h3⟩
      exact ⟨h1, h3⟩
    · rintro ⟨h1, h3⟩
      exact ⟨h1, by omega, h3⟩

/-- Within the 32-bit design range the segmented constructor builds no array when
`2 * (L/2 + 1) + 1` is prime: the last commit loop writes past the end of `answer`. -/
theorem Sieve2_fail (L b fuel : Nat) (hL : L ≤ UPPER_BOUND) (hb1 : 1 ≤ b) (hb : b ≤ 2 ^ 31)
    (hf : L / 2 + b + 3 ≤ fuel) (hp : Nat.Prime (2 * (L / 2 + 1) + 1)) :
    Sieve2 fuel L b = none := by
  have hUB : UPPER_BOUND = 2147483647 := rfl
  have h30 : (2:Nat) ^ 30 = 1073741824 := by norm_num
  have h32 : (2:Nat) ^ 32 = 4294967296 := by norm_num
  have hs := Nat.sqrt_le_self L
  have hsq : u32 (Nat.sqrt L + 1) = Nat.sqrt L + 1 := u32_of_lt (by omega)
  obtain ⟨aux, haux, _, _⟩ := Sieve_spec (Nat.sqrt L + 1) fuel (by omega)
  have hok : AuxOK aux (L / 2 + 1) := auxOK_Sieve L fuel aux (by omega) haux
  have hr := blockLoop_fail aux (L / 2 + 1) b fuel hb1 hb (by omega) (by omega) hok hp fuel
    (initState (L / 2 + 1)) (segInv_init _) (Nat.zero_le _)
  simp only [Sieve2, hsq, haux, hr, Option.map_none']

/-! ## Evaluation of the constructors at concrete limits -/

theorem sqrt_eq (n a : Nat) (h1 : a * a ≤ n) (h2 : n < (a + 1) * (a + 1)) : Nat.sqrt n = a :=
  (Nat.eq_sqrt.2 ⟨h1, h2⟩).symm

/-- The constructor `Sieve` with the value of the square root supplied. -/
theorem Sieve_eval (fuel limit s : Nat) (h1 : s * s ≤ limit) (h2 : limit < (s + 1) * (s + 1)) :
    Sieve fuel limit =
      sieveLoop (limit / 2 + 1) (s / 2 + 1) fuel fuel 1 (List.replicate (limit / 2 + 1) true) := by
  unfold Sieve
  rw [sqrt_eq limit s h1 h2]

/-- The constructor `Sieve2` with the values of the two square roots supplied. -/
theorem Sieve2_eval (fuel limit b s s1 : Nat) (h1 : s * s ≤ limit)
    (h2 : limit < (s + 1) * (s + 1)) (h3 : s1 * s1 ≤ u32 (s + 1))
    (h4 : u32 (s + 1) < (s1 + 1) * (s1 + 1)) :
    Sieve2 fuel limit b =
      match sieveLoop (u32 (s + 1) / 2 + 1) (s1 / 2 + 1) fuel fuel 1
          (List.replicate (u32 (s + 1) / 2 + 1) true) with
      | none => none
      | some auxiliarySieve =>
        (blockLoop auxiliarySieve (limit / 2 + 1) b fuel fuel (initState (limit / 2 + 1))).map
          SegState.answer := by
  show (match Sieve fuel (u32 (Nat.sqrt limit + 1)) with
      | none => none
      | some auxiliarySieve =>
        (blockLoop auxiliarySieve (limit / 2 + 1) b fuel fuel (initState (limit / 2 + 1))).map
          SegState.answer) = _
  rw [sqrt_eq limit s h1 h2, Sieve_eval fuel (u32 (s + 1)) s1 h3 h4]

/-! ## The query `CountPrimes` -/

theorem oddPrimeIdx_succ_left (i hi : Nat) (h : i < hi) :
    (oddPrimeIdx i hi).card =
      (if Nat.Prime (2 * i + 1) then 1 else 0) + (oddPrimeIdx (i + 1) hi).card := by
  unfold oddPrimeIdx
  rw [← Nat.Ico_insert_succ_left h, Finset.filter_insert]
  split
  · rw [Finset.card_insert_of_not_mem]
    · simp only [Nat.succ_eq_add_one]
      omega
    · simp
  · simp only [Nat.succ_eq_add_one]
    omega

theorem countLoop_spec (a : List Bool) :
    ∀ (n i ans : Nat), ans < 2 ^ 32 →
      (∀ x, i ≤ x → x < i + n →
        x < a.length ∧ (a[x]? = some true ↔ Nat.Prime (2 * x + 1))) →
      countLoop a n i ans = some ((ans + (oddPrimeIdx i (i + n)).card) % 2 ^ 32) := by
  intro n
  induction n with
  | zero =>
    intro i ans hans _
    have h0 : oddPrimeIdx i (i + 0) = ∅ := by
      unfold oddPrimeIdx
      rw [Finset.Ico_eq_empty (by omega)]
      rfl
    rw [h0, Finset.card_empty, Nat.add_zero, Nat.mod_eq_of_lt hans]
    rfl
  | succ n ih =>
    intro i ans hans h
    obtain ⟨hlt, hp⟩ := h i (le_refl _) (by omega)
    have hv : a[i]? = some (a[i]) := List.getElem?_eq_getElem hlt
    have hrest : ∀ x, i + 1 ≤ x → x < i + 1 + n →
        x < a.length ∧ (a[x]? = some true ↔ Nat.Prime (2 * x + 1)) :=
      fun x h1 h2 => h x (by omega) (by omega)
    have hcard := oddPrimeIdx_succ_left i (i + (n + 1)) (by omega)
    have e : i + 1 + n = i + (n + 1) := by omega
    rw [hv] at hp
    simp only [countLoop, hv]
    by_cases hb : a[i] = true
    · have hprime : Nat.Prime (2 * i + 1) := hp.1 (by rw [hb])
      rw [if_pos hprime] at hcard
      simp only [hb, if_true]
      rw [ih (i + 1) (u32 (ans + 1)) (Nat.mod_lt _ (by norm_num)) hrest, e, hcard]
      unfold u32
      rw [Nat.add_mod, Nat.mod_mod, ← Nat.add_mod]
      congr 2
      omega
    · have hprime : ¬ Nat.Prime (2 * i + 1) := fun hq => hb (by simpa using hp.2 hq)
      rw [if_neg hprime] at hcard
      have hb2 : a[i] = false := by simpa using hb
      simp only [hb2]
      rw [if_neg (by simp), ih (i + 1) ans hans hrest, e, hcard, Nat.zero_add]

/-- The primes in `[s, e]` are the prime `2`, when it lies in the range, and the odd
values of the indices walked by `CountPrimes`. -/
theorem primes_Icc_card (s e : Nat) :
    ((Finset.Icc s e).filter Nat.Prime).card =
      (if s ≤ 2 ∧ 2 ≤ e then 1 else 0) +
        (oddPrimeIdx ((if s ≤ 2 ∧ 2 ≤ e then 2 else s) / 2) ((e + 1) / 2)).card := by
  have hodd : ∀ p, Nat.Prime p → p ≠ 2 → p % 2 = 1 := by
    intro p hp h2
    rcases hp.eq_two_or_odd with h | h
    · exact absurd h h2
    · exact h
  have hsplit : (Finset.Icc s e).filter Nat.Prime =
      (if s ≤ 2 ∧ 2 ≤ e then {2} else ∅) ∪
        (Finset.Icc s e).filter (fun p => Nat.Prime p ∧ p ≠ 2) := by
    ext p
    simp only [Finset.mem_filter, Finset.mem_Icc, Finset.mem_union]
    constructor
    · rintro ⟨⟨h1, h2⟩, h3⟩
      by_cases hp2 : p = 2
      · left
        subst hp2
        simp [h1, h2]
      · right
        exact ⟨⟨h1, h2⟩, h3, hp2⟩
    · rintro (h | ⟨h1, h2, _⟩)
      · split at h
        · rename_i hc
          simp only [Finset.mem_singleton] at h
          subst h
          exact ⟨hc, Nat.prime_two⟩
        · simp at h
      · exact ⟨h1, h2⟩
  have hdisj : Disjoint (if s ≤ 2 ∧ 2 ≤ e then ({2} : Finset Nat) else ∅)
      ((Finset.Icc s e).filter (fun p => Nat.Prime p ∧ p ≠ 2)) := by
    rw [Finset.disjoint_left]
    intro p hp1 hp2
    simp only [Finset.mem_filter] at hp2
    split at hp1
    · simp only [Finset.mem_singleton] at hp1
      exact hp2.2.2 hp1
    · simp at hp1
  have hbij : ((Finset.Icc s e).filter (fun p => Nat.Prime p ∧ p ≠ 2)).card =
      (oddPrimeIdx ((if s ≤ 2 ∧ 2 ≤ e then 2 else s) / 2) ((e + 1) / 2)).card := by
    symm
    apply Finset.card_bij (fun x _ => 2 * x + 1)
    · intro x hx
      simp only [oddPrimeIdx, Finset.mem_filter, Finset.mem_Ico] at hx
      simp only [Finset.mem_filter, Finset.mem_Icc]
      obtain ⟨⟨h1, h2⟩, h3⟩ := hx
      refine ⟨⟨?_, by omega⟩, h3, ?_⟩
      · split at h1 <;> omega
      · have := hodd _ h3
        omega
    · intro x _ y _ h
      omega
    · intro p hp
      simp only [Finset.mem_filter, Finset.mem_Icc] at hp
      obtain ⟨⟨h1, h2⟩, h3, h4⟩ := hp
      have h5 := hodd p h3 h4
      have h6 := h3.two_le
      refine ⟨p / 2, ?_, by omega⟩
      simp only [oddPrimeIdx, Finset.mem_filter, Finset.mem_Ico]
      have e2 : 2 * (p / 2) + 1 = p := by omega
      rw [e2]
      refine ⟨⟨?_, by omega⟩, h3⟩
      split <;> omega
  rw [hsplit, Finset.card_union_of_disjoint hdisj, hbij]
  congr 1
  split <;> simp

/-- Description of `CountPrimes` on an array that is correct on the indices of the
walk: the number of primes in `[start, end]`, reduced modulo `2^32`. -/
theorem CountPrimes_spec (a : List Bool) (start end_ : Nat) (hend : end_ + 1 < 2 ^ 64)
    (h : ∀ x, (if start ≤ 2 ∧ 2 ≤ end_ then 2 else start) / 2 ≤ x → x < (end_ + 1) / 2 →
      x < a.length ∧ (a[x]? = some true ↔ Nat.Prime (2 * x + 1))) :
    CountPrimes a start end_ =
      some (((Finset.Icc start end_).filter Nat.Prime).card % 2 ^ 32) := by
  rw [primes_Icc_card]
  unfold CountPrimes
  simp only [u64_of_lt hend]
  by_cases hc : start ≤ 2 ∧ 2 ≤ end_
  · simp only [hc, and_self, decide_True, if_true] at h ⊢
    by_cases hle : 2 / 2 ≤ (end_ + 1) / 2
    · have e : 2 / 2 + ((end_ + 1) / 2 - 2 / 2) = (end_ + 1) / 2 := by omega
      rw [countLoop_spec a _ _ 1 (by norm_num) (by rw [e]; exact h), e]
    · omega
  · simp only [hc, decide_False, if_false] at h ⊢
    simp only [Bool.false_eq_true, if_false]
    by_cases hle : start / 2 ≤ (end_ + 1) / 2
    · have e : start / 2 + ((end_ + 1) / 2 - start / 2) = (end_ + 1) / 2 := by omega
      rw [countLoop_spec a _ _ 0 (by norm_num) (by rw [e]; exact h), e]
    · have e0 : (end_ + 1) / 2 - start / 2 = 0 := by omega
      have e1 : oddPrimeIdx (start / 2) ((end_ + 1) / 2) = ∅ := by
        unfold oddPrimeIdx
        rw [Finset.Ico_eq_empty (by omega)]
        rfl
      rw [e0, e1]
      simp [countLoop]

/-! ## An admissible input outside the 32-bit design range -/

/-- With `high = 2^32 - 2` the guard of the discovery loop, an even 32-bit value compared
with `high`, never fails: the loop produces no result, whatever the fuel. -/
theorem discoverLoop_no_exit (aux : List Bool) (low : Nat) :
    ∀ (fuel i : Nat) (P N : List Nat),
      discoverLoop aux low (2 ^ 32 - 2) fuel i P N = none := by
  intro fuel
  induction fuel with
  | zero => intro i P N; rfl
  | succ fuel ih =>
    intro i P N
    have hg : u32 (u32 (u32 (i + 1) * i) * 2) ≤ 2 ^ 32 - 2 := by
      generalize u32 (u32 (i + 1) * i) = y
      unfold u32
      norm_num
      omega
    simp only [discoverLoop, hg, if_true]
    cases aux[i]? with
    | none => rfl
    | some v =>
      cases v with
      | true => exact ih _ _ _
      | false => exact ih _ _ _

/-- For `limit = 2^33` and `cache_size = 2^32 - 1` the segmented constructor produces no
array, whatever the fuel: the first block has `high = 2^32 - 2`. -/
theorem Sieve2_no_result (fuel : Nat) : Sieve2 fuel (2 ^ 33) (2 ^ 32 - 1) = none := by
  have hhigh : blockHigh (2 ^ 33 / 2 + 1) (2 ^ 32 - 1) 0 = 2 ^ 32 - 2 := by
    unfold blockHigh sub64
    norm_num
  have hblock : ∀ aux : List Bool,
      block aux (2 ^ 33 / 2 + 1) (2 ^ 32 - 1) fuel (initState (2 ^ 33 / 2 + 1)) = none := by
    intro aux
    unfold block
    simp only [initState, hhigh]
    rw [discoverLoop_no_exit]
  show (match Sieve fuel (u32 (Nat.sqrt (2 ^ 33) + 1)) with
      | none => none
      | some auxiliarySieve =>
        (blockLoop auxiliarySieve (2 ^ 33 / 2 + 1) (2 ^ 32 - 1) fuel fuel
          (initState (2 ^ 33 / 2 + 1))).map SegState.answer) = none
  cases Sieve fuel (u32 (Nat.sqrt (2 ^ 33) + 1)) with
  | none => rfl
  | some aux =>
    show (blockLoop aux (2 ^ 33 / 2 + 1) (2 ^ 32 - 1) fuel fuel
          (initState (2 ^ 33 / 2 + 1))).map SegState.answer = none
    cases fuel with
    | zero => rfl
    | succ n =>
      have h0 : (initState (2 ^ 33 / 2 + 1)).low ≤ 2 ^ 33 / 2 + 1 := Nat.zero_le _
      simp only [blockLoop, h0, if_true, hblock aux, Option.map_none']

/-! ## Comparison of the two constructors -/

theorem getElem?_eq_of_iff {l1 l2 : List Bool} {i : Nat} {P : Prop} (h1 : i < l1.length)
    (h2 : i < l2.length) (e1 : l1[i]? = some true ↔ P) (e2 : l2[i]? = some true ↔ P) :
    l1[i]? = l2[i]? := by
  rw [List.getElem?_eq_getElem h1, List.getElem?_eq_getElem h2] at *
  have h : (l1[i] = true ↔ l2[i] = true) := by
    constructor
    · intro h
      simpa using e2.2 (e1.1 (by rw [h]))
    · intro h
      simpa using e1.2 (e2.1 (by rw [h]))
  congr 1
  cases h3 : l1[i] <;> cases h4 : l2[i] <;> simp_all

/-- Both constructors within the 32-bit design range, when the last commit loop does not
write past the end: both arrays exist, have length `L/2 + 1`, and their entries at
`1 ≤ i ≤ L/2` are the primality of `2*i+1`. -/
theorem both_spec (L b fuel : Nat) (hL : L ≤ UPPER_BOUND) (hb1 : 1 ≤ b) (hb : b ≤ 2 ^ 31)
    (hf : L / 2 + b + 3 ≤ fuel) (hp : ¬ Nat.Prime (2 * (L / 2 + 1) + 1)) :
    ∃ a a2, Sieve fuel L = some a ∧ Sieve2 fuel L b = some a2 ∧ a.length = L / 2 + 1 ∧
      a2.length = L / 2 + 1 ∧
      ∀ i, 1 ≤ i → i ≤ L / 2 →
        ((a[i]? = some true ↔ Nat.Prime (2 * i + 1)) ∧
          (a2[i]? = some true ↔ Nat.Prime (2 * i + 1)) ∧ a2[i]? = a[i]?) := by
  obtain ⟨a, ha, hlen, hk⟩ := Sieve_spec L fuel (by omega)
  obtain ⟨a2, ha2, hlen2, hk2⟩ := Sieve2_spec L b fuel hL hb1 hb hf hp
  refine ⟨a, a2, ha, ha2, hlen, hlen2, ?_⟩
  intro i h1 h2
  have e1 : a[i]? = some true ↔ Nat.Prime (2 * i + 1) := by
    rw [hk i h2]
    exact not_struck_iff_prime _ i h1 (fun t ht hsq => checkingRange_covers L i t h2 ht hsq)
  have e2 : a2[i]? = some true ↔ Nat.Prime (2 * i + 1) := by
    rw [hk2 i h2]
    exact ⟨fun h => h.2, fun h => ⟨h1, h⟩⟩
  exact ⟨e1, e2, getElem?_eq_of_iff (by omega) (by omega) e2 e1⟩

/-- Within the 32-bit design range, when the last commit loop does not write past the end,
the array of the segmented constructor does not depend on the block size. -/
theorem Sieve2_block_size_irrelevant (L b1 b2 f1 f2 : Nat) (hL : L ≤ UPPER_BOUND)
    (h11 : 1 ≤ b1) (h12 : b1 ≤ 2 ^ 31) (h21 : 1 ≤ b2) (h22 : b2 ≤ 2 ^ 31)
    (hf1 : L / 2 + b1 + 3 ≤ f1) (hf2 : L / 2 + b2 + 3 ≤ f2)
    (hp : ¬ Nat.Prime (2 * (L / 2 + 1) + 1)) :
    ∃ a, Sieve2 f1 L b1 = some a ∧ Sieve2 f2 L b2 = some a ∧ a.length = L / 2 + 1 := by
  obtain ⟨a1, ha1, hlen1, hk1⟩ := Sieve2_spec L b1 f1 hL h11 h12 hf1 hp
  obtain ⟨a2, ha2, hlen2, hk2⟩ := Sieve2_spec L b2 f2 hL h21 h22 hf2 hp
  have heq : a2 = a1 := by
    apply List.ext_getElem?
    intro n
    by_cases hn : n ≤ L / 2
    · exact getElem?_eq_of_iff (by omega) (by omega) (hk2 n hn) (hk1 n hn)
    · rw [List.getElem?_eq_none (by omega), List.getElem?_eq_none (by omega)]
  rw [heq] at ha2
  exact ⟨a1, ha1, ha2, hlen1⟩

/-- The number of primes up to `L` is at most `L` and so fits the 32-bit counter within
the design range. -/
theorem primes_card_le (s e : Nat) : ((Finset.Icc s e).filter Nat.Prime).card ≤ e := by
  have h1 : (Finset.Icc s e).filter Nat.Prime ⊆ Finset.Icc 1 e := by
    intro p hp
    simp only [Finset.mem_filter, Finset.mem_Icc] at hp ⊢
    exact ⟨hp.2.one_lt.le, hp.1.2⟩
  have h2 := Finset.card_le_card h1
  simpa using h2

/-- A count on an array that is right at every index from `1` on, for a limit within the
32-bit design range. -/
theorem count_upto (a : List Bool) (L : Nat) (h2 : 2 ≤ L) (hL : L ≤ UPPER_BOUND)
    (hlen : a.length = L / 2 + 1)
    (hk : ∀ i, 1 ≤ i → i ≤ L / 2 → (a[i]? = some true ↔ Nat.Prime (2 * i + 1))) :
    CountPrimes a 0 L = some ((Finset.Icc 0 L).filter Nat.Prime).card := by
  have hUB : UPPER_BOUND = 2147483647 := rfl
  have h32 : (2:Nat) ^ 32 = 4294967296 := by norm_num
  have h64 : (2:Nat) ^ 64 = 18446744073709551616 := by norm_num
  have hcard := primes_card_le 0 L
  have hmod : ((Finset.Icc 0 L).filter Nat.Prime).card % 2 ^ 32 =
      ((Finset.Icc 0 L).filter Nat.Prime).card := Nat.mod_eq_of_lt (by omega)
  have hc : (0 ≤ 2 ∧ 2 ≤ L) := ⟨by omega, h2⟩
  have := CountPrimes_spec a 0 L (by omega) (by
    intro x hx1 hx2
    simp only [hc, and_self, if_true] at hx1
    exact ⟨by omega, hk x (by omega) (by omega)⟩)
  rw [this, hmod]

/-- The count of the one-argument constructor within the 32-bit design range. -/
theorem Sieve_count (L fuel : Nat) (h2 : 2 ≤ L) (hL : L ≤ UPPER_BOUND)
    (hf : L / 2 + 2 ≤ fuel) :
    ∃ a, Sieve fuel L = some a ∧
      CountPrimes a 0 L = some ((Finset.Icc 0 L).filter Nat.Prime).card := by
  obtain ⟨a, ha, hlen, hk⟩ := Sieve_spec L fuel hf
  refine ⟨a, ha, count_upto a L h2 hL hlen ?_⟩
  intro i h1 hi
  rw [hk i hi]
  exact not_struck_iff_prime _ i h1 (fun t ht hsq => checkingRange_covers L i t hi ht hsq)

/-- Both counts of the self-test within the 32-bit design range, when the last commit loop
does not write past the end. -/
theorem both_count (L b fuel : Nat) (h2 : 2 ≤ L) (hL : L ≤ UPPER_BOUND) (hb1 : 1 ≤ b)
    (hb : b ≤ 2 ^ 31) (hf : L / 2 + b + 3 ≤ fuel) (hp : ¬ Nat.Prime (2 * (L / 2 + 1) + 1)) :
    ∃ a a2, Sieve fuel L = some a ∧ Sieve2 fuel L b = some a2 ∧
      CountPrimes a 0 L = some ((Finset.Icc 0 L).filter Nat.Prime).card ∧
      CountPrimes a2 0 L = some ((Finset.Icc 0 L).filter Nat.Prime).card := by
  obtain ⟨a, a2, ha, ha2, hlen, hlen2, hk⟩ := both_spec L b fuel hL hb1 hb hf hp
  exact ⟨a, a2, ha, ha2, count_upto a L h2 hL hlen (fun i h1 hi => (hk i h1 hi).1),
    count_upto a2 L h2 hL hlen2 (fun i h1 hi => (hk i h1 hi).2.1)⟩

/-! ## More than `2^32` primes below `2^40` -/


/-- A Chebyshev-type lower bound from the central binomial coefficient: if `2n = 2^k`
and `k * (c + 1) ≤ 2n`, there are more than `c` primes up to `2n`. -/
theorem primes_card_gt (n k c : Nat) (hn : 4 ≤ n) (h2n : 2 * n = 2 ^ k)
    (hc : k * (c + 1) ≤ 2 * n) :
    c < ((Finset.range (2 * n + 1)).filter Nat.Prime).card := by
  by_contra hle
  have hle : ((Finset.range (2 * n + 1)).filter Nat.Prime).card ≤ c := by omega
  have h1 : 4 ^ n < n * Nat.centralBinom n := Nat.four_pow_lt_mul_centralBinom n hn
  have h2 : Nat.centralBinom n ≤
      (2 * n) ^ ((Finset.range (2 * n + 1)).filter Nat.Prime).card := by
    rw [← Nat.prod_pow_factorization_centralBinom n, ← Finset.prod_const,
      Finset.prod_filter]
    apply Finset.prod_le_prod
    · intro i _
      exact Nat.zero_le _
    · intro p _
      split
      · rw [Nat.centralBinom_eq_two_mul_choose]
        exact Nat.pow_factorization_choose_le (by omega)
      · rename_i hp
        rw [Nat.factorization_eq_zero_of_non_prime _ hp, pow_zero]
  have h3 : n * Nat.centralBinom n ≤ (2 * n) ^ (c + 1) := by
    calc n * Nat.centralBinom n
        ≤ (2 * n) * (2 * n) ^ ((Finset.range (2 * n + 1)).filter Nat.Prime).card :=
          Nat.mul_le_mul (by omega) h2
      _ ≤ (2 * n) * (2 * n) ^ c :=
          Nat.mul_le_mul_left _ (Nat.pow_le_pow_right (by omega) hle)
      _ = (2 * n) ^ (c + 1) := by rw [pow_succ, mul_comm]
  have h4 : (2 * n) ^ (c + 1) ≤ 4 ^ n := by
    have e4 : (4:Nat) ^ n = 2 ^ (2 * n) := by
      rw [pow_mul]
      rfl
    rw [e4, h2n, ← pow_mul, ← h2n]
    exact Nat.pow_le_pow_right (by norm_num) hc
  omega

theorem primes_upto_two_pow_40 :
    2 ^ 32 ≤ ((Finset.Icc 0 (2 ^ 40)).filter Nat.Prime).card := by
  have h := primes_card_gt (2 ^ 39) 40 (2 ^ 32 - 1) (by norm_num) (by norm_num) (by norm_num)
  have e : Finset.Icc 0 (2 ^ 40) = Finset.range (2 * 2 ^ 39 + 1) := by
    ext x
    simp only [Finset.mem_Icc, Finset.mem_range]
    constructor
    · rintro ⟨_, h2⟩
      have : (2:Nat) ^ 40 = 2 * 2 ^ 39 := by norm_num
      omega
    · intro h2
      have : (2:Nat) ^ 40 = 2 * 2 ^ 39 := by norm_num
      omega
  rw [e]
  have e2 : (2:Nat) ^ 32 - 1 + 1 = 2 ^ 32 := by norm_num
  omega

/-! ## Prime counts below `223^2` -/

set_option maxRecDepth 100000 in
/-- The array of `Sieve(222)`, by evaluation, against the table `smallPrimes`. -/
theorem Sieve_222_table : ∃ a, Sieve 113 222 = some a ∧
    ∀ t, t < 111 → 1 ≤ t → ((2 * t + 1) ∈ smallPrimes ↔ a[t]? = some true) := by
  refine ⟨
      [true, true, true, true, false, true, true, false, true, true, false, true, false, false, true,
      true, false, false, true, false, true, true, false, true, false, false, true, false,
      false, true, true, false, false, true, false, true, true, false, false, true, false, true,
      false, false, true, false, false, false, true, false, true, true, false, true, true,
      false, true, false, false, false, false, false, false, true, false, true, false, false,
      true, true, false, false, false, false, true, true, false, false, true, false, false,
      true, false, true, false, false, true, false, false, true, true, false, false, false,
      false, true, true, false, true, true, false, false, false, false, false, true, false,
      false, false, false, false, true],
    ?_, ?_⟩
  · rw [Sieve_eval 113 222 14 (by decide) (by decide)]
    decide
  · decide

/-- The list `smallPrimes` holds exactly the odd primes below `223`; the table is read
off the array of `Sieve(222)`. -/
theorem smallPrimes_mem_iff (t : Nat) (h1 : 1 ≤ t) (h2 : t ≤ 110) :
    (2 * t + 1) ∈ smallPrimes ↔ Nat.Prime (2 * t + 1) := by
  obtain ⟨a, ha, htab⟩ := Sieve_222_table
  obtain ⟨a1, ha1, _, hp⟩ := Sieve_entry_iff_prime 222 113 t (by omega) h1 (by omega)
  rw [ha] at ha1
  cases ha1
  rw [← hp]
  exact htab t (by omega) h1

theorem smallPrimes_ge : ∀ p, p ∈ smallPrimes → 3 ≤ p := by
  decide

theorem smallPrimes_odd : ∀ p, p ∈ smallPrimes → p % 2 = 1 ∧ p < 223 := by
  decide

theorem smallPrimesProd_eq : smallPrimesProd = smallPrimes.prod := by
  decide

theorem smallPrimes_prime (p : Nat) (hp : p ∈ smallPrimes) : Nat.Prime p := by
  obtain ⟨h1, h2⟩ := smallPrimes_odd p hp
  have h3 := smallPrimes_ge p hp
  obtain ⟨t, rfl⟩ : ∃ t, p = 2 * t + 1 := ⟨p / 2, by omega⟩
  exact (smallPrimes_mem_iff t (by omega) (by omega)).1 hp

theorem oddPrimeB_iff (k : Nat) (h1 : 1 ≤ k) (h2 : 2 * k + 1 < 223 * 223) :
    oddPrimeB k = true ↔ Nat.Prime (2 * k + 1) := by
  unfold oddPrimeB
  by_cases hsmall : 2 * k + 1 < 223
  · have hb : Nat.blt (2 * k + 1) 223 = true := by
      rw [Nat.blt_eq]; exact hsmall
    rw [hb, cond_true, List.elem_iff]
    exact smallPrimes_mem_iff k h1 (by omega)
  · have hb : Nat.blt (2 * k + 1) 223 = false := by
      cases h : Nat.blt (2 * k + 1) 223
      · rfl
      · rw [Nat.blt_eq] at h
        exact absurd h hsmall
    rw [hb, cond_false, Nat.beq_eq, smallPrimesProd_eq]
    have hcop : Nat.gcd (2 * k + 1) smallPrimes.prod = 1 ↔
        ∀ p, p ∈ smallPrimes → ¬ p ∣ 2 * k + 1 := by
      show Nat.Coprime (2 * k + 1) smallPrimes.prod ↔ _
      rw [Nat.coprime_list_prod_right_iff]
      constructor
      · intro h p hp
        exact ((smallPrimes_prime p hp).coprime_iff_not_dvd).1 (Nat.coprime_comm.1 (h p hp))
      · intro h p hp
        exact Nat.coprime_comm.1 (((smallPrimes_prime p hp).coprime_iff_not_dvd).2 (h p hp))
    rw [hcop, ← not_struck_iff_prime 111 k h1]
    · constructor
      · rintro h ⟨t, ht1, ht2, hp, hd, _⟩
        exact h (2 * t + 1) ((smallPrimes_mem_iff t ht1 (by omega)).2 hp) hd
      · intro h p hp hd
        have hpp := smallPrimes_prime p hp
        obtain ⟨hodd, hlt⟩ := smallPrimes_odd p hp
        have h3 := smallPrimes_ge p hp
        by_cases hsq : p * p ≤ 2 * k + 1
        · obtain ⟨t, rfl⟩ : ∃ t, p = 2 * t + 1 := ⟨p / 2, by omega⟩
          exact h ⟨t, by omega, by omega, hpp, hd, hsq⟩
        · -- otherwise the cofactor lies strictly between 1 and `p`: the value is composite
          obtain ⟨c, hc⟩ := hd
          have hc1 : 1 < c := by
            by_contra hle
            have hc0 : c ≤ 1 := by omega
            have : p * c ≤ p * 1 := Nat.mul_le_mul_left p hc0
            omega
          have hclt : c < p := by
            by_contra hge
            have : p * p ≤ p * c := Nat.mul_le_mul_left p (by omega)
            omega
          have hnp : ¬ Nat.Prime (2 * k + 1) := by
            rw [hc]
            exact Nat.not_prime_mul (by omega) (by omega)
          have hstruck := (not_struck_iff_prime 111 k h1 (by
            intro t ht hsq2
            by_contra hge
            have : 223 * 223 ≤ (2 * t + 1) * (2 * t + 1) :=
              Nat.mul_le_mul (by omega) (by omega)
            omega)).not.2 hnp
          exact hstruck h
    · intro t ht hsq
      by_contra hge
      have : 223 * 223 ≤ (2 * t + 1) * (2 * t + 1) := Nat.mul_le_mul (by omega) (by omega)
      omega

theorem countOdd_spec :
    ∀ (n i acc : Nat), 1 ≤ i → 2 * (i + n) < 223 * 223 →
      countOdd n i acc = acc + (oddPrimeIdx i (i + n)).card := by
  intro n
  induction n with
  | zero =>
    intro i acc _ _
    have h0 : oddPrimeIdx i (i + 0) = ∅ := by
      unfold oddPrimeIdx
      rw [Finset.Ico_eq_empty (by omega)]
      rfl
    rw [h0]
    rfl
  | succ n ih =>
    intro i acc h1 h2
    have hcard := oddPrimeIdx_succ_left i (i + (n + 1)) (by omega)
    have e : i + 1 + n = i + (n + 1) := by omega
    have hb := oddPrimeB_iff i h1 (by omega)
    simp only [countOdd]
    rw [ih (i + 1) _ (by omega) (by omega), e, hcard]
    by_cases hp : Nat.Prime (2 * i + 1)
    · rw [hb.2 hp, if_pos hp]
      simp only [cond_true]
      omega
    · have hf : oddPrimeB i = false := by
        cases h : oddPrimeB i
        · rfl
        · exact absurd (hb.1 h) hp
      rw [hf, if_neg hp]
      simp only [cond_false]
      omega

theorem oddPrimeIdx_card_split (lo mid hi : Nat) (h1 : lo ≤ mid) (h2 : mid ≤ hi) :
    (oddPrimeIdx lo hi).card = (oddPrimeIdx lo mid).card + (oddPrimeIdx mid hi).card := by
  unfold oddPrimeIdx
  rw [← Finset.card_union_of_disjoint, ← Finset.filter_union, Finset.Ico_union_Ico_eq_Ico h1 h2]
  apply Finset.disjoint_filter_filter
  exact Finset.Ico_disjoint_Ico_consecutive lo mid hi

/-- One block of the table: the number of odd primes with index in `[lo, hi)`, by
evaluation of `countOdd`. -/
theorem oddPrimeIdx_card_eval (lo hi v : Nat) (h1 : 1 ≤ lo) (hle : lo ≤ hi)
    (h2 : 2 * hi < 223 * 223) (h : countOdd (hi - lo) lo 0 = v) :
    (oddPrimeIdx lo hi).card = v := by
  have e : lo + (hi - lo) = hi := by omega
  rw [countOdd_spec (hi - lo) lo 0 h1 (by rw [e]; exact h2), Nat.zero_add, e] at h
  exact h

/-- The number of primes up to `L ≥ 2` from the number of odd primes by index. -/
theorem primes_upto_eq (L v : Nat) (h2 : 2 ≤ L) (h : (oddPrimeIdx 1 ((L + 1) / 2)).card = v) :
    ((Finset.Icc 0 L).filter Nat.Prime).card = v + 1 := by
  rw [primes_Icc_card]
  have hc : (0 ≤ 2 ∧ 2 ≤ L) := ⟨by omega, h2⟩
  simp only [hc, and_self, if_true]
  have e : 2 / 2 = 1 := rfl
  rw [e, h]
  omega

/-! ### The table of prime counts for the self-test values -/

set_option maxRecDepth 1000000 in
theorem idx_card_48 : (oddPrimeIdx 1 48).card = 23 :=
  oddPrimeIdx_card_eval 1 48 23 (by decide) (by decide) (by decide) (by decide!)

set_option maxRecDepth 1000000 in
theorem idx_card_49 : (oddPrimeIdx 1 49).card = 24 := by
  rw [oddPrimeIdx_card_split 1 48 49 (by decide) (by decide), idx_card_48,
    oddPrimeIdx_card_eval 48 49 1 (by decide) (by decide) (by decide) (by decide!)]

set_option maxRecDepth 1000000 in
theorem idx_card_50 : (oddPrimeIdx 1 50).card = 24 := by
  rw [oddPrimeIdx_card_split 1 49 50 (by decide) (by decide), idx_card_49,
    oddPrimeIdx_card_eval 49 50 0 (by decide) (by decide) (by decide) (by decide!)]

set_option maxRecDepth 1000000 in
theorem idx_card_51 : (oddPrimeIdx 1 51).card = 25 := by
  rw [oddPrimeIdx_card_split 1 50 51 (by decide) (by decide), idx_card_50,
    oddPrimeIdx_card_eval 50 51 1 (by decide) (by decide) (by decide) (by decide!)]

set_option maxRecDepth 1000000 in
theorem idx_card_72 : (oddPrimeIdx 1 72).card = 33 := by
  rw [oddPrimeIdx_card_split 1 51 72 (by decide) (by decide), idx_card_51,
    oddPrimeIdx_card_eval 51 72 8 (by decide) (by decide) (by decide) (by decide!)]

set_option maxRecDepth 1000000 in
theorem idx_card_500 : (oddPrimeIdx 1 500).card = 167 := by
  rw [oddPrimeIdx_card_split 1 72 500 (by decide) (by decide), idx_card_72,
    oddPrimeIdx_card_eval 72 500 134 (by decide) (by decide) (by decide) (by decide!)]

set_option maxRecDepth 1000000 in
theorem idx_card_1000 : (oddPrimeIdx 1 1000).card = 302 := by
  rw [oddPrimeIdx_card_split 1 500 1000 (by decide) (by decide), idx_card_500,
    oddPrimeIdx_card_eval 500 1000 135 (by decide) (by decide) (by decide) (by decide!)]

set_option maxRecDepth 1000000 in
theorem idx_card_1500 : (oddPrimeIdx 1 1500).card = 429 := by
  rw [oddPrimeIdx_card_split 1 1000 1500 (by decide) (by decide), idx_card_1000,
    oddPrimeIdx_card_eval 1000 1500 127 (by decide) (by decide) (by decide) (by decide!)]

set_option maxRecDepth 1000000 in
theorem idx_card_2000 : (oddPrimeIdx 1 2000).card = 549 := by
  rw [oddPrimeIdx_card_split 1 1500 2000 (by decide) (by decide), idx_card_1500,
    oddPrimeIdx_card_eval 1500 2000 120 (by decide) (by decide) (by decide) (by decide!)]

set_option maxRecDepth 1000000 in
theorem idx_card_2500 : (oddPrimeIdx 1 2500).card = 668 := by
  rw [oddPrimeIdx_card_split 1 2000 2500 (by decide) (by decide), idx_card_2000,
    oddPrimeIdx_card_eval 2000 2500 119 (by decide) (by decide) (by decide) (by decide!)]

set_option maxRecDepth 1000000 in
theorem idx_card_3000 : (oddPrimeIdx 1 3000).card = 782 := by
  rw [oddPrimeIdx_card_split 1 2500 3000 (by decide) (by decide), idx_card_2500,
    oddPrimeIdx_card_eval 2500 3000 114 (by decide) (by decide) (by decide) (by decide!)]

set_option maxRecDepth 1000000 in
theorem idx_card_3500 : (oddPrimeIdx 1 3500).card = 899 := by
  rw [oddPrimeIdx_card_split 1 3000 3500 (by decide) (by decide), idx_card_3000,
    oddPrimeIdx_card_eval 3000 3500 117 (by decide) (by decide) (by decide) (by decide!)]

set_option maxRecDepth 1000000 in
theorem idx_card_4000 : (oddPrimeIdx 1 4000).card = 1006 := by
  rw [oddPrimeIdx_card_split 1 3500 4000 (by decide) (by decide), idx_card_3500,
    oddPrimeIdx_card_eval 3500 4000 107 (by decide) (by decide) (by decide) (by decide!)]

set_option maxRecDepth 1000000 in
theorem idx_card_4500 : (oddPrimeIdx 1 4500).card = 1116 := by
  rw [oddPrimeIdx_card_split 1 4000 4500 (by decide) (by decide), idx_card_4000,
    oddPrimeIdx_card_eval 4000 4500 110 (by decide) (by decide) (by decide) (by decide!)]

set_option maxRecDepth 1000000 in
theorem idx_card_5000 : (oddPrimeIdx 1 5000).card = 1228 := by
  rw [oddPrimeIdx_card_split 1 4500 5000 (by decide) (by decide), idx_card_4500,
    oddPrimeIdx_card_eval 4500 5000 112 (by decide) (by decide) (by decide) (by decide!)]

set_option maxRecDepth 1000000 in
theorem idx_card_5500 : (oddPrimeIdx 1 5500).card = 1334 := by
  rw [oddPrimeIdx_card_split 1 5000 5500 (by decide) (by decide), idx_card_5000,
    oddPrimeIdx_card_eval 5000 5500 106 (by decide) (by decide) (by decide) (by decide!)]

set_option maxRecDepth 1000000 in
theorem idx_card_6000 : (oddPrimeIdx 1 6000).card = 1437 := by
  rw [oddPrimeIdx_card_split 1 5500 6000 (by decide) (by decide), idx_card_5500,
    oddPrimeIdx_card_eval 5500 6000 103 (by decide) (by decide) (by decide) (by decide!)]

set_option maxRecDepth 1000000 in
theorem idx_card_6500 : (oddPrimeIdx 1 6500).card = 1546 := by
  rw [oddPrimeIdx_card_split 1 6000 6500 (by decide) (by decide), idx_card_6000,
    oddPrimeIdx_card_eval 6000 6500 109 (by decide) (by decide) (by decide) (by decide!)]

set_option maxRecDepth 1000000 in
theorem idx_card_7000 : (oddPrimeIdx 1 7000).card = 1651 := by
  rw [oddPrimeIdx_card_split 1 6500 7000 (by decide) (by decide), idx_card_6500,
    oddPrimeIdx_card_eval 6500 7000 105 (by decide) (by decide) (by decide) (by decide!)]

set_option maxRecDepth 1000000 in
theorem idx_card_7500 : (oddPrimeIdx 1 7500).card = 1753 := by
  rw [oddPrimeIdx_card_split 1 7000 7500 (by decide) (by decide), idx_card_7000,
    oddPrimeIdx_card_eval 7000 7500 102 (by decide) (by decide) (by decide) (by decide!)]

set_option maxRecDepth 1000000 in
theorem idx_card_8000 : (oddPrimeIdx 1 8000).card = 1861 := by
  rw [oddPrimeIdx_card_split 1 7500 8000 (by decide) (by decide), idx_card_7500,
    oddPrimeIdx_card_eval 7500 8000 108 (by decide) (by decide) (by decide) (by decide!)]

set_option maxRecDepth 1000000 in
theorem idx_card_8500 : (oddPrimeIdx 1 8500).card = 1959 := by
  rw [oddPrimeIdx_card_split 1 8000 8500 (by decide) (by decide), idx_card_8000,
    oddPrimeIdx_card_eval 8000 8500 98 (by decide) (by decide) (by decide) (by decide!)]

set_option maxRecDepth 1000000 in
theorem idx_card_9000 : (oddPrimeIdx 1 9000).card = 2063 := by
  rw [oddPrimeIdx_card_split 1 8500 9000 (by decide) (by decide), idx_card_8500,
    oddPrimeIdx_card_eval 8500 9000 104 (by decide) (by decide) (by decide) (by decide!)]

set_option maxRecDepth 1000000 in
theorem idx_card_9500 : (oddPrimeIdx 1 9500).card = 2157 := by
  rw [oddPrimeIdx_card_split 1 9000 9500 (by decide) (by decide), idx_card_9000,
    oddPrimeIdx_card_eval 9000 9500 94 (by decide) (by decide) (by decide) (by decide!)]

set_option maxRecDepth 1000000 in
theorem idx_card_10000 : (oddPrimeIdx 1 10000).card = 2261 := by
  rw [oddPrimeIdx_card_split 1 9500 10000 (by decide) (by decide), idx_card_9500,
    oddPrimeIdx_card_eval 9500 10000 104 (by decide) (by decide) (by decide) (by decide!)]

set_option maxRecDepth 1000000 in
theorem idx_card_10500 : (oddPrimeIdx 1 10500).card = 2359 := by
  rw [oddPrimeIdx_card_split 1 10000 10500 (by decide) (by decide), idx_card_10000,
    oddPrimeIdx_card_eval 10000 10500 98 (by decide) (by decide) (by decide) (by decide!)]

set_option maxRecDepth 1000000 in
theorem idx_card_11000 : (oddPrimeIdx 1 11000).card = 2463 := by
  rw [oddPrimeIdx_card_split 1 10500 11000 (by decide) (by decide), idx_card_10500,
    oddPrimeIdx_card_eval 10500 11000 104 (by decide) (by decide) (by decide) (by decide!)]

set_option maxRecDepth 1000000 in
theorem idx_card_11500 : (oddPrimeIdx 1 11500).card = 2563 := by
  rw [oddPrimeIdx_card_split 1 11000 11500 (by decide) (by decide), idx_card_11000,
    oddPrimeIdx_card_eval 11000 11500 100 (by decide) (by decide) (by decide) (by decide!)]

set_option maxRecDepth 1000000 in
theorem idx_card_12000 : (oddPrimeIdx 1 12000).card = 2667 := by
  rw [oddPrimeIdx_card_split 1 11500 12000 (by decide) (by decide), idx_card_11500,
    oddPrimeIdx_card_eval 11500 12000 104 (by decide) (by decide) (by decide) (by decide!)]

set_option maxRecDepth 1000000 in
theorem idx_card_12500 : (oddPrimeIdx 1 12500).card = 2761 := by
  rw [oddPrimeIdx_card_split 1 12000 12500 (by decide) (by decide), idx_card_12000,
    oddPrimeIdx_card_eval 12000 12500 94 (by decide) (by decide) (by decide) (by decide!)]

set_option maxRecDepth 1000000 in
theorem idx_card_13000 : (oddPrimeIdx 1 13000).card = 2859 := by
  rw [oddPrimeIdx_card_split 1 12500 13000 (by decide) (by decide), idx_card_12500,
    oddPrimeIdx_card_eval 12500 13000 98 (by decide) (by decide) (by decide) (by decide!)]

set_option maxRecDepth 1000000 in
theorem idx_card_13171 : (oddPrimeIdx 1 13171).card = 2893 := by
  rw [oddPrimeIdx_card_split 1 13000 13171 (by decide) (by decide), idx_card_13000,
    oddPrimeIdx_card_eval 13000 13171 34 (by decide) (by decide) (by decide) (by decide!)]

set_option maxRecDepth 1000000 in
theorem idx_card_13671 : (oddPrimeIdx 1 13671).card = 2990 := by
  rw [oddPrimeIdx_card_split 1 13171 13671 (by decide) (by decide), idx_card_13171,
    oddPrimeIdx_card_eval 13171 13671 97 (by decide) (by decide) (by decide) (by decide!)]

set_option maxRecDepth 1000000 in
theorem idx_card_14171 : (oddPrimeIdx 1 14171).card = 3084 := by
  rw [oddPrimeIdx_card_split 1 13671 14171 (by decide) (by decide), idx_card_13671,
    oddPrimeIdx_card_eval 13671 14171 94 (by decide) (by decide) (by decide) (by decide!)]

set_option maxRecDepth 1000000 in
theorem idx_card_14671 : (oddPrimeIdx 1 14671).card = 3187 := by
  rw [oddPrimeIdx_card_split 1 14171 14671 (by decide) (by decide), idx_card_14171,
    oddPrimeIdx_card_eval 14171 14671 103 (by decide) (by decide) (by decide) (by decide!)]

set_option maxRecDepth 1000000 in
theorem idx_card_15171 : (oddPrimeIdx 1 15171).card = 3279 := by
  rw [oddPrimeIdx_card_split 1 14671 15171 (by decide) (by decide), idx_card_14671,
    oddPrimeIdx_card_eval 14671 15171 92 (by decide) (by decide) (by decide) (by decide!)]

set_option maxRecDepth 1000000 in
theorem idx_card_15671 : (oddPrimeIdx 1 15671).card = 3378 := by
  rw [oddPrimeIdx_card_split 1 15171 15671 (by decide) (by decide), idx_card_15171,
    oddPrimeIdx_card_eval 15171 15671 99 (by decide) (by decide) (by decide) (by decide!)]

set_option maxRecDepth 1000000 in
theorem idx_card_16171 : (oddPrimeIdx 1 16171).card = 3468 := by
  rw [oddPrimeIdx_card_split 1 15671 16171 (by decide) (by decide), idx_card_15671,
    oddPrimeIdx_card_eval 15671 16171 90 (by decide) (by decide) (by decide) (by decide!)]

set_option maxRecDepth 1000000 in
theorem idx_card_16671 : (oddPrimeIdx 1 16671).card = 3568 := by
  rw [oddPrimeIdx_card_split 1 16171 16671 (by decide) (by decide), idx_card_16171,
    oddPrimeIdx_card_eval 16171 16671 100 (by decide) (by decide) (by decide) (by decide!)]

set_option maxRecDepth 1000000 in
theorem idx_card_17171 : (oddPrimeIdx 1 17171).card = 3669 := by
  rw [oddPrimeIdx_card_split 1 16671 17171 (by decide) (by decide), idx_card_16671,
    oddPrimeIdx_card_eval 16671 17171 101 (by decide) (by decide) (by decide) (by decide!)]

set_option maxRecDepth 1000000 in
theorem idx_card_17671 : (oddPrimeIdx 1 17671).card = 3764 := by
  rw [oddPrimeIdx_card_split 1 17171 17671 (by decide) (by decide), idx_card_17171,
    oddPrimeIdx_card_eval 17171 17671 95 (by decide) (by decide) (by decide) (by decide!)]

set_option maxRecDepth 1000000 in
theorem idx_card_18171 : (oddPrimeIdx 1 18171).card = 3855 := by
  rw [oddPrimeIdx_card_split 1 17671 18171 (by decide) (by decide), idx_card_17671,
    oddPrimeIdx_card_eval 17671 18171 91 (by decide) (by decide) (by decide) (by decide!)]

set_option maxRecDepth 1000000 in
theorem idx_card_18671 : (oddPrimeIdx 1 18671).card = 3953 := by
  rw [oddPrimeIdx_card_split 1 18171 18671 (by decide) (by decide), idx_card_18171,
    oddPrimeIdx_card_eval 18171 18671 98 (by decide) (by decide) (by decide) (by decide!)]

set_option maxRecDepth 1000000 in
theorem idx_card_19171 : (oddPrimeIdx 1 19171).card = 4047 := by
  rw [oddPrimeIdx_card_split 1 18671 19171 (by decide) (by decide), idx_card_18671,
    oddPrimeIdx_card_eval 18671 19171 94 (by decide) (by decide) (by decide) (by decide!)]

set_option maxRecDepth 1000000 in
theorem idx_card_19671 : (oddPrimeIdx 1 19671).card = 4140 := by
  rw [oddPrimeIdx_card_split 1 19171 19671 (by decide) (by decide), idx_card_19171,
    oddPrimeIdx_card_eval 19171 19671 93 (by decide) (by decide) (by decide) (by decide!)]

set_option maxRecDepth 1000000 in
theorem idx_card_20171 : (oddPrimeIdx 1 20171).card = 4230 := by
  rw [oddPrimeIdx_card_split 1 19671 20171 (by decide) (by decide), idx_card_19671,
    oddPrimeIdx_card_eval 19671 20171 90 (by decide) (by decide) (by decide) (by decide!)]

set_option maxRecDepth 1000000 in
theorem idx_card_20671 : (oddPrimeIdx 1 20671).card = 4325 := by
  rw [oddPrimeIdx_card_split 1 20171 20671 (by decide) (by decide), idx_card_20171,
    oddPrimeIdx_card_eval 20171 20671 95 (by decide) (by decide) (by decide) (by decide!)]

set_option maxRecDepth 1000000 in
theorem idx_card_21171 : (oddPrimeIdx 1 21171).card = 4425 := by
  rw [oddPrimeIdx_card_split 1 20671 21171 (by decide) (by decide), idx_card_20671,
    oddPrimeIdx_card_eval 20671 21171 100 (by decide) (by decide) (by decide) (by decide!)]

set_option maxRecDepth 1000000 in
theorem idx_card_21671 : (oddPrimeIdx 1 21671).card = 4521 := by
  rw [oddPrimeIdx_card_split 1 21171 21671 (by decide) (by decide), idx_card_21171,
    oddPrimeIdx_card_eval 21171 21671 96 (by decide) (by decide) (by decide) (by decide!)]

set_option maxRecDepth 1000000 in
theorem idx_card_22171 : (oddPrimeIdx 1 22171).card = 4611 := by
  rw [oddPrimeIdx_card_split 1 21671 22171 (by decide) (by decide), idx_card_21671,
    oddPrimeIdx_card_eval 21671 22171 90 (by decide) (by decide) (by decide) (by decide!)]

set_option maxRecDepth 1000000 in
theorem idx_card_22671 : (oddPrimeIdx 1 22671).card = 4704 := by
  rw [oddPrimeIdx_card_split 1 22171 22671 (by decide) (by decide), idx_card_22171,
    oddPrimeIdx_card_eval 22171 22671 93 (by decide) (by decide) (by decide) (by decide!)]

set_option maxRecDepth 1000000 in
theorem idx_card_23171 : (oddPrimeIdx 1 23171).card = 4791 := by
  rw [oddPrimeIdx_card_split 1 22671 23171 (by decide) (by decide), idx_card_22671,
    oddPrimeIdx_card_eval 22671 23171 87 (by decide) (by decide) (by decide) (by decide!)]

/-! # The claims -/

/-- C1. For every limit `L` and every index `i` with `1 ≤ i ≤ L/2`, the array built by the
one-argument constructor `Sieve(L)` (square root taken as the exact integer square root; any
fuel of at least `L/2 + 2` per loop) has length `L/2 + 1`, and its entry `i` is true if and
only if `2*i+1` is a prime number. -/
theorem C1_Sieve_marks_primes (L fuel i : Nat) (hf : L / 2 + 2 ≤ fuel)
    (h1 : 1 ≤ i) (h2 : i ≤ L / 2) :
    ∃ a, Sieve fuel L = some a ∧ a.length = L / 2 + 1 ∧
      (a[i]? = some true ↔ Nat.Prime (2 * i + 1)) :=
  Sieve_entry_iff_prime L fuel i hf h1 h2

theorem C1_witness :
    100 / 2 + 2 ≤ 52 ∧ 1 ≤ 48 ∧ 48 ≤ 100 / 2 ∧
      ∃ a, Sieve 52 100 = some a ∧ a.length = 100 / 2 + 1 ∧
        (a[48]? = some true ↔ Nat.Prime (2 * 48 + 1)) :=
  ⟨by decide, by decide, by decide,
    C1_Sieve_marks_primes 100 52 48 (by decide) (by decide) (by decide)⟩

/-- C2, as amended. For every limit `L ≤ UPPER_BOUND` for which `2*(L/2+1)+1` is not prime
(the last commit loop then writes nothing past the end of the array) and every block size
`b` with `1 ≤ b ≤ 2^31` (any fuel of at least `L/2 + b + 3` per loop), the segmented
constructor `Sieve(L, b)` and the constructor `Sieve(L)` both build an array of length
`L/2 + 1`, and the two arrays hold the same boolean at every index `1 ≤ i ≤ L/2`. -/
theorem C2_segmented_matches_Sieve (L b fuel : Nat) (hL : L ≤ UPPER_BOUND) (hb1 : 1 ≤ b)
    (hb : b ≤ 2 ^ 31) (hf : L / 2 + b + 3 ≤ fuel) (hp : ¬ Nat.Prime (2 * (L / 2 + 1) + 1)) :
    ∃ a a2, Sieve fuel L = some a ∧ Sieve2 fuel L b = some a2 ∧ a.length = L / 2 + 1 ∧
      a2.length = L / 2 + 1 ∧ ∀ i, 1 ≤ i → i ≤ L / 2 → a2[i]? = a[i]? := by
  obtain ⟨a, a2, ha, ha2, hlen, hlen2, hk⟩ := both_spec L b fuel hL hb1 hb hf hp
  exact ⟨a, a2, ha, ha2, hlen, hlen2, fun i h1 h2 => (hk i h1 h2).2.2⟩

theorem C2_witness :
    96 ≤ UPPER_BOUND ∧ 1 ≤ 16 ∧ 16 ≤ 2 ^ 31 ∧ 96 / 2 + 16 + 3 ≤ 67 ∧
      ¬ Nat.Prime (2 * (96 / 2 + 1) + 1) ∧
      ∃ a a2, Sieve 67 96 = some a ∧ Sieve2 67 96 16 = some a2 ∧ a.length = 96 / 2 + 1 ∧
        a2.length = 96 / 2 + 1 ∧ ∀ i, 1 ≤ i → i ≤ 96 / 2 → a2[i]? = a[i]? :=
  ⟨by decide, by decide, by decide, by decide, by norm_num,
    C2_segmented_matches_Sieve 96 16 67 (by decide) (by decide) (by decide) (by decide)
      (by norm_num)⟩

/-- C2 as stated fails. At `L = 12`, `b = 4` the two arrays differ at index `0` (true in
`Sieve(12)`, false in `Sieve(12, 4)`); and at `L = 2^33`, `b = 2^32 - 1` the segmented
constructor builds no array at all. -/
theorem C2_counterexample :
    (∃ a a2, Sieve 20 12 = some a ∧ Sieve2 20 12 4 = some a2 ∧ a[0]? = some true ∧
      a2[0]? = some false) ∧
    ¬ ∃ fuel a2, Sieve2 fuel (2 ^ 33) (2 ^ 32 - 1) = some a2 := by
  constructor
  · refine ⟨[true, true, true, true, false, true, true],
      [false, true, true, true, false, true, true], ?_, ?_, rfl, rfl⟩
    · rw [Sieve_eval 20 12 3 (by decide) (by decide)]
      decide
    · rw [Sieve2_eval 20 12 4 3 2 (by decide) (by decide) (by decide) (by decide)]
      decide
  · rintro ⟨fuel, a2, h⟩
    rw [Sieve2_no_result] at h
    exact Option.noConfusion h

/-- C3, as amended. For every limit `L ≤ UPPER_BOUND` for which `2*(L/2+1)+1` is not prime,
every block size `b` with `1 ≤ b ≤ 2^31` and every index `i` with `1 ≤ i ≤ L/2` (in
particular the first and the last index of a block), entry `i` of the array built by
`Sieve(L, b)` is true if and only if `2*i+1` is prime, and it equals entry `i` of
`Sieve(L)`. -/
theorem C3_segmented_marks_primes (L b fuel i : Nat) (hL : L ≤ UPPER_BOUND) (hb1 : 1 ≤ b)
    (hb : b ≤ 2 ^ 31) (hf : L / 2 + b + 3 ≤ fuel) (hp : ¬ Nat.Prime (2 * (L / 2 + 1) + 1))
    (h1 : 1 ≤ i) (h2 : i ≤ L / 2) :
    ∃ a a2, Sieve fuel L = some a ∧ Sieve2 fuel L b = some a2 ∧
      (a2[i]? = some true ↔ Nat.Prime (2 * i + 1)) ∧ a2[i]? = a[i]? := by
  obtain ⟨a, a2, ha, ha2, _, _, hk⟩ := both_spec L b fuel hL hb1 hb hf hp
  exact ⟨a, a2, ha, ha2, (hk i h1 h2).2.1, (hk i h1 h2).2.2⟩

theorem C3_witness :
    96 ≤ UPPER_BOUND ∧ 1 ≤ 16 ∧ 16 ≤ 2 ^ 31 ∧ 96 / 2 + 16 + 3 ≤ 67 ∧
      ¬ Nat.Prime (2 * (96 / 2 + 1) + 1) ∧ 1 ≤ 48 ∧ 48 ≤ 96 / 2 ∧
      ∃ a a2, Sieve 67 96 = some a ∧ Sieve2 67 96 16 = some a2 ∧
        (a2[48]? = some true ↔ Nat.Prime (2 * 48 + 1)) ∧ a2[48]? = a[48]? :=
  ⟨by decide, by decide, by decide, by decide, by norm_num, by decide, by decide,
    C3_segmented_marks_primes 96 16 67 48 (by decide) (by decide) (by decide) (by decide)
      (by norm_num) (by decide) (by decide)⟩

/-- C3 as stated fails. At `L = 2^33`, `b = 2^32 - 1` no amount of fuel makes the segmented
constructor build an array, so entry `1` is not the primality of `3`. -/
theorem C3_counterexample :
    ¬ ∃ fuel a2, Sieve2 fuel (2 ^ 33) (2 ^ 32 - 1) = some a2 ∧
      (a2[1]? = some true ↔ Nat.Prime (2 * 1 + 1)) := by
  rintro ⟨fuel, a2, h, _⟩
  rw [Sieve2_no_result] at h
  exact Option.noConfusion h

/-- C4, as amended. For every limit `L ≤ UPPER_BOUND` for which `2*(L/2+1)+1` is not prime
(which leaves out `L = 0` and `L = 1`) and every block size `b` with `1 ≤ b ≤ 2^31`,
`Sieve(L).CountPrimes(0, L)` and `Sieve(L, b).CountPrimes(0, L)` return the same number, the
number of primes up to `L`. -/
theorem C4_counts_agree (L b fuel : Nat) (hL : L ≤ UPPER_BOUND) (hb1 : 1 ≤ b)
    (hb : b ≤ 2 ^ 31) (hf : L / 2 + b + 3 ≤ fuel) (hp : ¬ Nat.Prime (2 * (L / 2 + 1) + 1)) :
    ∃ a a2 n, Sieve fuel L = some a ∧ Sieve2 fuel L b = some a2 ∧
      CountPrimes a 0 L = some n ∧ CountPrimes a2 0 L = some n ∧
      n = ((Finset.Icc 0 L).filter Nat.Prime).card := by
  have h2 : 2 ≤ L := by
    by_contra hn
    have hM : L / 2 + 1 = 1 := by omega
    rw [hM] at hp
    exact hp (by norm_num)
  obtain ⟨a, a2, ha, ha2, hc, hc2⟩ := both_count L b fuel h2 hL hb1 hb hf hp
  exact ⟨a, a2, _, ha, ha2, hc, hc2, rfl⟩

theorem C4_witness :
    96 ≤ UPPER_BOUND ∧ 1 ≤ 16 ∧ 16 ≤ 2 ^ 31 ∧ 96 / 2 + 16 + 3 ≤ 67 ∧
      ¬ Nat.Prime (2 * (96 / 2 + 1) + 1) ∧
      ∃ a a2 n, Sieve 67 96 = some a ∧ Sieve2 67 96 16 = some a2 ∧
        CountPrimes a 0 96 = some n ∧ CountPrimes a2 0 96 = some n ∧
        n = ((Finset.Icc 0 96).filter Nat.Prime).card :=
  ⟨by decide, by decide, by decide, by decide, by norm_num,
    C4_counts_agree 96 16 67 (by decide) (by decide) (by decide) (by decide) (by norm_num)⟩

/-- C4 as stated fails. At `L = 2^33`, `b = 2^32 - 1` the segmented constructor builds no
array to count on. -/
theorem C4_counterexample :
    ¬ ∃ fuel a2 n, Sieve2 fuel (2 ^ 33) (2 ^ 32 - 1) = some a2 ∧
      CountPrimes a2 0 (2 ^ 33) = some n := by
  rintro ⟨fuel, a2, n, h, _⟩
  rw [Sieve2_no_result] at h
  exact Option.noConfusion h

/-- The self-test table: the number of primes up to each entry of `testValues` is the
entry of `expectedResults` at the same position. -/
theorem selfTest_table (L v : Nat) (h : (L, v) ∈ List.zip testValues expectedResults) :
    ((Finset.Icc 0 L).filter Nat.Prime).card = v := by
  simp only [testValues, expectedResults, List.zip_cons_cons, List.zip_nil_right,
    List.mem_cons, Prod.mk.injEq, List.mem_singleton, List.not_mem_nil, or_false] at h
  rcases h with h | h | h | h | h | h | h | h <;> obtain ⟨rfl, rfl⟩ := h
  · exact primes_upto_eq 96 23 (by decide) idx_card_48
  · exact primes_upto_eq 97 24 (by decide) idx_card_49
  · exact primes_upto_eq 100 24 (by decide) idx_card_50
  · exact primes_upto_eq 101 25 (by decide) idx_card_51
  · exact primes_upto_eq 144 33 (by decide) idx_card_72
  · exact primes_upto_eq 1000 167 (by decide) idx_card_500
  · exact primes_upto_eq 26341 2893 (by decide) idx_card_13171
  · exact primes_upto_eq 46341 4791 (by decide) idx_card_23171

/-- C5, as amended. For every limit `L` with `2 ≤ L ≤ UPPER_BOUND`,
`Sieve(L).CountPrimes(0, L)` returns the number of primes `p ≤ L`, which for the eight limits
of the self-test (`96, 97, 100, 101, 144, 1000, 26341, 46341`) is the expected result
(`24, 25, 25, 26, 34, 168, 2894, 4792`). For every block size `b` with `1 ≤ b ≤ 2^31`, when
`2*(L/2+1)+1` is not prime `Sieve(L, b).CountPrimes(0, L)` returns that number too (of the
self-test limits, run there with `b = 32768`, these are `96, 97, 144, 1000, 26341, 46341`);
when `2*(L/2+1)+1` is prime (as for `100` and `101`) `Sieve(L, b)` builds no array, its last
commit loop writing past the end. -/
theorem C5_counts_are_prime_counts (L b fuel : Nat) (h2 : 2 ≤ L) (hL : L ≤ UPPER_BOUND)
    (hb1 : 1 ≤ b) (hb : b ≤ 2 ^ 31) (hf : L / 2 + b + 3 ≤ fuel) :
    (∃ a, Sieve fuel L = some a ∧
      CountPrimes a 0 L = some ((Finset.Icc 0 L).filter Nat.Prime).card ∧
      ∀ v, (L, v) ∈ List.zip testValues expectedResults → CountPrimes a 0 L = some v) ∧
    (¬ Nat.Prime (2 * (L / 2 + 1) + 1) →
      ∃ a2, Sieve2 fuel L b = some a2 ∧
        CountPrimes a2 0 L = some ((Finset.Icc 0 L).filter Nat.Prime).card ∧
        ∀ v, (L, v) ∈ List.zip testValues expectedResults → CountPrimes a2 0 L = some v) ∧
    (Nat.Prime (2 * (L / 2 + 1) + 1) → Sieve2 fuel L b = none) := by
  refine ⟨?_, ?_, ?_⟩
  · obtain ⟨a, ha, hc⟩ := Sieve_count L fuel h2 hL (by omega)
    refine ⟨a, ha, hc, ?_⟩
    intro v hv
    rw [hc, selfTest_table L v hv]
  · intro hp
    obtain ⟨a, a2, _, ha2, _, hc2⟩ := both_count L b fuel h2 hL hb1 hb hf hp
    refine ⟨a2, ha2, hc2, ?_⟩
    intro v hv
    rw [hc2, selfTest_table L v hv]
  · intro hp
    exact Sieve2_fail L b fuel hL hb1 hb hf hp

theorem C5_witness :
    2 ≤ 46341 ∧ 46341 ≤ UPPER_BOUND ∧ 1 ≤ L1_CACHE_SIZE ∧ L1_CACHE_SIZE ≤ 2 ^ 31 ∧
      46341 / 2 + L1_CACHE_SIZE + 3 ≤ 55941 ∧
      ((∃ a, Sieve 55941 46341 = some a ∧
        CountPrimes a 0 46341 = some ((Finset.Icc 0 46341).filter Nat.Prime).card ∧
        ∀ v, (46341, v) ∈ List.zip testValues expectedResults →
          CountPrimes a 0 46341 = some v) ∧
      (¬ Nat.Prime (2 * (46341 / 2 + 1) + 1) →
        ∃ a2, Sieve2 55941 46341 L1_CACHE_SIZE = some a2 ∧
          CountPrimes a2 0 46341 = some ((Finset.Icc 0 46341).filter Nat.Prime).card ∧
          ∀ v, (46341, v) ∈ List.zip testValues expectedResults →
            CountPrimes a2 0 46341 = some v) ∧
      (Nat.Prime (2 * (46341 / 2 + 1) + 1) → Sieve2 55941 46341 L1_CACHE_SIZE = none)) :=
  ⟨by decide, by decide, by decide, by decide, by decide,
    C5_counts_are_prime_counts 46341 L1_CACHE_SIZE 55941 (by decide) (by decide) (by decide)
      (by decide) (by decide)⟩

/-- C5 as stated fails. At `L = 2^33`, `b = 2^32 - 1` no amount of fuel makes the segmented
constructor build an array whose count is the number of primes up to `L`. -/
theorem C5_counterexample :
    ¬ ∃ fuel a2, Sieve2 fuel (2 ^ 33) (2 ^ 32 - 1) = some a2 ∧
      CountPrimes a2 0 (2 ^ 33) = some ((Finset.Icc 0 (2 ^ 33)).filter Nat.Prime).card := by
  rintro ⟨fuel, a2, h, _⟩
  rw [Sieve2_no_result] at h
  exact Option.noConfusion h

/-- C6, as amended. For every limit `L ≤ UPPER_BOUND` for which `2*(L/2+1)+1` is not prime
and every two block sizes `b1`, `b2` with `1 ≤ b1 ≤ 2^31` and `1 ≤ b2 ≤ 2^31` (for example
`1024` and `32768`), `Sieve(L, b1)` and `Sieve(L, b2)` build the same array, of length
`L/2 + 1`. -/
theorem C6_block_size_invariance (L b1 b2 f1 f2 : Nat) (hL : L ≤ UPPER_BOUND)
    (h11 : 1 ≤ b1) (h12 : b1 ≤ 2 ^ 31) (h21 : 1 ≤ b2) (h22 : b2 ≤ 2 ^ 31)
    (hf1 : L / 2 + b1 + 3 ≤ f1) (hf2 : L / 2 + b2 + 3 ≤ f2)
    (hp : ¬ Nat.Prime (2 * (L / 2 + 1) + 1)) :
    ∃ a1 a2, Sieve2 f1 L b1 = some a1 ∧ Sieve2 f2 L b2 = some a2 ∧
      a1.length = L / 2 + 1 ∧ a2.length = L / 2 + 1 ∧ ∀ i : Nat, a1[i]? = a2[i]? := by
  obtain ⟨a, ha1, ha2, hlen⟩ :=
    Sieve2_block_size_irrelevant L b1 b2 f1 f2 hL h11 h12 h21 h22 hf1 hf2 hp
  exact ⟨a, a, ha1, ha2, hlen, hlen, fun _ => rfl⟩

theorem C6_witness :
    100002 ≤ UPPER_BOUND ∧ 1 ≤ 1024 ∧ 1024 ≤ 2 ^ 31 ∧ 1 ≤ 32768 ∧ 32768 ≤ 2 ^ 31 ∧
      100002 / 2 + 1024 + 3 ≤ 51028 ∧ 100002 / 2 + 32768 + 3 ≤ 82772 ∧
      ¬ Nat.Prime (2 * (100002 / 2 + 1) + 1) ∧
      ∃ a1 a2, Sieve2 51028 100002 1024 = some a1 ∧ Sieve2 82772 100002 32768 = some a2 ∧
        a1.length = 100002 / 2 + 1 ∧ a2.length = 100002 / 2 + 1 ∧
        ∀ i : Nat, a1[i]? = a2[i]? :=
  ⟨by decide, by decide, by decide, by decide, by decide, by decide, by decide, by norm_num,
    C6_block_size_invariance 100002 1024 32768 51028 82772 (by decide) (by decide)
      (by decide) (by decide) (by decide) (by decide) (by decide) (by norm_num)⟩

/-- C6 as stated fails. At `L = 2^33` the block size `b1 = 2^32 - 1` builds no array, so
there is no pair of identical arrays for `b1 = 2^32 - 1` and `b2 = 1024`. -/
theorem C6_counterexample :
    ¬ ∃ f1 f2 a1 a2, Sieve2 f1 (2 ^ 33) (2 ^ 32 - 1) = some a1 ∧
      Sieve2 f2 (2 ^ 33) 1024 = some a2 ∧ ∀ i : Nat, a1[i]? = a2[i]? := by
  rintro ⟨f1, f2, a1, a2, h, _⟩
  rw [Sieve2_no_result] at h
  exact Option.noConfusion h

theorem primeArray_length (n : Nat) : (primeArray n).length = n := by
  simp [primeArray]

theorem primeArray_getElem? (n i : Nat) (h : i < n) :
    ((primeArray n)[i]? = some true ↔ Nat.Prime (2 * i + 1)) := by
  unfold primeArray
  rw [List.getElem?_map, List.getElem?_range h]
  simp

/-- C7, as amended. For every boolean array `a` (a `std::vector<bool>`, so of fewer than
`2^63` entries) in which `a[i]` is true exactly when `2*i+1` is prime, and every
`start ≤ end` with `(end+1)/2 ≤ length(a)`, `CountPrimes(start, end)` returns the number of
primes `p` with `start ≤ p ≤ end` reduced modulo `2^32` (the counter is a `uint32_t`), the
prime `2` being counted once when `start ≤ 2 ≤ end`; it is exactly that number whenever the
number is below `2^32`. -/
theorem C7_CountPrimes_counts (a : List Bool) (start end_ : Nat) (hlen : a.length < 2 ^ 63)
    (ha : ∀ i, i < a.length → (a[i]? = some true ↔ Nat.Prime (2 * i + 1)))
    (_hse : start ≤ end_) (hend : (end_ + 1) / 2 ≤ a.length) :
    CountPrimes a start end_ =
        some (((Finset.Icc start end_).filter Nat.Prime).card % 2 ^ 32) ∧
      (((Finset.Icc start end_).filter Nat.Prime).card < 2 ^ 32 →
        CountPrimes a start end_ = some ((Finset.Icc start end_).filter Nat.Prime).card) := by
  have h63 : (2:Nat) ^ 63 = 9223372036854775808 := by norm_num
  have h64 : (2:Nat) ^ 64 = 18446744073709551616 := by norm_num
  have hspec := CountPrimes_spec a start end_ (by omega)
    (fun x _ hx2 => ⟨by omega, ha x (by omega)⟩)
  refine ⟨hspec, fun hlt => ?_⟩
  rw [hspec, Nat.mod_eq_of_lt hlt]

theorem C7_witness :
    (primeArray 51).length < 2 ^ 63 ∧
      (∀ i, i < (primeArray 51).length →
        ((primeArray 51)[i]? = some true ↔ Nat.Prime (2 * i + 1))) ∧
      3 ≤ 100 ∧ (100 + 1) / 2 ≤ (primeArray 51).length ∧
      (CountPrimes (primeArray 51) 3 100 =
          some (((Finset.Icc 3 100).filter Nat.Prime).card % 2 ^ 32) ∧
        (((Finset.Icc 3 100).filter Nat.Prime).card < 2 ^ 32 →
          CountPrimes (primeArray 51) 3 100 =
            some ((Finset.Icc 3 100).filter Nat.Prime).card)) := by
  have hlen : (primeArray 51).length < 2 ^ 63 := by
    rw [primeArray_length]; norm_num
  have ha : ∀ i, i < (primeArray 51).length →
      ((primeArray 51)[i]? = some true ↔ Nat.Prime (2 * i + 1)) := by
    intro i hi
    rw [primeArray_length] at hi
    exact primeArray_getElem? 51 i hi
  have hend : (100 + 1) / 2 ≤ (primeArray 51).length := by
    rw [primeArray_length]
    decide
  exact ⟨hlen, ha, by decide, hend,
    C7_CountPrimes_counts (primeArray 51) 3 100 hlen ha (by decide) hend⟩

/-- C7 as stated fails. On the correctly marked array of `2^39 + 1` entries,
`CountPrimes(0, 2^40)` does not return the number of primes up to `2^40`: there are at least
`2^32` of them and the 32-bit counter wraps. -/
theorem C7_counterexample :
    (primeArray (2 ^ 39 + 1)).length < 2 ^ 63 ∧
      (∀ i, i < (primeArray (2 ^ 39 + 1)).length →
        ((primeArray (2 ^ 39 + 1))[i]? = some true ↔ Nat.Prime (2 * i + 1))) ∧
      0 ≤ 2 ^ 40 ∧ (2 ^ 40 + 1) / 2 ≤ (primeArray (2 ^ 39 + 1)).length ∧
      CountPrimes (primeArray (2 ^ 39 + 1)) 0 (2 ^ 40) ≠
        some ((Finset.Icc 0 (2 ^ 40)).filter Nat.Prime).card := by
  have hlen : (primeArray (2 ^ 39 + 1)).length < 2 ^ 63 := by
    rw [primeArray_length]; norm_num
  have ha : ∀ i, i < (primeArray (2 ^ 39 + 1)).length →
      ((primeArray (2 ^ 39 + 1))[i]? = some true ↔ Nat.Prime (2 * i + 1)) := by
    intro i hi
    rw [primeArray_length] at hi
    exact primeArray_getElem? _ i hi
  have hend : (2 ^ 40 + 1) / 2 ≤ (primeArray (2 ^ 39 + 1)).length := by
    rw [primeArray_length]; norm_num
  refine ⟨hlen, ha, Nat.zero_le _, hend, ?_⟩
  have hspec := CountPrimes_spec (primeArray (2 ^ 39 + 1)) 0 (2 ^ 40) (by norm_num)
    (fun x _ hx2 => ⟨lt_of_lt_of_le hx2 hend, ha x (lt_of_lt_of_le hx2 hend)⟩)
  rw [hspec]
  intro h
  have h1 := Option.some.inj h
  have h2 := primes_upto_two_pow_40
  have h3 : ((Finset.Icc 0 (2 ^ 40)).filter Nat.Prime).card % 2 ^ 32 < 2 ^ 32 :=
    Nat.mod_lt _ (by norm_num)
  omega

/-- C8, the code at the failing input. With the array of `Sieve(1)`, and likewise with the
array of `Sieve(100)`, `CountPrimes(0, 1)` and `CountPrimes(1, 1)` return `1`: the value `1`
is reported as prime, because index `0` of the array is left true. -/
theorem C8_Sieve_reports_one :
    (∃ a, Sieve 3 1 = some a ∧ CountPrimes a 0 1 = some 1 ∧ CountPrimes a 1 1 = some 1) ∧
    (∃ a, Sieve 52 100 = some a ∧ CountPrimes a 0 1 = some 1 ∧
      CountPrimes a 1 1 = some 1) := by
  constructor
  · refine ⟨[true], ?_, by decide, by decide⟩
    rw [Sieve_eval 3 1 1 (by decide) (by decide)]
    decide
  · obtain ⟨a, ha, hlen, hk⟩ := Sieve_spec 100 52 (by decide)
    have h0 : a[0]? = some true := by
      rw [hk 0 (by decide)]
      rintro ⟨t, h1, _, _, _, h5⟩
      nlinarith
    have hc : ∀ s, s ≤ 1 → CountPrimes a s 1 = some 1 := by
      intro s hs
      have hs2 : ¬ (s ≤ 2 ∧ 2 ≤ 1) := by omega
      have e1 : u64 (1 + 1) / 2 = 1 := by decide
      have e2 : s / 2 = 0 := by omega
      simp only [CountPrimes, hs2, decide_False, Bool.false_eq_true, if_false, e1, e2]
      show countLoop a 1 0 0 = some 1
      simp only [countLoop, h0]
      decide
    exact ⟨a, ha, hc 0 (by decide), hc 1 (by decide)⟩

/-- C9. For every array, hence for the array of either constructor at every limit `L ≥ 2`,
`CountPrimes(0, 2)` returns `1` and `print(0, 2)` emits exactly the single value `2`. -/
theorem C9_two_is_prime (m_sieve : List Bool) :
    CountPrimes m_sieve 0 2 = some 1 ∧ print m_sieve 0 2 = some [2] :=
  ⟨rfl, rfl⟩

/-- C10, the code at the failing input. With the array of `Sieve(12, 4)`, `print(0, 1)`
emits the value `2`, which is above `end = 1`, while `CountPrimes(0, 1)` returns `0`; the
same happens for `print(0, 0)`. -/
theorem C10_print_emits_two_above_end :
    ∃ a, Sieve2 20 12 4 = some a ∧ print a 0 1 = some [2] ∧ CountPrimes a 0 1 = some 0 ∧
      print a 0 0 = some [2] ∧ CountPrimes a 0 0 = some 0 := by
  refine ⟨[false, true, true, true, false, true, true], ?_, by decide, by decide, by decide,
    by decide⟩
  rw [Sieve2_eval 20 12 4 3 2 (by decide) (by decide) (by decide) (by decide)]
  decide

/-! ## The walk of `CountPrimes` over the array -/

theorem countLoop_inbounds (a : List Bool) :
    ∀ (n i ans : Nat), i + n ≤ a.length →
      (∃ r, countLoop a n i ans = some r) ∧ countReads a n i = List.range' i n := by
  intro n
  induction n with
  | zero =>
    intro i ans _
    exact ⟨⟨ans, rfl⟩, rfl⟩
  | succ n ih =>
    intro i ans h
    have hlt : i < a.length := by omega
    have hv : a[i]? = some (a[i]) := List.getElem?_eq_getElem hlt
    obtain ⟨hr, hl⟩ := ih (i + 1) (if a[i] then u32 (ans + 1) else ans) (by omega)
    refine ⟨?_, ?_⟩
    · simp only [countLoop, hv]
      exact hr
    · simp only [countReads, hv, hl]
      rfl

theorem countLoop_none_iff (a : List Bool) :
    ∀ (n i ans : Nat), countLoop a n i ans = none ↔ (0 < n ∧ a.length < i + n) := by
  intro n
  induction n with
  | zero =>
    intro i ans
    simp [countLoop]
  | succ n ih =>
    intro i ans
    by_cases hlt : i < a.length
    · have hv : a[i]? = some (a[i]) := List.getElem?_eq_getElem hlt
      simp only [countLoop, hv]
      rw [ih]
      constructor
      · rintro ⟨_, h2⟩
        exact ⟨by omega, by omega⟩
      · rintro ⟨_, h2⟩
        exact ⟨by omega, by omega⟩
    · have hv : a[i]? = none := List.getElem?_eq_none (by omega)
      simp only [countLoop, hv]
      simp only [true_iff]
      exact ⟨by omega, by omega⟩

/-- C11. For every array and every `start > end`, `CountPrimes(start, end)` returns `0` and
passes no index to the checked array access. -/
theorem C11_empty_range (m_sieve : List Bool) (start end_ : Nat) (h : end_ < start) :
    CountPrimes m_sieve start end_ = some 0 ∧ CountPrimesReads m_sieve start end_ = [] := by
  have h2 : ¬ (start ≤ 2 ∧ 2 ≤ end_) := by omega
  have hle : u64 (end_ + 1) ≤ end_ + 1 := Nat.mod_le _ _
  have hn : u64 (end_ + 1) / 2 - start / 2 = 0 := by omega
  constructor
  · simp only [CountPrimes, h2, decide_False, Bool.false_eq_true, if_false, hn]
    rfl
  · simp only [CountPrimesReads, h2, decide_False, Bool.false_eq_true, if_false, hn]
    rfl

theorem C11_witness :
    3 < 7 ∧ (CountPrimes [true, true, true, true] 7 3 = some 0 ∧
      CountPrimesReads [true, true, true, true] 7 3 = []) :=
  ⟨by decide, C11_empty_range [true, true, true, true] 7 3 (by decide)⟩

/-- C12. For every limit `L` and every array of `L/2 + 1` entries, which is the length of
the array of either constructor (a `std::vector<bool>`, so of fewer than `2^63` entries),
and every `start ≤ end ≤ L`: every index read by `CountPrimes(start, end)` is smaller than
the array length, the checked access does not fail and a count is returned, and the index
`end/2` of the value `end` is read when `end` is odd. -/
theorem C12_reads_in_bounds (a : List Bool) (L start end_ : Nat)
    (hlen : a.length = L / 2 + 1) (h63 : a.length < 2 ^ 63)
    (hse : start ≤ end_) (hL : end_ ≤ L) :
    (∀ i ∈ CountPrimesReads a start end_, i < a.length) ∧
      (∃ n, CountPrimes a start end_ = some n) ∧
      (end_ % 2 = 1 → end_ / 2 ∈ CountPrimesReads a start end_) := by
  have p63 : (2:Nat) ^ 63 = 9223372036854775808 := by norm_num
  have p64 : (2:Nat) ^ 64 = 18446744073709551616 := by norm_num
  have e64 : u64 (end_ + 1) = end_ + 1 := Nat.mod_eq_of_lt (by omega)
  have key : ∀ s, s ≤ end_ → ∀ ans,
      (∃ r, countLoop a ((end_ + 1) / 2 - s / 2) (s / 2) ans = some r) ∧
        countReads a ((end_ + 1) / 2 - s / 2) (s / 2) =
          List.range' (s / 2) ((end_ + 1) / 2 - s / 2) :=
    fun s hs ans => countLoop_inbounds a _ _ ans (by omega)
  by_cases h2 : start ≤ 2 ∧ 2 ≤ end_
  · obtain ⟨hr, hl⟩ := key 2 h2.2 1
    have hreads : CountPrimesReads a start end_ =
        List.range' (2 / 2) ((end_ + 1) / 2 - 2 / 2) := by
      simp only [CountPrimesReads, h2, and_self, decide_True, if_true, e64]
      exact hl
    refine ⟨?_, ?_, ?_⟩
    · intro i hi
      rw [hreads, List.mem_range'_1] at hi
      omega
    · simp only [CountPrimes, h2, and_self, decide_True, if_true, e64]
      exact hr
    · intro ho
      rw [hreads, List.mem_range'_1]
      omega
  · obtain ⟨hr, hl⟩ := key start hse 0
    have hreads : CountPrimesReads a start end_ =
        List.range' (start / 2) ((end_ + 1) / 2 - start / 2) := by
      simp only [CountPrimesReads, h2, decide_False, Bool.false_eq_true, if_false, e64]
      exact hl
    refine ⟨?_, ?_, ?_⟩
    · intro i hi
      rw [hreads, List.mem_range'_1] at hi
      omega
    · simp only [CountPrimes, h2, decide_False, Bool.false_eq_true, if_false, e64]
      exact hr
    · intro ho
      rw [hreads, List.mem_range'_1]
      omega

theorem C12_witness :
    (List.replicate 6 true).length = 11 / 2 + 1 ∧ (List.replicate 6 true).length < 2 ^ 63 ∧
      11 ≤ 11 ∧ 11 ≤ 11 ∧
      ((∀ i ∈ CountPrimesReads (List.replicate 6 true) 11 11,
          i < (List.replicate 6 true).length) ∧
        (∃ n, CountPrimes (List.replicate 6 true) 11 11 = some n) ∧
        (11 % 2 = 1 → 11 / 2 ∈ CountPrimesReads (List.replicate 6 true) 11 11)) :=
  ⟨by decide, by decide, by decide, by decide,
    C12_reads_in_bounds (List.replicate 6 true) 11 11 11 (by decide) (by decide) (by decide)
      (by decide)⟩

/-- C13, as amended. For every limit `L`, the array of `Sieve(L)` and every `start ≤ end`
with `end < 2^64 - 1`: `CountPrimes(start, end)` fails with the bounds error of the checked
access exactly when its walk is not empty and runs past the array, that is when
`start1/2 < (end+1)/2` and `L/2 + 1 < (end+1)/2`, where `start1` is `2` if `start ≤ 2 ≤ end`
and `start` otherwise. In particular it fails whenever `start < end` and `end ≥ L + 3`, and it
returns a count whenever `end ≤ L + 1`. -/
theorem C13_bounds_error (L fuel start end_ : Nat) (hf : L / 2 + 2 ≤ fuel)
    (_hse : start ≤ end_) (hend : end_ + 1 < 2 ^ 64) :
    ∃ a, Sieve fuel L = some a ∧
      (CountPrimes a start end_ = none ↔
        ((if start ≤ 2 ∧ 2 ≤ end_ then 2 else start) / 2 < (end_ + 1) / 2 ∧
          L / 2 + 1 < (end_ + 1) / 2)) ∧
      (start < end_ → L + 3 ≤ end_ → CountPrimes a start end_ = none) ∧
      (end_ ≤ L + 1 → ∃ n, CountPrimes a start end_ = some n) := by
  obtain ⟨a, ha, hlen, _⟩ := Sieve_spec L fuel hf
  have e64 : u64 (end_ + 1) = end_ + 1 := Nat.mod_eq_of_lt hend
  have hiff : CountPrimes a start end_ = none ↔
      ((if start ≤ 2 ∧ 2 ≤ end_ then 2 else start) / 2 < (end_ + 1) / 2 ∧
        L / 2 + 1 < (end_ + 1) / 2) := by
    by_cases h2 : start ≤ 2 ∧ 2 ≤ end_
    · simp only [CountPrimes, h2, and_self, decide_True, if_true, e64]
      rw [countLoop_none_iff, hlen]
      omega
    · simp only [CountPrimes, h2, decide_False, Bool.false_eq_true, if_false, e64]
      rw [countLoop_none_iff, hlen]
      omega
  refine ⟨a, ha, hiff, ?_, ?_⟩
  · intro h1 h3
    rw [hiff]
    split <;> omega
  · intro h1
    cases hc : CountPrimes a start end_ with
    | some n => exact ⟨n, rfl⟩
    | none =>
      rw [hiff] at hc
      omega

theorem C13_witness :
    10 / 2 + 2 ≤ 20 ∧ 4 ≤ 13 ∧ 13 + 1 < 2 ^ 64 ∧
      ∃ a, Sieve 20 10 = some a ∧
        (CountPrimes a 4 13 = none ↔
          ((if 4 ≤ 2 ∧ 2 ≤ 13 then 2 else 4) / 2 < (13 + 1) / 2 ∧
            10 / 2 + 1 < (13 + 1) / 2)) ∧
        (4 < 13 → 10 + 3 ≤ 13 → CountPrimes a 4 13 = none) ∧
        (13 ≤ 10 + 1 → ∃ n, CountPrimes a 4 13 = some n) :=
  ⟨by decide, by decide, by norm_num,
    C13_bounds_error 10 20 4 13 (by decide) (by decide) (by norm_num)⟩

/-- C13 as stated fails. On the array of `Sieve(10)`, `CountPrimes(0, 11)` returns the count
`5` although `11 > 10`, `CountPrimes(100, 100)` returns `0`, and
`CountPrimes(0, 2^64 - 1)` returns `1`: none of them fails with the bounds error. -/
theorem C13_counterexample :
    ∃ a, Sieve 20 10 = some a ∧ (0 ≤ 11 ∧ 10 < 11 ∧ CountPrimes a 0 11 = some 5) ∧
      (100 ≤ 100 ∧ 10 < 100 ∧ CountPrimes a 100 100 = some 0) ∧
      (0 ≤ 2 ^ 64 - 1 ∧ 10 < 2 ^ 64 - 1 ∧ CountPrimes a 0 (2 ^ 64 - 1) = some 1) := by
  refine ⟨[true, true, true, true, false, true], ?_, ⟨by decide, by decide, by decide⟩,
    ⟨by decide, by decide, by decide⟩, ⟨by decide, by norm_num, by decide⟩⟩
  rw [Sieve_eval 20 10 3 (by decide) (by decide)]
  decide

/-- C14, the code at the failing input. In `Sieve(10, 4)`, whose auxiliary sieve is
`Sieve(4)`, the result array has `6` entries, the indices `0` to `5`. The second block
starts at `low = 4` with `high = 6`, and its commit loop executes `answer[copyIndex] = true`
at the indices `5` and `6`: the write at index `6` is past the end of the array, and the
constructor gives no array. -/
theorem C14_commit_writes_past_end :
    ∃ aux st, Sieve 20 4 = some aux ∧
      blocksRun aux (10 / 2 + 1) 4 20 1 = some st ∧ st.low = 4 ∧ st.answer.length = 6 ∧
      blockHigh (10 / 2 + 1) 4 st.low = 6 ∧
      blockWrites aux (10 / 2 + 1) 4 20 st = [5, 6] ∧
      block aux (10 / 2 + 1) 4 20 st = none ∧ Sieve2 20 10 4 = none := by
  refine ⟨[true, true, true], _, ?_, rfl, rfl, rfl, by decide, by decide, rfl, ?_⟩
  · rw [Sieve_eval 20 4 2 (by decide) (by decide)]
    decide
  · rw [Sieve2_eval 20 10 4 3 2 (by decide) (by decide) (by decide) (by decide)]
    decide

/-! ## The run of the block loop, block by block -/

theorem blocksRun_succ (aux : List Bool) (M b fuel k : Nat) (st1 : SegState)
    (h : blocksRun aux M b fuel (k + 1) = some st1) :
    ∃ st, blocksRun aux M b fuel k = some st ∧ st.low ≤ M ∧
      block aux M b fuel st = some st1 := by
  simp only [blocksRun] at h
  cases hk : blocksRun aux M b fuel k with
  | none => rw [hk] at h; exact absurd h (by simp)
  | some st =>
    rw [hk] at h
    by_cases hl : st.low ≤ M
    · simp only [hl, if_true] at h
      exact ⟨st, rfl, hl, h⟩
    · simp only [hl, if_false] at h
      exact absurd h (by simp)

theorem blocksRun_step (aux : List Bool) (M b fuel k : Nat) (st st1 : SegState)
    (h : blocksRun aux M b fuel k = some st) (hl : st.low ≤ M)
    (hb : block aux M b fuel st = some st1) :
    blocksRun aux M b fuel (k + 1) = some st1 := by
  simp only [blocksRun, h, hl, if_true]
  exact hb

/-- The state in which block number `k` starts has `low = k * b`. -/
theorem blocksRun_low (aux : List Bool) (M b fuel : Nat) :
    ∀ (k : Nat) (st : SegState), blocksRun aux M b fuel k = some st → st.low = k * b := by
  intro k
  induction k with
  | zero =>
    intro st h
    have e : st = initState M := (Option.some.inj h).symm
    subst e
    simp [initState]
  | succ k ih =>
    intro st1 h
    obtain ⟨st, hk, _, hblk⟩ := blocksRun_succ aux M b fuel k st1 h
    obtain ⟨i1, P1, N1, N2, s1, c1, a1, _, _, _, e⟩ := block_some aux M b fuel st st1 hblk
    subst e
    simp only
    rw [ih st hk, Nat.succ_mul]

/-- In the design range every state in which a block starts, and the state with which the
last block ends, satisfies the invariant of the block loop, and block number `k` starts at
`low = k * b`. -/
theorem blocksRun_inv (aux : List Bool) (M b fuel : Nat) (hb1 : 1 ≤ b) (hb : b ≤ 2 ^ 31)
    (hM : M ≤ 2 ^ 30) (hf : M + b + 1 < fuel) (haux : AuxOK aux M) :
    ∀ (k : Nat) (st : SegState), blocksRun aux M b fuel k = some st →
      SegInv M st ∧ st.low = k * b := by
  intro k
  induction k with
  | zero =>
    intro st h
    have e : st = initState M := (Option.some.inj h).symm
    subst e
    exact ⟨segInv_init M, by simp [initState]⟩
  | succ k ih =>
    intro st1 h
    obtain ⟨st, hk, hl, hblk⟩ := blocksRun_succ aux M b fuel k st1 h
    obtain ⟨hinv, hlow⟩ := ih st hk
    obtain ⟨hinv2, hl2⟩ :=
      block_result aux M b fuel hb1 hb hM hf haux st st1 hinv hl hblk
    refine ⟨hinv2, ?_⟩
    rw [hl2, hlow, Nat.succ_mul]

/-- In the design range every block whose `low = k * b` is at most `memory` does start. -/
theorem blocksRun_start (aux : List Bool) (M b fuel : Nat) (hb1 : 1 ≤ b) (hb : b ≤ 2 ^ 31)
    (hM : M ≤ 2 ^ 30) (hf : M + b + 1 < fuel) (haux : AuxOK aux M) :
    ∀ (k : Nat), k * b ≤ M →
      ∃ st, blocksRun aux M b fuel k = some st ∧ SegInv M st ∧ st.low = k * b := by
  intro k
  induction k with
  | zero =>
    intro _
    exact ⟨initState M, rfl, segInv_init M, by simp [initState]⟩
  | succ k ih =>
    intro hk
    rw [Nat.succ_mul] at hk
    obtain ⟨st, hr, hinv, hlow⟩ := ih (by omega)
    obtain ⟨st1, hb1', hinv1, hl1⟩ :=
      block_spec aux M b fuel hb1 hb hM hf haux st hinv (by omega) (Or.inl (by omega))
    refine ⟨st1, blocksRun_step aux M b fuel k st st1 hr (by omega) hb1', hinv1, ?_⟩
    rw [hl1, hlow, Nat.succ_mul]

/-- The design range gives the bounds used by the lemmas on the block loop, and the
auxiliary sieve is built and answers correctly. -/
theorem design_range (L b fuel : Nat) (hL : L ≤ UPPER_BOUND) (hf : L / 2 + b + 3 ≤ fuel) :
    L / 2 + 1 ≤ 2 ^ 30 ∧ L / 2 + 1 + b + 1 < fuel ∧
      ∃ aux, Sieve fuel (u32 (Nat.sqrt L + 1)) = some aux ∧
        aux.length = (Nat.sqrt L + 1) / 2 + 1 ∧ AuxOK aux (L / 2 + 1) := by
  have hUB : UPPER_BOUND = 2147483647 := rfl
  have h30 : (2:Nat) ^ 30 = 1073741824 := by norm_num
  have h32 : (2:Nat) ^ 32 = 4294967296 := by norm_num
  have hs := Nat.sqrt_le_self L
  have hsq : u32 (Nat.sqrt L + 1) = Nat.sqrt L + 1 := u32_of_lt (by omega)
  obtain ⟨aux, haux, hlen, _⟩ := Sieve_spec (Nat.sqrt L + 1) fuel (by omega)
  refine ⟨by omega, by omega, aux, ?_, hlen, auxOK_Sieve L fuel aux (by omega) haux⟩
  rw [hsq]
  exact haux

/-- An index whose square index lies in the array is at most `(sqrt(L) + 1) / 2`, the last
index of the auxiliary sieve. -/
theorem aux_index_le (L t : Nat) (hsq : (t + 1) * t * 2 ≤ L / 2 + 1) :
    t ≤ (Nat.sqrt L + 1) / 2 := by
  have h1 : 2 * t - 1 ≤ Nat.sqrt L := by
    rw [Nat.le_sqrt]
    rcases Nat.eq_zero_or_pos t with h0 | hpos
    · subst h0; simp
    · obtain ⟨u, hu⟩ : ∃ u, 2 * t - 1 = u := ⟨_, rfl⟩
      have hu2 : 2 * t = u + 1 := by omega
      rw [hu]
      have h2 : 2 * (L / 2) ≤ L := by omega
      nlinarith
  omega

/-! ## What the discovery loop reads and pushes -/

theorem discoverReads_spec (aux : List Bool) (low high M : Nat) (hM : M ≤ 2 ^ 30)
    (hh : high ≤ M) :
    ∀ (fuel i : Nat), 1 ≤ i → i * (i - 1) * 2 ≤ M →
      ∀ t, t ∈ discoverReads aux low high fuel i → i ≤ t ∧ (t + 1) * t * 2 ≤ high := by
  intro fuel
  induction fuel with
  | zero => intro i _ _ t ht; simp [discoverReads] at ht
  | succ fuel ih =>
    intro i hi hbound t ht
    obtain ⟨hv32, hi32⟩ := square_index_lt_pow hi (le_trans hbound hM)
    have e1 : u32 (i + 1) = i + 1 := u32_of_lt hi32
    have e2 : u32 ((i + 1) * i) = (i + 1) * i := u32_of_lt (by omega)
    have e3 : u32 ((i + 1) * i * 2) = (i + 1) * i * 2 := u32_of_lt hv32
    simp only [discoverReads, e1, e2, e3] at ht
    by_cases hg : (i + 1) * i * 2 ≤ high
    · have hb1 : (i + 1) * (i + 1 - 1) * 2 ≤ M := by
        simp only [Nat.add_sub_cancel]
        omega
      simp only [hg, if_true, List.mem_cons] at ht
      rcases ht with rfl | ht
      · exact ⟨le_refl _, hg⟩
      · cases hv : aux[i]? with
        | none => rw [hv] at ht; simp at ht
        | some v =>
          rw [hv] at ht
          obtain ⟨h1, h2⟩ := ih (i + 1) (by omega) hb1 t ht
          exact ⟨by omega, h2⟩
    · simp only [hg, if_false] at ht
      simp at ht

theorem discoverPushes_spec (aux : List Bool) (low high M : Nat) (hM : M ≤ 2 ^ 30)
    (hh : high ≤ M) :
    ∀ (fuel i : Nat), 1 ≤ i → i * (i - 1) * 2 ≤ M → low ≤ (i + 1) * i * 2 →
      ∀ x, x ∈ discoverPushes aux low high fuel i →
        i ≤ x.1 ∧ low ≤ (x.1 + 1) * x.1 * 2 ∧ (x.1 + 1) * x.1 * 2 ≤ high ∧
          x.2 = (x.1 + 1) * x.1 * 2 - low := by
  intro fuel
  induction fuel with
  | zero => intro i _ _ _ x hx; simp [discoverPushes] at hx
  | succ fuel ih =>
    intro i hi hbound hlow x hx
    obtain ⟨hv32, hi32⟩ := square_index_lt_pow hi (le_trans hbound hM)
    have e1 : u32 (i + 1) = i + 1 := u32_of_lt hi32
    have e2 : u32 ((i + 1) * i) = (i + 1) * i := u32_of_lt (by omega)
    have e3 : u32 ((i + 1) * i * 2) = (i + 1) * i * 2 := u32_of_lt hv32
    simp only [discoverPushes, e1, e2, e3] at hx
    by_cases hg : (i + 1) * i * 2 ≤ high
    · have hb1 : (i + 1) * (i + 1 - 1) * 2 ≤ M := by
        simp only [Nat.add_sub_cancel]
        omega
      have hnext : low ≤ (i + 1 + 1) * (i + 1) * 2 :=
        le_trans hlow ((square_index_le_iff _ _).2 (Nat.le_succ i))
      have hrec : ∀ y, y ∈ discoverPushes aux low high fuel (i + 1) →
          i ≤ y.1 ∧ low ≤ (y.1 + 1) * y.1 * 2 ∧ (y.1 + 1) * y.1 * 2 ≤ high ∧
            y.2 = (y.1 + 1) * y.1 * 2 - low := by
        intro y hy
        obtain ⟨h1, h2⟩ := ih (i + 1) (by omega) hb1 hnext y hy
        exact ⟨by omega, h2⟩
      simp only [hg, if_true] at hx
      cases hv : aux[i]? with
      | none => rw [hv] at hx; simp at hx
      | some v =>
        rw [hv] at hx
        cases v with
        | false => exact hrec x hx
        | true =>
          simp only [List.mem_cons] at hx
          rcases hx with rfl | hx
          · exact ⟨le_refl _, hlow, hg, sub32_of_le hlow hv32⟩
          · exact hrec x hx
    · simp only [hg, if_false] at hx
      simp at hx

/-- The lists `primes` and `next` after the discovery loop are the lists before it,
followed by what the loop pushes. -/
theorem discoverLoop_pushes (aux : List Bool) (low high : Nat) :
    ∀ (fuel i : Nat) (P N : List Nat) (r : Nat × List Nat × List Nat),
      discoverLoop aux low high fuel i P N = some r →
        r.2.1 = P ++ (discoverPushes aux low high fuel i).map Prod.fst ∧
          r.2.2 = N ++ (discoverPushes aux low high fuel i).map Prod.snd := by
  intro fuel
  induction fuel with
  | zero => intro i P N r h; simp [discoverLoop] at h
  | succ fuel ih =>
    intro i P N r h
    simp only [discoverLoop, discoverPushes] at h ⊢
    by_cases hg : u32 (u32 (u32 (i + 1) * i) * 2) ≤ high
    · simp only [hg, if_true] at h ⊢
      cases hv : aux[i]? with
      | none => rw [hv] at h; simp at h
      | some v =>
        rw [hv] at h
        cases v with
        | false => exact ih _ _ _ r h
        | true =>
          obtain ⟨h1, h2⟩ := ih _ _ _ r h
          simp only [List.map_cons]
          rw [h1, h2]
          simp
    · simp only [hg, if_false] at h ⊢
      have e := Option.some.inj h
      subst e
      simp

/-- A carried offset is the offset of the first index not below `low` on the progression
of its prime. -/
theorem carry_least {low p n : Nat} (hc : Carry low p n) :
    n < 2 ^ 32 ∧ (∃ j, low + n = (p + 1) * p * 2 + j * (2 * p + 1)) ∧
      ∀ j, low ≤ (p + 1) * p * 2 + j * (2 * p + 1) →
        low + n ≤ (p + 1) * p * 2 + j * (2 * p + 1) := by
  obtain ⟨_, _, hn, hle, ⟨c, hc⟩, hmin⟩ := hc
  have h31 : (2:Nat) ^ 31 = 2147483648 := by norm_num
  have h32 : (2:Nat) ^ 32 = 4294967296 := by norm_num
  have hex : low + n = (p + 1) * p * 2 + c * (2 * p + 1) := by
    rw [Nat.mul_comm c]
    omega
  refine ⟨by omega, ⟨c, hex⟩, ?_⟩
  intro j hj
  rcases hmin with h | h
  · rw [h]
    exact Nat.le_add_right _ _
  · by_contra hlt
    have h1 : j * (2 * p + 1) < c * (2 * p + 1) := by omega
    have h2 : j < c := lt_of_mul_lt_mul_right h1 (Nat.zero_le _)
    have h3 : (j + 1) * (2 * p + 1) ≤ c * (2 * p + 1) := Nat.mul_le_mul_right _ h2
    rw [Nat.succ_mul] at h3
    omega

/-- The list `primes` after a block is the list before it, followed by the indices the
block pushes. -/
theorem block_primes (aux : List Bool) (M b fuel : Nat) (st st1 : SegState)
    (h : block aux M b fuel st = some st1) :
    st1.primes = st.primes ++ (blockPushes aux M b fuel st).map Prod.fst := by
  obtain ⟨i1, P1, N1, N2, s1, c1, a1, hd, _, _, e⟩ := block_some aux M b fuel st st1 h
  subst e
  exact (discoverLoop_pushes aux st.low _ fuel st.index1 st.primes st.next _ hd).1

/-! ## The discovery loop outside the 32-bit design range -/

theorem guard_even (y : Nat) : u32 (u32 y * 2) ≤ 2 ^ 32 - 2 := by
  generalize u32 y = z
  unfold u32
  norm_num
  omega

/-- With `high = 2^32 - 2` the discovery loop walks through every index of the auxiliary
sieve: what it pushes from index `i + n` on, it also pushes when started at `i`. -/
theorem discoverPushes_skip (aux : List Bool) (low : Nat) :
    ∀ (n i f : Nat), i + n ≤ aux.length → i + n < 2 ^ 32 →
      ∀ x, x ∈ discoverPushes aux low (2 ^ 32 - 2) f (i + n) →
        x ∈ discoverPushes aux low (2 ^ 32 - 2) (n + f) i := by
  intro n
  induction n with
  | zero =>
    intro i f _ _ x hx
    rw [Nat.zero_add]
    exact hx
  | succ n ih =>
    intro i f h1 h2 x hx
    have e : i + (n + 1) = i + 1 + n := by omega
    rw [e] at hx
    have hrec := ih (i + 1) f (by omega) (by omega) x hx
    have e1 : u32 (i + 1) = i + 1 := u32_of_lt (by omega)
    have hlt : i < aux.length := by omega
    have hv : aux[i]? = some (aux[i]) := List.getElem?_eq_getElem hlt
    have e2 : n + 1 + f = (n + f) + 1 := by omega
    rw [e2]
    simp only [discoverPushes, guard_even, if_true, hv]
    rw [e1]
    cases aux[i] with
    | true => exact List.mem_cons_of_mem _ hrec
    | false => exact hrec

/-- With `high = 2^32 - 2` the discovery loop reads every index of the auxiliary sieve and
then the index that follows the last one. -/
theorem discoverReads_skip (aux : List Bool) (low : Nat) :
    ∀ (n i f : Nat), i + n ≤ aux.length → i + n < 2 ^ 32 →
      ∀ x, x ∈ discoverReads aux low (2 ^ 32 - 2) f (i + n) →
        x ∈ discoverReads aux low (2 ^ 32 - 2) (n + f) i := by
  intro n
  induction n with
  | zero =>
    intro i f _ _ x hx
    rw [Nat.zero_add]
    exact hx
  | succ n ih =>
    intro i f h1 h2 x hx
    have e : i + (n + 1) = i + 1 + n := by omega
    rw [e] at hx
    have hrec := ih (i + 1) f (by omega) (by omega) x hx
    have e1 : u32 (i + 1) = i + 1 := u32_of_lt (by omega)
    have hlt : i < aux.length := by omega
    have hv : aux[i]? = some (aux[i]) := List.getElem?_eq_getElem hlt
    have e2 : n + 1 + f = (n + f) + 1 := by omega
    rw [e2]
    simp only [discoverReads, guard_even, if_true, hv]
    rw [e1]
    exact List.mem_cons_of_mem _ hrec

theorem discoverPushes_head (aux : List Bool) (low high f i : Nat)
    (hg : u32 (u32 (u32 (i + 1) * i) * 2) ≤ high) (hv : aux[i]? = some true) :
    (i, sub32 (u32 (u32 (u32 (i + 1) * i) * 2)) low) ∈
      discoverPushes aux low high (f + 1) i := by
  simp only [discoverPushes, hg, if_true, hv]
  exact List.mem_cons_self _ _

theorem discoverReads_head (aux : List Bool) (low high f i : Nat)
    (hg : u32 (u32 (u32 (i + 1) * i) * 2) ≤ high) :
    i ∈ discoverReads aux low high (f + 1) i := by
  simp only [discoverReads, hg, if_true]
  exact List.mem_cons_self _ _

/-- The auxiliary sieve of `Sieve(2^33, b)` is `Sieve(92682)`: it has `46342` entries and
its last entry, for the prime `92683`, is true. -/
theorem aux_two_pow_33 (fuel : Nat) (hf : 46343 ≤ fuel) :
    ∃ aux, Sieve fuel (u32 (Nat.sqrt (2 ^ 33) + 1)) = some aux ∧ aux.length = 46342 ∧
      aux[46341]? = some true := by
  have hs : Nat.sqrt (2 ^ 33) = 92681 := sqrt_eq _ _ (by norm_num) (by norm_num)
  have hu : u32 (92681 + 1) = 92682 := by unfold u32; norm_num
  obtain ⟨a, ha, hlen, hp⟩ := Sieve_entry_iff_prime 92682 fuel 46341 (by omega) (by decide)
    (by decide)
  refine ⟨a, ?_, hlen, hp.2 (by norm_num)⟩
  rw [hs, hu]
  exact ha

theorem blockHigh_two_pow_33 : blockHigh (2 ^ 33 / 2 + 1) (2 ^ 32 - 1) 0 = 2 ^ 32 - 2 := by
  unfold blockHigh sub64
  norm_num

/-- C15, as amended. For every limit `L ≤ UPPER_BOUND`, every block size `1 ≤ b ≤ 2^31`
and the state `st` in which any block of `Sieve(L, b)` starts (`low = st.low`): each carried
prime index `i` with stored offset `n` has `n < 2^32` and `low + n` is the smallest index not
below `low` of the form `2*i*(i+1) + j*(2*i+1)`; and every pair `(i, n)` the block pushes has
`low ≤ 2*i*(i+1) ≤ high` and `n = 2*i*(i+1) - low < b`, the discovery loop of the block ends
and leaves the lists `primes` and `next` as they were, followed by the pushed indices and
offsets, and so does the block when it ends. -/
theorem C15_carry_invariant (L b fuel : Nat) (hL : L ≤ UPPER_BOUND) (hb1 : 1 ≤ b)
    (hb : b ≤ 2 ^ 31) (hf : L / 2 + b + 3 ≤ fuel) :
    ∃ aux, Sieve fuel (u32 (Nat.sqrt L + 1)) = some aux ∧
      ∀ (k : Nat) (st : SegState), blocksRun aux (L / 2 + 1) b fuel k = some st →
        List.Forall₂ (fun i n => n < 2 ^ 32 ∧
            (∃ j, st.low + n = (i + 1) * i * 2 + j * (2 * i + 1)) ∧
            ∀ j, st.low ≤ (i + 1) * i * 2 + j * (2 * i + 1) →
              st.low + n ≤ (i + 1) * i * 2 + j * (2 * i + 1)) st.primes st.next ∧
        (st.low ≤ L / 2 + 1 →
          (∀ x, x ∈ blockPushes aux (L / 2 + 1) b fuel st →
            st.low ≤ (x.1 + 1) * x.1 * 2 ∧
              (x.1 + 1) * x.1 * 2 ≤ blockHigh (L / 2 + 1) b st.low ∧
              x.2 = (x.1 + 1) * x.1 * 2 - st.low ∧ x.2 < b) ∧
          (∃ i1, discoverLoop aux st.low (blockHigh (L / 2 + 1) b st.low) fuel st.index1
              st.primes st.next =
            some (i1, st.primes ++ (blockPushes aux (L / 2 + 1) b fuel st).map Prod.fst,
              st.next ++ (blockPushes aux (L / 2 + 1) b fuel st).map Prod.snd)) ∧
          ∀ st1, block aux (L / 2 + 1) b fuel st = some st1 →
            st1.primes = st.primes ++ (blockPushes aux (L / 2 + 1) b fuel st).map Prod.fst) := by
  obtain ⟨hM, hfuel, aux, haux, _, hok⟩ := design_range L b fuel hL hf
  refine ⟨aux, haux, ?_⟩
  intro k st hk
  obtain ⟨hinv, _⟩ := blocksRun_inv aux (L / 2 + 1) b fuel hb1 hb hM hfuel hok k st hk
  refine ⟨?_, ?_⟩
  · exact List.Forall₂.imp (fun _ _ hc => carry_least hc) hinv.2.2.2.1
  · intro hlow
    obtain ⟨h1, h2, h3, h4, h5, h6⟩ := segInv_entry (L / 2 + 1) b hb1 hb hM st hinv hlow
    refine ⟨?_, ?_, ?_⟩
    · intro x hx
      obtain ⟨_, q1, q2, q3⟩ :=
        discoverPushes_spec aux st.low _ (L / 2 + 1) hM h1 fuel st.index1 h4 h5 h6 x hx
      exact ⟨q1, q2, q3, by omega⟩
    · obtain ⟨i1, P1, N1, _, _, hd, _⟩ :=
        block_run aux (L / 2 + 1) b fuel hb1 hb hM hfuel hok st hinv hlow
      obtain ⟨e1, e2⟩ := discoverLoop_pushes aux st.low _ fuel st.index1 st.primes st.next _ hd
      simp only at e1 e2
      refine ⟨i1, ?_⟩
      rw [hd, e1, e2]
      rfl
    · intro st1 hr
      exact block_primes aux _ b fuel st st1 hr

theorem C15_witness :
    10 ≤ UPPER_BOUND ∧ 1 ≤ 4 ∧ 4 ≤ 2 ^ 31 ∧ 10 / 2 + 4 + 3 ≤ 20 ∧
    ∃ aux, Sieve 20 (u32 (Nat.sqrt 10 + 1)) = some aux ∧
      ∀ (k : Nat) (st : SegState), blocksRun aux (10 / 2 + 1) 4 20 k = some st →
        List.Forall₂ (fun i n => n < 2 ^ 32 ∧
            (∃ j, st.low + n = (i + 1) * i * 2 + j * (2 * i + 1)) ∧
            ∀ j, st.low ≤ (i + 1) * i * 2 + j * (2 * i + 1) →
              st.low + n ≤ (i + 1) * i * 2 + j * (2 * i + 1)) st.primes st.next ∧
        (st.low ≤ 10 / 2 + 1 →
          (∀ x, x ∈ blockPushes aux (10 / 2 + 1) 4 20 st →
            st.low ≤ (x.1 + 1) * x.1 * 2 ∧
              (x.1 + 1) * x.1 * 2 ≤ blockHigh (10 / 2 + 1) 4 st.low ∧
              x.2 = (x.1 + 1) * x.1 * 2 - st.low ∧ x.2 < 4) ∧
          (∃ i1, discoverLoop aux st.low (blockHigh (10 / 2 + 1) 4 st.low) 20 st.index1
              st.primes st.next =
            some (i1, st.primes ++ (blockPushes aux (10 / 2 + 1) 4 20 st).map Prod.fst,
              st.next ++ (blockPushes aux (10 / 2 + 1) 4 20 st).map Prod.snd)) ∧
          ∀ st1, block aux (10 / 2 + 1) 4 20 st = some st1 →
            st1.primes = st.primes ++ (blockPushes aux (10 / 2 + 1) 4 20 st).map Prod.fst) :=
  ⟨by decide, by decide, by norm_num, by decide,
    C15_carry_invariant 10 4 20 (by decide) (by decide) (by norm_num) (by decide)⟩

/-- C15 as stated fails. In the first block of `Sieve(2^33, 2^32 - 1)`, where `low = 0` and
`high = 2^32 - 2`, the discovery loop pushes the prime index `46341` with the offset
`101948`, although `2 * 46341 * 46342 = 4295069244` is above `high` and is not the offset:
the product is formed in 32 bits. -/
theorem C15_counterexample :
    ∃ aux, Sieve 50000 (u32 (Nat.sqrt (2 ^ 33) + 1)) = some aux ∧
      blocksRun aux (2 ^ 33 / 2 + 1) (2 ^ 32 - 1) 50000 0 =
        some (initState (2 ^ 33 / 2 + 1)) ∧
      (initState (2 ^ 33 / 2 + 1)).low = 0 ∧
      (46341, 101948) ∈
        blockPushes aux (2 ^ 33 / 2 + 1) (2 ^ 32 - 1) 50000 (initState (2 ^ 33 / 2 + 1)) ∧
      blockHigh (2 ^ 33 / 2 + 1) (2 ^ 32 - 1) 0 < (46341 + 1) * 46341 * 2 ∧
      101948 ≠ (46341 + 1) * 46341 * 2 - 0 := by
  obtain ⟨aux, haux, hlen, hlast⟩ := aux_two_pow_33 50000 (by decide)
  refine ⟨aux, haux, rfl, rfl, ?_, ?_, by decide⟩
  · show (46341, 101948) ∈ discoverPushes aux 0 (blockHigh (2 ^ 33 / 2 + 1) (2 ^ 32 - 1) 0)
      50000 1
    rw [blockHigh_two_pow_33]
    apply discoverPushes_skip aux 0 46340 1 3660 (by omega) (by norm_num)
    have hval : sub32 (u32 (u32 (u32 (46341 + 1) * 46341) * 2)) 0 = 101948 := by
      unfold sub32 u32
      norm_num
    have hhead := discoverPushes_head aux 0 (2 ^ 32 - 2) 3659 46341 (guard_even _) hlast
    rw [hval] at hhead
    exact hhead
  · rw [blockHigh_two_pow_33]
    norm_num

/-! ## The commit cursor -/

/-- The commit loop examines the indices from `copyIndex` to `high`, each once and in
increasing order, when its reads stay in the buffer and no index below `high` is past the
end of `answer`. -/
theorem commitExamined_spec (low high b size : Nat) (s : List Bool) (hs : s.length = b)
    (hh : high < low + b) (hh2 : high + 1 < 2 ^ 32) (hsize : ∀ k, k < high → k < size) :
    ∀ (fuel c : Nat), high + 1 - c < fuel → low ≤ c →
      commitExamined low high s size fuel c = List.range' c (high + 1 - c) := by
  intro fuel
  induction fuel with
  | zero => intro c h; omega
  | succ fuel ih =>
    intro c hf hlc
    have h32 : (2:Nat) ^ 32 = 4294967296 := by norm_num
    have h64 : (2:Nat) ^ 64 = 18446744073709551616 := by norm_num
    by_cases hc : c ≤ high
    · have e1 : sub64 c low = c - low := sub64_of_le hlc (by omega)
      have e2 : u32 (c + 1) = c + 1 := u32_of_lt (by omega)
      have hlt : c - low < s.length := by omega
      have hv : s[c - low]? = some (s[c - low]) := List.getElem?_eq_getElem hlt
      have e3 : high + 1 - c = (high + 1 - (c + 1)) + 1 := by omega
      have hrec := ih (c + 1) (by omega) (by omega)
      simp only [commitExamined, hc, if_true, e1, e2, hv]
      rw [e3, List.range'_succ]
      congr 1
      cases s[c - low] with
      | false => exact hrec
      | true =>
        simp only
        by_cases hcs : c < size
        · simp only [hcs, if_true]
          exact hrec
        · have hch : c = high := by
            by_contra hne
            exact hcs (hsize c (by omega))
          have e4 : high + 1 - (c + 1) = 0 := by omega
          simp only [hcs, if_false, e4]
          rfl
    · have e3 : high + 1 - c = 0 := by omega
      simp only [commitExamined, hc, if_false, e3]
      rfl

/-- In the design range the commit loop of a block examines the indices from the cursor
to `high`. -/
theorem block_examined (aux : List Bool) (M b fuel : Nat) (hb1 : 1 ≤ b) (hb : b ≤ 2 ^ 31)
    (hM : M ≤ 2 ^ 30) (hf : M + b + 1 < fuel) (haux : AuxOK aux M) (st : SegState)
    (hinv : SegInv M st) (hlow : st.low ≤ M) :
    blockExamined aux M b fuel st =
      List.range' st.copyIndex (blockHigh M b st.low + 1 - st.copyIndex) := by
  obtain ⟨i1, P1, N1, N2, s1, hd, hm, hs1, _⟩ :=
    block_run aux M b fuel hb1 hb hM hf haux st hinv hlow
  obtain ⟨hhM, _, hhb, _, _, _⟩ := segInv_entry M b hb1 hb hM st hinv hlow
  obtain ⟨hlc, _, _, _, _, _, h32⟩ := segInv_cursor M b hb1 hb hM st hinv hlow
  have hlen : st.answer.length = M := hinv.2.2.2.2.2.1
  simp only [blockExamined, blockBuffer, hd, hm, Option.map_some']
  exact commitExamined_spec st.low _ b _ s1 hs1 hhb h32
    (fun k hk => by rw [hlen]; omega) fuel st.copyIndex (by omega) hlc

/-- After the block that starts in `st`, the indices examined so far are those from `1` to
the `high` of that block. -/
theorem runExamined_succ (aux : List Bool) (M b fuel : Nat) (hb1 : 1 ≤ b) (hb : b ≤ 2 ^ 31)
    (hM : M ≤ 2 ^ 30) (hf : M + b + 1 < fuel) (haux : AuxOK aux M) (k : Nat) (st : SegState)
    (hk : blocksRun aux M b fuel k = some st) (hinv : SegInv M st) (hlow : st.low ≤ M)
    (hex : runExamined aux M b fuel k = List.range' 1 (st.copyIndex - 1)) :
    runExamined aux M b fuel (k + 1) = List.range' 1 (blockHigh M b st.low) := by
  obtain ⟨_, hc1, hc2, _⟩ := segInv_cursor M b hb1 hb hM st hinv hlow
  have e0 : runExamined aux M b fuel (k + 1) =
      runExamined aux M b fuel k ++ blockExamined aux M b fuel st := by
    rw [runExamined, hk]
    simp only [hlow, if_true]
  rw [e0, hex, block_examined aux M b fuel hb1 hb hM hf haux st hinv hlow]
  have e1 : List.range' st.copyIndex (blockHigh M b st.low + 1 - st.copyIndex) =
      List.range' (1 + (st.copyIndex - 1)) (blockHigh M b st.low + 1 - st.copyIndex) := by
    congr 1
    omega
  have e2 : blockHigh M b st.low + 1 - st.copyIndex + (st.copyIndex - 1) =
      blockHigh M b st.low := by omega
  rw [e1, List.range'_append_1, e2]

/-- In the design range, at the start of every block the indices examined so far are
those from `1` up to the cursor. -/
theorem run_examined (aux : List Bool) (M b fuel : Nat) (hb1 : 1 ≤ b) (hb : b ≤ 2 ^ 31)
    (hM : M ≤ 2 ^ 30) (hf : M + b + 1 < fuel) (haux : AuxOK aux M) :
    ∀ (k : Nat), k * b ≤ M →
      ∃ st, blocksRun aux M b fuel k = some st ∧ SegInv M st ∧ st.low = k * b ∧
        runExamined aux M b fuel k = List.range' 1 (st.copyIndex - 1) := by
  intro k
  induction k with
  | zero =>
    intro _
    exact ⟨initState M, rfl, segInv_init M, by simp [initState], rfl⟩
  | succ k ih =>
    intro hk
    rw [Nat.succ_mul] at hk
    obtain ⟨st, hr, hinv, hlow, hex⟩ := ih (by omega)
    obtain ⟨st1, hr1, hinv1, hl1⟩ :=
      blocksRun_start aux M b fuel hb1 hb hM hf haux (k + 1) (by rw [Nat.succ_mul]; omega)
    have hst : st.low ≤ M := by omega
    obtain ⟨_, _, _, hfront, _, _, _⟩ := segInv_cursor M b hb1 hb hM st hinv hst
    refine ⟨st1, hr1, hinv1, hl1, ?_⟩
    rw [runExamined_succ aux M b fuel hb1 hb hM hf haux k st hr hinv hst hex]
    have hc := hinv1.2.2.1
    have hmin : min st1.low (M + 1) = st1.low := by
      rw [hl1, Nat.succ_mul]
      exact min_eq_left (by omega)
    rw [hmin, hl1, Nat.succ_mul, ← hlow] at hc
    have hmin2 : min (st.low + b) (M + 1) = st.low + b := min_eq_left (by omega)
    rw [hmin2] at hfront
    have e3 : max 1 (st.low + b) - 1 = blockHigh M b st.low := by omega
    rw [hc, e3]

/-- The last block, the one that starts at `low = (M / b) * b`, has `high = M`. -/
theorem blockHigh_last (M b : Nat) (hb1 : 1 ≤ b) (hb : b ≤ 2 ^ 31) (hM : M ≤ 2 ^ 30) :
    M / b * b ≤ M ∧ M < M / b * b + b ∧ blockHigh M b (M / b * b) = M := by
  have h30 : (2:Nat) ^ 30 = 1073741824 := by norm_num
  have h31 : (2:Nat) ^ 31 = 2147483648 := by norm_num
  have h64 : (2:Nat) ^ 64 = 18446744073709551616 := by norm_num
  have h1 : M / b * b ≤ M := Nat.div_mul_le_self M b
  have h2 : M < M / b * b + b := by
    have := Nat.lt_succ_self (M / b)
    have h3 := (Nat.div_lt_iff_lt_mul (by omega : 0 < b)).1 this
    rw [Nat.succ_mul] at h3
    exact h3
  refine ⟨h1, h2, ?_⟩
  rw [blockHigh_eq M b _ hb1 (by omega)]
  omega

/-- With `high = 2^32 - 2` in the first block, no block ends and no index is examined. -/
theorem runExamined_two_pow_33 (aux : List Bool) (fuel : Nat) :
    ∀ k, blocksRun aux (2 ^ 33 / 2 + 1) (2 ^ 32 - 1) fuel (k + 1) = none ∧
      runExamined aux (2 ^ 33 / 2 + 1) (2 ^ 32 - 1) fuel (k + 1) = [] := by
  have h0 : (initState (2 ^ 33 / 2 + 1)).low ≤ 2 ^ 33 / 2 + 1 := Nat.zero_le _
  have hblock : block aux (2 ^ 33 / 2 + 1) (2 ^ 32 - 1) fuel (initState (2 ^ 33 / 2 + 1)) =
      none := by
    unfold block
    simp only [initState, blockHigh_two_pow_33]
    rw [discoverLoop_no_exit]
  have hex : blockExamined aux (2 ^ 33 / 2 + 1) (2 ^ 32 - 1) fuel
      (initState (2 ^ 33 / 2 + 1)) = [] := by
    unfold blockExamined blockBuffer
    simp only [initState, blockHigh_two_pow_33]
    rw [discoverLoop_no_exit]
  intro k
  induction k with
  | zero =>
    constructor
    · rw [blocksRun, blocksRun]
      simp only [h0, if_true, hblock]
    · rw [runExamined, runExamined, blocksRun]
      simp only [h0, if_true, hex, List.append_nil]
  | succ k ih =>
    obtain ⟨q1, q2⟩ := ih
    constructor
    · rw [blocksRun, q1]
    · rw [runExamined, q2, q1]
      rfl

/-- C16, as amended. For every limit `L ≤ UPPER_BOUND` and block size `1 ≤ b ≤ 2^31`, with
fuel `L/2 + b + 3`: the commit cursor is `1` before the first block; each of the
`(L/2+1)/b + 1` blocks starts, with `low = k*b`, a cursor that is at least `1` and at least
`low`, and the indices `1, ..., copyIndex - 1` examined so far, each once and in increasing
order; its commit loop examines the indices from `copyIndex` to `high`, in order, and
`copyIndex ≤ high + 1`; the block ends with the cursor at `high + 1` if it is not the last
block or if `2*(L/2+1)+1` is not prime. The last block has `high = L/2+1`, and over the
whole run the indices examined are `1, 2, ..., L/2+1`, each once and in increasing order;
index `0` is never examined. -/
theorem C16_commit_cursor (L b fuel : Nat) (hL : L ≤ UPPER_BOUND) (hb1 : 1 ≤ b)
    (hb : b ≤ 2 ^ 31) (hf : L / 2 + b + 3 ≤ fuel) :
    ∃ aux, Sieve fuel (u32 (Nat.sqrt L + 1)) = some aux ∧
      (initState (L / 2 + 1)).copyIndex = 1 ∧
      (∀ k, k ≤ (L / 2 + 1) / b →
        ∃ st, blocksRun aux (L / 2 + 1) b fuel k = some st ∧ st.low = k * b ∧
          1 ≤ st.copyIndex ∧ st.low ≤ st.copyIndex ∧
          st.copyIndex ≤ blockHigh (L / 2 + 1) b st.low + 1 ∧
          runExamined aux (L / 2 + 1) b fuel k = List.range' 1 (st.copyIndex - 1) ∧
          blockExamined aux (L / 2 + 1) b fuel st =
            List.range' st.copyIndex (blockHigh (L / 2 + 1) b st.low + 1 - st.copyIndex) ∧
          (k < (L / 2 + 1) / b ∨ ¬ Nat.Prime (2 * (L / 2 + 1) + 1) →
            ∃ st1, block aux (L / 2 + 1) b fuel st = some st1 ∧
              st1.copyIndex = blockHigh (L / 2 + 1) b st.low + 1)) ∧
      blockHigh (L / 2 + 1) b ((L / 2 + 1) / b * b) = L / 2 + 1 ∧
      runExamined aux (L / 2 + 1) b fuel ((L / 2 + 1) / b + 1) =
        List.range' 1 (L / 2 + 1) := by
  obtain ⟨hM, hfuel, aux, haux, _, hok⟩ := design_range L b fuel hL hf
  obtain ⟨hl1, hl2, hl3⟩ := blockHigh_last (L / 2 + 1) b hb1 hb hM
  have hkb : ∀ k, k ≤ (L / 2 + 1) / b → k * b ≤ L / 2 + 1 := fun k hk =>
    le_trans (Nat.mul_le_mul_right b hk) hl1
  refine ⟨aux, haux, rfl, ?_, hl3, ?_⟩
  · intro k hk
    obtain ⟨st, hr, hinv, hlow, hex⟩ :=
      run_examined aux (L / 2 + 1) b fuel hb1 hb hM hfuel hok k (hkb k hk)
    have hst : st.low ≤ L / 2 + 1 := by rw [hlow]; exact hkb k hk
    obtain ⟨hc1, hc2, hc3, _, _, _, _⟩ := segInv_cursor (L / 2 + 1) b hb1 hb hM st hinv hst
    refine ⟨st, hr, hlow, hc2, hc1, hc3, hex,
      block_examined aux (L / 2 + 1) b fuel hb1 hb hM hfuel hok st hinv hst, ?_⟩
    intro hcase
    have hlast : st.low + b ≤ L / 2 + 1 ∨ ¬ Nat.Prime (2 * (L / 2 + 1) + 1) := by
      rcases hcase with h | h
      · left
        have := hkb (k + 1) h
        rw [Nat.succ_mul] at this
        rw [hlow]
        exact this
      · exact Or.inr h
    obtain ⟨st1, hb2, hinv1, hlow1⟩ :=
      block_spec aux (L / 2 + 1) b fuel hb1 hb hM hfuel hok st hinv hst hlast
    obtain ⟨_, _, _, hfront, _, _, _⟩ := segInv_cursor (L / 2 + 1) b hb1 hb hM st hinv hst
    refine ⟨st1, hb2, ?_⟩
    have hc := hinv1.2.2.1
    have hmono : min st1.low (L / 2 + 1 + 1) = min (st.low + b) (L / 2 + 1 + 1) := by
      rw [hlow1]
    rw [hc, hmono, hfront]
  · obtain ⟨st, hr, hinv, hlow, hex⟩ :=
      run_examined aux (L / 2 + 1) b fuel hb1 hb hM hfuel hok ((L / 2 + 1) / b) hl1
    have hst : st.low ≤ L / 2 + 1 := by rw [hlow]; exact hl1
    rw [runExamined_succ aux (L / 2 + 1) b fuel hb1 hb hM hfuel hok _ st hr hinv hst hex,
      hlow, hl3]

theorem C16_witness :
    10 ≤ UPPER_BOUND ∧ 1 ≤ 4 ∧ 4 ≤ 2 ^ 31 ∧ 10 / 2 + 4 + 3 ≤ 20 ∧
    ∃ aux, Sieve 20 (u32 (Nat.sqrt 10 + 1)) = some aux ∧
      (initState (10 / 2 + 1)).copyIndex = 1 ∧
      (∀ k, k ≤ (10 / 2 + 1) / 4 →
        ∃ st, blocksRun aux (10 / 2 + 1) 4 20 k = some st ∧ st.low = k * 4 ∧
          1 ≤ st.copyIndex ∧ st.low ≤ st.copyIndex ∧
          st.copyIndex ≤ blockHigh (10 / 2 + 1) 4 st.low + 1 ∧
          runExamined aux (10 / 2 + 1) 4 20 k = List.range' 1 (st.copyIndex - 1) ∧
          blockExamined aux (10 / 2 + 1) 4 20 st =
            List.range' st.copyIndex (blockHigh (10 / 2 + 1) 4 st.low + 1 - st.copyIndex) ∧
          (k < (10 / 2 + 1) / 4 ∨ ¬ Nat.Prime (2 * (10 / 2 + 1) + 1) →
            ∃ st1, block aux (10 / 2 + 1) 4 20 st = some st1 ∧
              st1.copyIndex = blockHigh (10 / 2 + 1) 4 st.low + 1)) ∧
      blockHigh (10 / 2 + 1) 4 ((10 / 2 + 1) / 4 * 4) = 10 / 2 + 1 ∧
      runExamined aux (10 / 2 + 1) 4 20 ((10 / 2 + 1) / 4 + 1) =
        List.range' 1 (10 / 2 + 1) :=
  ⟨by decide, by decide, by norm_num, by decide,
    C16_commit_cursor 10 4 20 (by decide) (by decide) (by norm_num) (by decide)⟩

/-- C16 as stated fails. At `L = 2^33`, `b = 2^32 - 1` the discovery loop of the first
block does not end: whatever the auxiliary array and the fuel, no block ends and the commit
step examines no index at all, so the indices from `1` to the `high = 2^32 - 2` of the
first block are not examined. -/
theorem C16_counterexample :
    1 ≤ 2 ^ 32 - 1 ∧ blockHigh (2 ^ 33 / 2 + 1) (2 ^ 32 - 1) 0 = 2 ^ 32 - 2 ∧
    ∀ (aux : List Bool) (fuel k : Nat),
      blocksRun aux (2 ^ 33 / 2 + 1) (2 ^ 32 - 1) fuel (k + 1) = none ∧
        runExamined aux (2 ^ 33 / 2 + 1) (2 ^ 32 - 1) fuel (k + 1) = [] :=
  ⟨by norm_num, blockHigh_two_pow_33, fun aux fuel k => runExamined_two_pow_33 aux fuel k⟩

/-! ## The marking loop of the one-argument constructor -/

theorem markVisited_mem (memory i : Nat) :
    ∀ (fuel j : Nat), memory - j < fuel →
      ∀ x, x ∈ markVisited memory i fuel j ↔ (j ≤ x ∧ x < memory ∧ (2 * i + 1) ∣ (x - j)) := by
  intro fuel
  induction fuel with
  | zero => intro j h; omega
  | succ fuel ih =>
    intro j h x
    by_cases hj : j < memory
    · simp only [markVisited, hj, if_true, List.mem_cons]
      rw [ih (j + (2 * i + 1)) (by omega) x]
      by_cases hxj : j = x
      · subst hxj
        constructor
        · intro _
          exact ⟨le_refl _, hj, by simp⟩
        · intro _
          exact Or.inl rfl
      · have hstep := progression_step j (2 * i + 1) x (by omega) hxj
        constructor
        · rintro (h1 | ⟨h1, h2, h3⟩)
          · exact absurd h1.symm hxj
          · obtain ⟨q1, q2⟩ := hstep.2 ⟨h1, h3⟩
            exact ⟨q1, h2, q2⟩
        · rintro ⟨h1, h2, h3⟩
          obtain ⟨q1, q2⟩ := hstep.1 ⟨h1, h3⟩
          exact Or.inr ⟨q1, h2, q2⟩
    · simp only [markVisited, hj, if_false, List.not_mem_nil, false_iff]
      rintro ⟨h1, h2, _⟩
      omega

theorem progression_exists (s inc j : Nat) :
    (∃ k, j = s + k * inc) ↔ (s ≤ j ∧ inc ∣ (j - s)) := by
  constructor
  · rintro ⟨k, rfl⟩
    exact ⟨Nat.le_add_right _ _, by simp⟩
  · rintro ⟨h1, c, hc⟩
    exact ⟨c, by rw [Nat.mul_comm c]; omega⟩

/-- A proper multiple of `2i+1` not below its square is not prime, for `i ≥ 1`. -/
theorem multiple_not_prime (i j : Nat) (hi : 1 ≤ i) (hd : (2 * i + 1) ∣ (2 * j + 1))
    (hsq : (2 * i + 1) * (2 * i + 1) ≤ 2 * j + 1) : ¬ Nat.Prime (2 * j + 1) := by
  intro hp
  rcases (Nat.dvd_prime hp).1 hd with h | h
  · omega
  · rw [← h] at hsq
    nlinarith

/-- C17. For every `i ≥ 1`: the odd-index of `(2*i+1)^2` is `2*i*(i+1)`; the marking loop
of `Sieve(L)` for `i`, over an array of `memory` entries, gives a result and visits exactly
the indices `j < memory` of the form `2*i*(i+1) + k*(2*i+1)`, and an entry is true after the
loop exactly when it was true before and has not been visited; an index `j` has that form
exactly when `2*j+1` is a multiple of `2*i+1` with `2*j+1 ≥ (2*i+1)^2`; so every visited
index has a composite value, and index `i` itself is never visited. -/
theorem C17_index_arithmetic (memory i fuel : Nat) (a : List Bool) (hi : 1 ≤ i)
    (hf : memory < fuel) :
    (2 * i + 1) ^ 2 / 2 = (i + 1) * i * 2 ∧ 2 * ((i + 1) * i * 2) + 1 = (2 * i + 1) ^ 2 ∧
    (∀ j, j ∈ markVisited memory i fuel ((i + 1) * i * 2) ↔
      (j < memory ∧ ∃ k, j = (i + 1) * i * 2 + k * (2 * i + 1))) ∧
    (∃ r, markLoop memory i fuel ((i + 1) * i * 2) a = some r ∧
      ∀ j, (r[j]? = some true ↔
        (a[j]? = some true ∧ j ∉ markVisited memory i fuel ((i + 1) * i * 2)))) ∧
    (∀ j, (∃ k, j = (i + 1) * i * 2 + k * (2 * i + 1)) ↔
      ((2 * i + 1) ∣ (2 * j + 1) ∧ (2 * i + 1) ^ 2 ≤ 2 * j + 1)) ∧
    (∀ j, j ∈ markVisited memory i fuel ((i + 1) * i * 2) →
      ¬ Nat.Prime (2 * j + 1) ∧ j ≠ i) := by
  have hsq : (2 * i + 1) ^ 2 = 2 * ((i + 1) * i * 2) + 1 := by ring
  have hsq2 : (2 * i + 1) ^ 2 = (2 * i + 1) * (2 * i + 1) := by ring
  have hform : ∀ j, (∃ k, j = (i + 1) * i * 2 + k * (2 * i + 1)) ↔
      ((2 * i + 1) ∣ (2 * j + 1) ∧ (2 * i + 1) ^ 2 ≤ 2 * j + 1) := by
    intro j
    rw [progression_exists, progression_iff, hsq2]
  have hvis : ∀ j, j ∈ markVisited memory i fuel ((i + 1) * i * 2) ↔
      (j < memory ∧ ∃ k, j = (i + 1) * i * 2 + k * (2 * i + 1)) := by
    intro j
    rw [markVisited_mem memory i fuel _ (by omega) j, progression_exists]
    constructor
    · rintro ⟨h1, h2, h3⟩
      exact ⟨h2, h1, h3⟩
    · rintro ⟨h2, h1, h3⟩
      exact ⟨h1, h2, h3⟩
  refine ⟨by rw [hsq]; omega, hsq.symm, hvis, ?_, hform, ?_⟩
  · obtain ⟨r, hr, _, hk⟩ := markLoop_spec memory i fuel ((i + 1) * i * 2) a (by omega)
    refine ⟨r, hr, ?_⟩
    intro j
    rw [hk j, markVisited_mem memory i fuel _ (by omega) j]
  · intro j hj
    obtain ⟨_, hk⟩ := (hvis j).1 hj
    obtain ⟨hd, hge⟩ := (hform j).1 hk
    refine ⟨multiple_not_prime i j hi hd (by rw [← hsq2]; exact hge), ?_⟩
    rintro rfl
    rw [hsq] at hge
    nlinarith

theorem C17_witness :
    1 ≤ 1 ∧ 13 < 20 ∧
    ((2 * 1 + 1) ^ 2 / 2 = (1 + 1) * 1 * 2 ∧ 2 * ((1 + 1) * 1 * 2) + 1 = (2 * 1 + 1) ^ 2 ∧
    (∀ j, j ∈ markVisited 13 1 20 ((1 + 1) * 1 * 2) ↔
      (j < 13 ∧ ∃ k, j = (1 + 1) * 1 * 2 + k * (2 * 1 + 1))) ∧
    (∃ r, markLoop 13 1 20 ((1 + 1) * 1 * 2) (List.replicate 13 true) = some r ∧
      ∀ j, (r[j]? = some true ↔
        ((List.replicate 13 true)[j]? = some true ∧
          j ∉ markVisited 13 1 20 ((1 + 1) * 1 * 2)))) ∧
    (∀ j, (∃ k, j = (1 + 1) * 1 * 2 + k * (2 * 1 + 1)) ↔
      ((2 * 1 + 1) ∣ (2 * j + 1) ∧ (2 * 1 + 1) ^ 2 ≤ 2 * j + 1)) ∧
    (∀ j, j ∈ markVisited 13 1 20 ((1 + 1) * 1 * 2) →
      ¬ Nat.Prime (2 * j + 1) ∧ j ≠ 1)) :=
  ⟨by decide, by decide,
    C17_index_arithmetic 13 1 20 (List.replicate 13 true) (by decide) (by decide)⟩

/-- C18, as amended. For every limit `L ≤ UPPER_BOUND` and block size `1 ≤ b ≤ 2^31`, the
auxiliary sieve of `Sieve(L, b)` has `(sqrt(L)+1)/2 + 1` entries, and every index `t` at
which a block of the construction reads it satisfies `t ≥ 1` and `2*t*(t+1) ≤ high ≤ L/2+1`,
is a valid index, `t ≤ (sqrt(L)+1)/2`, and the entry read there is true exactly when `2*t+1`
is prime. -/
theorem C18_aux_reads (L b fuel : Nat) (hL : L ≤ UPPER_BOUND) (hb1 : 1 ≤ b)
    (hb : b ≤ 2 ^ 31) (hf : L / 2 + b + 3 ≤ fuel) :
    ∃ aux, Sieve fuel (u32 (Nat.sqrt L + 1)) = some aux ∧
      aux.length = (Nat.sqrt L + 1) / 2 + 1 ∧
      ∀ (k : Nat) (st : SegState), blocksRun aux (L / 2 + 1) b fuel k = some st →
        st.low ≤ L / 2 + 1 →
        ∀ t, t ∈ blockReads aux (L / 2 + 1) b fuel st →
          1 ≤ t ∧ (t + 1) * t * 2 ≤ blockHigh (L / 2 + 1) b st.low ∧
            blockHigh (L / 2 + 1) b st.low ≤ L / 2 + 1 ∧
            t ≤ (Nat.sqrt L + 1) / 2 ∧ t < aux.length ∧
            (aux[t]? = some true ↔ Nat.Prime (2 * t + 1)) := by
  obtain ⟨hM, hfuel, aux, haux, hlen, hok⟩ := design_range L b fuel hL hf
  refine ⟨aux, haux, hlen, ?_⟩
  intro k st hk hlow t ht
  obtain ⟨hinv, _⟩ := blocksRun_inv aux (L / 2 + 1) b fuel hb1 hb hM hfuel hok k st hk
  obtain ⟨h1, h2, h3, h4, h5, h6⟩ := segInv_entry (L / 2 + 1) b hb1 hb hM st hinv hlow
  obtain ⟨q1, q2⟩ :=
    discoverReads_spec aux st.low _ (L / 2 + 1) hM h1 fuel st.index1 h4 h5 t ht
  have ht1 : 1 ≤ t := le_trans h4 q1
  have hidx := aux_index_le L t (le_trans q2 h1)
  obtain ⟨v, hv, hvp⟩ := hok t ht1 (le_trans q2 h1)
  refine ⟨ht1, q2, h1, hidx, by omega, ?_⟩
  rw [hv]
  constructor
  · intro h
    exact hvp.1 (Option.some.inj h)
  · intro h
    rw [hvp.2 h]

theorem C18_witness :
    10 ≤ UPPER_BOUND ∧ 1 ≤ 4 ∧ 4 ≤ 2 ^ 31 ∧ 10 / 2 + 4 + 3 ≤ 20 ∧
    ∃ aux, Sieve 20 (u32 (Nat.sqrt 10 + 1)) = some aux ∧
      aux.length = (Nat.sqrt 10 + 1) / 2 + 1 ∧
      ∀ (k : Nat) (st : SegState), blocksRun aux (10 / 2 + 1) 4 20 k = some st →
        st.low ≤ 10 / 2 + 1 →
        ∀ t, t ∈ blockReads aux (10 / 2 + 1) 4 20 st →
          1 ≤ t ∧ (t + 1) * t * 2 ≤ blockHigh (10 / 2 + 1) 4 st.low ∧
            blockHigh (10 / 2 + 1) 4 st.low ≤ 10 / 2 + 1 ∧
            t ≤ (Nat.sqrt 10 + 1) / 2 ∧ t < aux.length ∧
            (aux[t]? = some true ↔ Nat.Prime (2 * t + 1)) :=
  ⟨by decide, by decide, by norm_num, by decide,
    C18_aux_reads 10 4 20 (by decide) (by decide) (by norm_num) (by decide)⟩

/-- C18 as stated fails. In the first block of `Sieve(2^33, 2^32 - 1)`, where
`high = 2^32 - 2`, the discovery loop reads the auxiliary sieve at index `46342`; the
auxiliary sieve has `46342` entries, so the index is not valid: it is above
`(sqrt(2^33) + 1) / 2 = 46341`, and `2 * 46342 * 46343` is above `high`. -/
theorem C18_counterexample :
    ∃ aux, Sieve 50000 (u32 (Nat.sqrt (2 ^ 33) + 1)) = some aux ∧
      blocksRun aux (2 ^ 33 / 2 + 1) (2 ^ 32 - 1) 50000 0 =
        some (initState (2 ^ 33 / 2 + 1)) ∧
      (initState (2 ^ 33 / 2 + 1)).low ≤ 2 ^ 33 / 2 + 1 ∧
      46342 ∈
        blockReads aux (2 ^ 33 / 2 + 1) (2 ^ 32 - 1) 50000 (initState (2 ^ 33 / 2 + 1)) ∧
      aux.length = 46342 ∧ aux[46342]? = none ∧
      (Nat.sqrt (2 ^ 33) + 1) / 2 < 46342 ∧
      blockHigh (2 ^ 33 / 2 + 1) (2 ^ 32 - 1) 0 < (46342 + 1) * 46342 * 2 := by
  obtain ⟨aux, haux, hlen, _⟩ := aux_two_pow_33 50000 (by decide)
  have hs : Nat.sqrt (2 ^ 33) = 92681 := sqrt_eq _ _ (by norm_num) (by norm_num)
  refine ⟨aux, haux, rfl, Nat.zero_le _, ?_, hlen, List.getElem?_eq_none (by omega), ?_, ?_⟩
  · show 46342 ∈ discoverReads aux 0 (blockHigh (2 ^ 33 / 2 + 1) (2 ^ 32 - 1) 0) 50000 1
    rw [blockHigh_two_pow_33]
    apply discoverReads_skip aux 0 46341 1 3659 (by omega) (by norm_num)
    exact discoverReads_head aux 0 (2 ^ 32 - 2) 3658 46342 (guard_even _)
  · rw [hs]
    decide
  · rw [blockHigh_two_pow_33]
    norm_num

/-! ## A checked run is a run over the natural numbers -/

theorem discoverLoopChk_nat (aux : List Bool) (low high : Nat) :
    ∀ (fuel i : Nat) (P N : List Nat) (r : Nat × List Nat × List Nat),
      discoverLoopChk aux low high fuel i P N = some r →
        discoverLoopNat aux low high fuel i P N = some r := by
  intro fuel
  induction fuel with
  | zero => intro i P N r h; simp [discoverLoopChk] at h
  | succ fuel ih =>
    intro i P N r h
    simp only [discoverLoopChk] at h
    simp only [discoverLoopNat]
    by_cases h32 : (i + 1) * i * 2 < 2 ^ 32
    · simp only [h32, if_true] at h
      by_cases hg : (i + 1) * i * 2 ≤ high
      · simp only [hg, if_true] at h ⊢
        cases hv : aux[i]? with
        | none => rw [hv] at h; simp at h
        | some v =>
          rw [hv] at h
          cases v with
          | true =>
            by_cases hc : low ≤ (i + 1) * i * 2 ∧ i + 1 < 2 ^ 32
            · simp only [hc, and_self, if_true] at h
              exact ih _ _ _ r h
            · simp only [hc, if_false] at h
              simp at h
          | false =>
            by_cases hc : i + 1 < 2 ^ 32
            · simp only [hc, if_true] at h
              exact ih _ _ _ r h
            · simp only [hc, if_false] at h
              simp at h
      · simp only [hg, if_false] at h ⊢
        exact h
    · simp only [h32, if_false] at h
      simp at h

theorem markBlockChk_nat (b inc : Nat) :
    ∀ (fuel j : Nat) (s : List Bool) (r : Nat × List Bool),
      markBlockChk b inc fuel j s = some r → markBlockNat b inc fuel j s = some r := by
  intro fuel
  induction fuel with
  | zero => intro j s r h; simp [markBlockChk] at h
  | succ fuel ih =>
    intro j s r h
    simp only [markBlockChk] at h
    simp only [markBlockNat]
    by_cases hj : j < b
    · simp only [hj, if_true] at h ⊢
      by_cases hc : j + inc < 2 ^ 32
      · simp only [hc, if_true] at h
        exact ih _ _ r h
      · simp only [hc, if_false] at h
        simp at h
    · simp only [hj, if_false] at h ⊢
      exact h

theorem markAllChk_nat (b fuel : Nat) :
    ∀ (P N : List Nat) (s : List Bool) (r : List Nat × List Bool),
      markAllChk b fuel P N s = some r → markAllNat b fuel P N s = some r := by
  intro P
  induction P with
  | nil =>
    intro N s r h
    cases N with
    | nil => exact h
    | cons n ns => simp [markAllChk] at h
  | cons p ps ih =>
    intro N s r h
    cases N with
    | nil => simp [markAllChk] at h
    | cons n ns =>
      simp only [markAllChk] at h
      simp only [markAllNat]
      by_cases hc : p * 2 + 1 < 2 ^ 32 ∧ n < 2 ^ 32
      · simp only [hc, and_self, if_true] at h
        cases hm : markBlockChk b (p * 2 + 1) fuel n s with
        | none => rw [hm] at h; simp at h
        | some r1 =>
          obtain ⟨j, s1⟩ := r1
          rw [hm] at h
          simp only at h
          rw [markBlockChk_nat b _ fuel n s _ hm]
          simp only
          by_cases hj : b ≤ j
          · simp only [hj, if_true] at h
            cases hr : markAllChk b fuel ps ns s1 with
            | none => rw [hr] at h; simp at h
            | some r2 =>
              rw [hr] at h
              rw [ih ns s1 r2 hr]
              exact h
          · simp only [hj, if_false] at h
            simp at h
      · simp only [hc, if_false] at h
        simp at h

theorem commitLoopChk_nat (low high : Nat) (s : List Bool) :
    ∀ (fuel c : Nat) (a : List Bool) (r : Nat × List Bool),
      commitLoopChk low high s fuel c a = some r →
        commitLoopNat low high s fuel c a = some r := by
  intro fuel
  induction fuel with
  | zero => intro c a r h; simp [commitLoopChk] at h
  | succ fuel ih =>
    intro c a r h
    simp only [commitLoopChk] at h
    simp only [commitLoopNat]
    by_cases hc : c ≤ high
    · simp only [hc, if_true] at h ⊢
      by_cases hk : low ≤ c ∧ c + 1 < 2 ^ 32
      · simp only [hk, and_self, if_true] at h
        cases hv : s[c - low]? with
        | none => rw [hv] at h; simp at h
        | some v =>
          rw [hv] at h
          cases v with
          | false => exact ih _ _ r h
          | true =>
            simp only at h ⊢
            by_cases hca : c < a.length
            · simp only [hca, if_true] at h ⊢
              exact ih _ _ r h
            · simp only [hca, if_false] at h
              simp at h
      · simp only [hk, if_false] at h
        simp at h
    · simp only [hc, if_false] at h ⊢
      exact h

theorem blockChk_nat (aux : List Bool) (M b fuel : Nat) (st st1 : SegState)
    (h : blockChk aux M b fuel st = some st1) : blockNat aux M b fuel st = some st1 := by
  unfold blockChk at h
  unfold blockNat
  simp only at h ⊢
  cases hd : discoverLoopChk aux st.low (min (st.low + b - 1) M) fuel st.index1 st.primes
      st.next with
  | none => rw [hd] at h; simp at h
  | some r =>
    obtain ⟨i1, P1, N1⟩ := r
    rw [hd] at h
    rw [discoverLoopChk_nat aux st.low _ fuel _ _ _ _ hd]
    simp only at h ⊢
    cases hm : markAllChk b fuel P1 N1 (List.replicate b true) with
    | none => rw [hm] at h; simp at h
    | some r2 =>
      obtain ⟨N2, s1⟩ := r2
      rw [hm] at h
      rw [markAllChk_nat b fuel _ _ _ _ hm]
      simp only at h ⊢
      cases hc : commitLoopChk st.low (min (st.low + b - 1) M) s1 fuel st.copyIndex
          st.answer with
      | none => rw [hc] at h; simp at h
      | some r3 =>
        rw [hc] at h
        rw [commitLoopChk_nat st.low _ s1 fuel _ _ _ hc]
        exact h

theorem blockLoopChk_nat (aux : List Bool) (M b fuel : Nat) :
    ∀ (n : Nat) (st st1 : SegState),
      blockLoopChk aux M b fuel n st = some st1 → blockLoopNat aux M b fuel n st = some st1 := by
  intro n
  induction n with
  | zero => intro st st1 h; simp [blockLoopChk] at h
  | succ n ih =>
    intro st st1 h
    simp only [blockLoopChk] at h
    simp only [blockLoopNat]
    by_cases hl : st.low ≤ M
    · simp only [hl, if_true] at h ⊢
      cases hb : blockChk aux M b fuel st with
      | none => rw [hb] at h; simp at h
      | some st2 =>
        rw [hb] at h
        rw [blockChk_nat aux M b fuel st st2 hb]
        exact ih st2 st1 h
    · simp only [hl, if_false] at h ⊢
      exact h

/-- A checked run that gives an array is a run over the natural numbers that gives the
same array. -/
theorem Sieve2Chk_nat (fuel L b : Nat) (a : List Bool) (h : Sieve2Chk fuel L b = some a) :
    Sieve2Nat fuel L b = some a := by
  unfold Sieve2Chk at h
  unfold Sieve2Nat
  simp only at h ⊢
  by_cases hs : 8 * b < 2 ^ 32 ∧ Nat.sqrt L + 1 < 2 ^ 32
  · simp only [hs, and_self, if_true] at h
    cases ha : Sieve fuel (Nat.sqrt L + 1) with
    | none => rw [ha] at h; simp at h
    | some aux =>
      rw [ha] at h
      simp only at h ⊢
      cases hb : blockLoopChk aux (L / 2 + 1) b fuel fuel (initState (L / 2 + 1)) with
      | none => rw [hb] at h; simp at h
      | some st1 =>
        rw [hb] at h
        rw [blockLoopChk_nat aux _ b fuel fuel _ st1 hb]
        exact h
  · simp only [hs, if_false] at h
    simp at h

/-! ## In the design range the run is a checked run -/

theorem discoverLoopChk_eq (aux : List Bool) (low high M : Nat) (hM : M ≤ 2 ^ 30)
    (hh : high ≤ M) :
    ∀ (fuel i : Nat) (P N : List Nat), 1 ≤ i → i * (i - 1) * 2 ≤ M →
      low ≤ (i + 1) * i * 2 →
      discoverLoopChk aux low high fuel i P N = discoverLoop aux low high fuel i P N := by
  intro fuel
  induction fuel with
  | zero => intro i P N _ _ _; rfl
  | succ fuel ih =>
    intro i P N hi hbound hlow
    obtain ⟨hv32, hi32⟩ := square_index_lt_pow hi (le_trans hbound hM)
    have e1 : u32 (i + 1) = i + 1 := u32_of_lt hi32
    have e2 : u32 ((i + 1) * i) = (i + 1) * i := u32_of_lt (by omega)
    have e3 : u32 ((i + 1) * i * 2) = (i + 1) * i * 2 := u32_of_lt hv32
    simp only [discoverLoopChk, discoverLoop, e1, e2, e3, hv32, if_true]
    by_cases hg : (i + 1) * i * 2 ≤ high
    · have hb1 : (i + 1) * (i + 1 - 1) * 2 ≤ M := by
        simp only [Nat.add_sub_cancel]
        omega
      have hnext : low ≤ (i + 1 + 1) * (i + 1) * 2 :=
        le_trans hlow ((square_index_le_iff _ _).2 (Nat.le_succ i))
      simp only [hg, if_true, hlow, hi32, and_self, sub32_of_le hlow hv32]
      cases aux[i]? with
      | none => rfl
      | some v =>
        cases v with
        | true => exact ih (i + 1) _ _ (by omega) hb1 hnext
        | false => exact ih (i + 1) _ _ (by omega) hb1 hnext
    · simp only [hg, if_false]

theorem markBlockChk_eq (b inc : Nat) (hb : b + inc ≤ 2 ^ 32) :
    ∀ (fuel j : Nat) (s : List Bool),
      markBlockChk b inc fuel j s = markBlock b inc fuel j s := by
  intro fuel
  induction fuel with
  | zero => intro j s; rfl
  | succ fuel ih =>
    intro j s
    by_cases hj : j < b
    · have h32 : j + inc < 2 ^ 32 := by omega
      simp only [markBlockChk, markBlock, hj, if_true, h32, u32_of_lt h32]
      exact ih _ _
    · simp only [markBlockChk, markBlock, hj, if_false]

theorem markAllChk_eq (b fuel low : Nat) (hb : b ≤ 2 ^ 31) (hf : b < fuel) :
    ∀ (P N : List Nat) (s : List Bool), List.Forall₂ (Carry low) P N →
      markAllChk b fuel P N s = markAll b fuel P N s := by
  intro P N s hPN
  induction hPN generalizing s with
  | nil => rfl
  | @cons p n ps ns hc _ ih =>
    have hp2 : p < 2 ^ 15 := hc.2.1
    have hn : n < 2 ^ 31 := hc.2.2.1
    have h15 : (2:Nat) ^ 15 = 32768 := by norm_num
    have h31 : (2:Nat) ^ 31 = 2147483648 := by norm_num
    have h32 : (2:Nat) ^ 32 = 4294967296 := by norm_num
    have e1 : u32 (p * 2) = p * 2 := u32_of_lt (by omega)
    have e2 : u32 (p * 2 + 1) = p * 2 + 1 := u32_of_lt (by omega)
    have hchk : p * 2 + 1 < 2 ^ 32 ∧ n < 2 ^ 32 := ⟨by omega, by omega⟩
    obtain ⟨j1, s1, hr, _, h1, _, hj32, _, _, _⟩ :=
      markBlock_spec b (p * 2 + 1) (by omega) (by omega) fuel n s (by omega) (by omega)
    simp only [markAllChk, markAll, e1, e2, hchk, and_self, if_true,
      markBlockChk_eq b (p * 2 + 1) (by omega), hr, h1, ih s1, sub32_of_le h1 hj32]

theorem commitLoopChk_eq (low high : Nat) (s : List Bool) (hh : high + 1 < 2 ^ 32) :
    ∀ (fuel c : Nat) (a : List Bool), low ≤ c →
      commitLoopChk low high s fuel c a = commitLoop low high s fuel c a := by
  intro fuel
  induction fuel with
  | zero => intro c a _; rfl
  | succ fuel ih =>
    intro c a hlc
    have h32 : (2:Nat) ^ 32 = 4294967296 := by norm_num
    have h64 : (2:Nat) ^ 64 = 18446744073709551616 := by norm_num
    by_cases hc : c ≤ high
    · have e1 : sub64 c low = c - low := sub64_of_le hlc (by omega)
      have h2 : c + 1 < 2 ^ 32 := by omega
      simp only [commitLoopChk, commitLoop, hc, if_true, hlc, h2, and_self, e1, u32_of_lt h2]
      cases s[c - low]? with
      | none => rfl
      | some v =>
        cases v with
        | false => exact ih (c + 1) _ (by omega)
        | true =>
          simp only
          by_cases hca : c < a.length
          · simp only [hca, if_true]
            exact ih (c + 1) _ (by omega)
          · simp only [hca, if_false]
    · simp only [commitLoopChk, commitLoop, hc, if_false]

theorem blockChk_eq (aux : List Bool) (M b fuel : Nat) (hb1 : 1 ≤ b) (hb : b ≤ 2 ^ 31)
    (hM : M ≤ 2 ^ 30) (hf : M + b + 1 < fuel) (haux : AuxOK aux M) (st : SegState)
    (hinv : SegInv M st) (hlow : st.low ≤ M) :
    blockChk aux M b fuel st = block aux M b fuel st := by
  have h30 : (2:Nat) ^ 30 = 1073741824 := by norm_num
  have h31 : (2:Nat) ^ 31 = 2147483648 := by norm_num
  have h32 : (2:Nat) ^ 32 = 4294967296 := by norm_num
  have h64 : (2:Nat) ^ 64 = 18446744073709551616 := by norm_num
  obtain ⟨q1, q2, q3, q4, q5, q6⟩ := segInv_entry M b hb1 hb hM st hinv hlow
  have hhigh : blockHigh M b st.low = min (st.low + b - 1) M :=
    blockHigh_eq M b st.low hb1 (by omega)
  have hcopy : st.low ≤ st.copyIndex := by
    rw [hinv.2.2.1]
    omega
  obtain ⟨i1, P1, N1, hd, _, _, _, hd4, _⟩ :=
    discoverLoop_spec aux st.low (blockHigh M b st.low) M hM q1 haux fuel st.index1
      st.primes st.next (by omega) q4 q5 q6 hinv.2.2.2.1
  unfold blockChk block
  simp only
  rw [← hhigh, discoverLoopChk_eq aux st.low _ M hM q1 fuel st.index1 _ _ q4 q5 q6, hd]
  simp only
  rw [markAllChk_eq b fuel st.low hb (by omega) P1 N1 _ hd4]
  cases markAll b fuel P1 N1 (List.replicate b true) with
  | none => rfl
  | some r =>
    simp only
    rw [commitLoopChk_eq st.low _ r.2 (by omega) fuel st.copyIndex st.answer hcopy]

theorem blockLoopChk_eq (aux : List Bool) (M b fuel : Nat) (hb1 : 1 ≤ b) (hb : b ≤ 2 ^ 31)
    (hM : M ≤ 2 ^ 30) (hf : M + b + 1 < fuel) (haux : AuxOK aux M) :
    ∀ (n : Nat) (st : SegState), SegInv M st →
      blockLoopChk aux M b fuel n st = blockLoop aux M b fuel n st := by
  intro n
  induction n with
  | zero => intro st _; rfl
  | succ n ih =>
    intro st hinv
    by_cases hlow : st.low ≤ M
    · simp only [blockLoopChk, blockLoop, hlow, if_true,
        blockChk_eq aux M b fuel hb1 hb hM hf haux st hinv hlow]
      cases hr : block aux M b fuel st with
      | none => rfl
      | some st1 =>
        exact ih st1 (block_result aux M b fuel hb1 hb hM hf haux st st1 hinv hlow hr).1
    · simp only [blockLoopChk, blockLoop, hlow, if_false]

/-- In the design range, with `8 * b < 2^32`, the segmented constructor is its checked
run. -/
theorem Sieve2Chk_eq (L b fuel : Nat) (hL : L ≤ UPPER_BOUND) (hb1 : 1 ≤ b) (hb : b ≤ 2 ^ 31)
    (hf : L / 2 + b + 3 ≤ fuel) (h8 : 8 * b < 2 ^ 32) :
    Sieve2Chk fuel L b = Sieve2 fuel L b := by
  have hUB : UPPER_BOUND = 2147483647 := rfl
  have h32 : (2:Nat) ^ 32 = 4294967296 := by norm_num
  have hs := Nat.sqrt_le_self L
  have hlt : Nat.sqrt L + 1 < 2 ^ 32 := by omega
  have hsq : u32 (Nat.sqrt L + 1) = Nat.sqrt L + 1 := u32_of_lt hlt
  obtain ⟨hM, hfuel, aux, haux, _, hok⟩ := design_range L b fuel hL hf
  rw [hsq] at haux
  unfold Sieve2Chk Sieve2
  simp only [hlt, h8, and_self, if_true, hsq, haux]
  rw [blockLoopChk_eq aux (L / 2 + 1) b fuel hb1 hb hM hfuel hok fuel _ (segInv_init _)]

/-- C19, as amended. For every limit `L ≤ UPPER_BOUND = 2^31 - 1` for which `2*(L/2+1)+1`
is not prime and every block size `1 ≤ b ≤ 2^31`, with fuel `L/2 + b + 3`: the segmented
constructor gives an array and the run over unbounded natural numbers gives the same array;
so does the checked block loop, so that in the loops no value assigned to a 32-bit variable
reaches `2^32` and no difference is negative (the product `(index1+1)*index1*2`, the offsets
stored in `next`, `j` after each `j += increment`, `j - cache_size`, `copyIndex`, `index1`,
`increment`), nor does the `uint32_t sqrt`; and when `8*b < 2^32`, that is `b < 2^29`, the
whole checked run gives that array, so that `segment_size = 8*cache_size` does not wrap
either. -/
theorem C19_no_wrap (L b fuel : Nat) (hL : L ≤ UPPER_BOUND) (hb1 : 1 ≤ b) (hb : b ≤ 2 ^ 31)
    (hf : L / 2 + b + 3 ≤ fuel) (hp : ¬ Nat.Prime (2 * (L / 2 + 1) + 1)) :
    ∃ a, Sieve2 fuel L b = some a ∧ Sieve2Nat fuel L b = some a ∧
      (∃ aux st, Nat.sqrt L + 1 < 2 ^ 32 ∧ Sieve fuel (Nat.sqrt L + 1) = some aux ∧
        blockLoopChk aux (L / 2 + 1) b fuel fuel (initState (L / 2 + 1)) = some st ∧
        st.answer = a) ∧
      (8 * b < 2 ^ 32 → Sieve2Chk fuel L b = some a) := by
  have hUB : UPPER_BOUND = 2147483647 := rfl
  have h32 : (2:Nat) ^ 32 = 4294967296 := by norm_num
  have hs := Nat.sqrt_le_self L
  have hlt : Nat.sqrt L + 1 < 2 ^ 32 := by omega
  have hsq : u32 (Nat.sqrt L + 1) = Nat.sqrt L + 1 := u32_of_lt hlt
  obtain ⟨hM, hfuel, aux, haux, _, hok⟩ := design_range L b fuel hL hf
  rw [hsq] at haux
  obtain ⟨st, hr, _, _⟩ :=
    blockLoop_spec aux (L / 2 + 1) b fuel hb1 hb hM hfuel hok hp fuel (initState (L / 2 + 1))
      (by simp only [initState]; omega) (segInv_init _)
  have hchk : blockLoopChk aux (L / 2 + 1) b fuel fuel (initState (L / 2 + 1)) = some st := by
    rw [blockLoopChk_eq aux (L / 2 + 1) b fuel hb1 hb hM hfuel hok fuel _ (segInv_init _)]
    exact hr
  have h2 : Sieve2 fuel L b = some st.answer := by
    simp only [Sieve2, hsq, haux, hr, Option.map_some']
  refine ⟨st.answer, h2, ?_, ⟨aux, st, hlt, haux, hchk, rfl⟩, ?_⟩
  · simp only [Sieve2Nat, haux, blockLoopChk_nat aux _ b fuel fuel _ st hchk,
      Option.map_some']
  · intro h8
    rw [Sieve2Chk_eq L b fuel hL hb1 hb hf h8]
    exact h2

theorem C19_witness :
    96 ≤ UPPER_BOUND ∧ 1 ≤ 32768 ∧ 32768 ≤ 2 ^ 31 ∧ 96 / 2 + 32768 + 3 ≤ 32819 ∧
    ¬ Nat.Prime (2 * (96 / 2 + 1) + 1) ∧
    ∃ a, Sieve2 32819 96 32768 = some a ∧ Sieve2Nat 32819 96 32768 = some a ∧
      (∃ aux st, Nat.sqrt 96 + 1 < 2 ^ 32 ∧ Sieve 32819 (Nat.sqrt 96 + 1) = some aux ∧
        blockLoopChk aux (96 / 2 + 1) 32768 32819 32819 (initState (96 / 2 + 1)) = some st ∧
        st.answer = a) ∧
      (8 * 32768 < 2 ^ 32 → Sieve2Chk 32819 96 32768 = some a) :=
  ⟨by decide, by decide, by norm_num, by decide, by norm_num,
    C19_no_wrap 96 32768 32819 (by decide) (by decide) (by norm_num) (by decide)
      (by norm_num)⟩

/-- C19 as stated fails. At `L = 12` and `b = 2^29`, within the range of the claim, the
32-bit quantity `segment_size = 8 * cache_size` wraps to `0`, and the checked run gives no
result, whatever the fuel. -/
theorem C19_counterexample :
    12 ≤ UPPER_BOUND ∧ 1 ≤ 2 ^ 29 ∧ 2 ^ 29 ≤ 2 ^ 31 ∧
      segment_size (2 ^ 29) = 0 ∧ segment_size (2 ^ 29) ≠ 8 * 2 ^ 29 ∧
      ∀ fuel, Sieve2Chk fuel 12 (2 ^ 29) = none := by
  have hseg : segment_size (2 ^ 29) = 0 := by
    unfold segment_size u32
    norm_num
  refine ⟨by decide, by norm_num, by norm_num, hseg, by rw [hseg]; norm_num, ?_⟩
  intro fuel
  have h8 : ¬ (8 * 2 ^ 29 < 2 ^ 32 ∧ Nat.sqrt 12 + 1 < 2 ^ 32) := by
    rintro ⟨h, _⟩
    norm_num at h
  unfold Sieve2Chk
  simp only [h8, if_false]

/-! ## The number of blocks -/

theorem blocksRun_prefix (aux : List Bool) (M b fuel : Nat) :
    ∀ (n : Nat) (st : SegState), blocksRun aux M b fuel n = some st →
      ∀ k, k < n → ∃ sk s1, blocksRun aux M b fuel k = some sk ∧ sk.low ≤ M ∧
        block aux M b fuel sk = some s1 := by
  intro n
  induction n with
  | zero => intro st _ k hk; omega
  | succ n ih =>
    intro st h k hk
    obtain ⟨st0, h0, hl, hb⟩ := blocksRun_succ aux M b fuel n st h
    by_cases hkn : k = n
    · subst hkn
      exact ⟨st0, st, h0, hl, hb⟩
    · exact ih st0 h0 k (by omega)

/-- The state with which the block loop ends is the state in which some block would start,
and there the loop condition fails. -/
theorem blockLoop_run (aux : List Bool) (M b fuel : Nat) :
    ∀ (n k : Nat) (st0 st : SegState), blocksRun aux M b fuel k = some st0 →
      blockLoop aux M b fuel n st0 = some st →
      ∃ j, blocksRun aux M b fuel (k + j) = some st ∧ M < st.low := by
  intro n
  induction n with
  | zero => intro k st0 st _ h; simp [blockLoop] at h
  | succ n ih =>
    intro k st0 st hk h
    simp only [blockLoop] at h
    by_cases hl : st0.low ≤ M
    · simp only [hl, if_true] at h
      cases hb : block aux M b fuel st0 with
      | none => rw [hb] at h; simp at h
      | some st1 =>
        rw [hb] at h
        obtain ⟨j, hj, hlt⟩ := ih (k + 1) st1 st (blocksRun_step aux M b fuel k st0 st1 hk hl hb) h
        exact ⟨j + 1, by rw [← hj]; congr 1; omega, hlt⟩
    · simp only [hl, if_false] at h
      have e := Option.some.inj h
      subst e
      exact ⟨0, hk, by omega⟩

theorem markBlock_length (b inc : Nat) :
    ∀ (fuel j : Nat) (s : List Bool) (r : Nat × List Bool),
      markBlock b inc fuel j s = some r → r.2.length = s.length := by
  intro fuel
  induction fuel with
  | zero => intro j s r h; simp [markBlock] at h
  | succ fuel ih =>
    intro j s r h
    simp only [markBlock] at h
    by_cases hj : j < b
    · simp only [hj, if_true] at h
      rw [ih _ _ r h, List.length_set]
    · simp only [hj, if_false] at h
      have e := Option.some.inj h
      subst e
      rfl

theorem markAll_length (b fuel : Nat) :
    ∀ (P N : List Nat) (s : List Bool) (r : List Nat × List Bool),
      markAll b fuel P N s = some r → r.2.length = s.length := by
  intro P
  induction P with
  | nil =>
    intro N s r h
    cases N with
    | nil =>
      have e := Option.some.inj h
      subst e
      rfl
    | cons n ns => simp [markAll] at h
  | cons p ps ih =>
    intro N s r h
    cases N with
    | nil => simp [markAll] at h
    | cons n ns =>
      simp only [markAll] at h
      cases hm : markBlock b (u32 (u32 (p * 2) + 1)) fuel n s with
      | none => rw [hm] at h; simp at h
      | some r1 =>
        obtain ⟨j, s1⟩ := r1
        rw [hm] at h
        simp only at h
        cases hr : markAll b fuel ps ns s1 with
        | none => rw [hr] at h; simp at h
        | some r2 =>
          obtain ⟨ns1, s2⟩ := r2
          rw [hr] at h
          simp only at h
          have e := Option.some.inj h
          subst e
          have h1 := ih ns s1 _ hr
          have h2 := markBlock_length b _ fuel n s _ hm
          simp only at h1 h2 ⊢
          rw [h1, h2]

/-- With `cache_size = 0` the first block gives no result: its commit loop reads the empty
block buffer at index `1`. -/
theorem block_zero_none (aux : List Bool) (M fuel : Nat) (hM : 1 ≤ M) :
    block aux M 0 fuel (initState M) = none := by
  cases hb : block aux M 0 fuel (initState M) with
  | none => rfl
  | some st1 =>
    exfalso
    obtain ⟨i1, P1, N1, N2, s1, c1, a1, _, hm, hc, _⟩ :=
      block_some aux M 0 fuel (initState M) st1 hb
    have hlen := markAll_length 0 fuel P1 N1 _ _ hm
    simp only [List.length_replicate] at hlen
    have hs1 : s1 = [] := List.length_eq_zero.1 hlen
    subst hs1
    have hhigh : 1 ≤ blockHigh M 0 (initState M).low := by
      unfold blockHigh sub64
      simp only [initState]
      norm_num
      omega
    cases fuel with
    | zero => simp [commitLoop] at hc
    | succ f =>
      have h1 : (initState M).copyIndex = 1 := rfl
      rw [h1] at hc
      simp only [commitLoop, hhigh, if_true] at hc
      simp at hc

/-- With `cache_size = 0` every block starts at `low = 0`. -/
theorem run_zero_low (aux : List Bool) (M fuel : Nat) :
    ∀ (k : Nat) (st : SegState), blocksRun aux M 0 fuel k = some st → st.low = 0 := by
  intro k
  induction k with
  | zero =>
    intro st h
    have e : st = initState M := (Option.some.inj h).symm
    subst e
    rfl
  | succ k ih =>
    intro st1 h
    obtain ⟨st, hk, _, hb⟩ := blocksRun_succ aux M 0 fuel k st1 h
    obtain ⟨i1, P1, N1, N2, s1, c1, a1, _, _, _, e⟩ := block_some aux M 0 fuel st st1 hb
    subst e
    simp only
    rw [ih st hk]

/-- With `cache_size = 0` the segmented constructor gives no array, whatever the fuel. -/
theorem Sieve2_zero_none (fuel L : Nat) : Sieve2 fuel L 0 = none := by
  have hloop : ∀ aux : List Bool,
      blockLoop aux (L / 2 + 1) 0 fuel fuel (initState (L / 2 + 1)) = none := by
    intro aux
    cases fuel with
    | zero => rfl
    | succ n =>
      have h0 : (initState (L / 2 + 1)).low ≤ L / 2 + 1 := Nat.zero_le _
      have hb := block_zero_none aux (L / 2 + 1) (n + 1) (Nat.succ_le_succ (Nat.zero_le _))
      rw [blockLoop, if_pos h0, hb]
  unfold Sieve2
  simp only
  cases Sieve fuel (u32 (Nat.sqrt L + 1)) with
  | none => rfl
  | some aux =>
    simp only [hloop aux, Option.map_none']

/-- C20, as amended. For every limit `L ≤ UPPER_BOUND` and block size `1 ≤ b ≤ 2^31`, with
fuel `L/2 + b + 3`: for every `k ≤ (L/2+1)/b` block number `k` starts, at
`low = k*b ≤ L/2+1`, and its discovery and marking loops end; its commit loop ends too if it
is not the last block or if `2*(L/2+1)+1` is not prime. When `2*(L/2+1)+1` is not prime the
block loop ends after exactly `(L/2+1)/b + 1` blocks, in the state after that many blocks,
which has `low > L/2+1`; when it is prime the last commit loop writes past the end of the
array and the block loop gives no result. With `b = 0`, for every `L`, every block starts at
`low = 0` and no array is built, whatever the fuel. -/
theorem C20_block_count (L b fuel : Nat) (hL : L ≤ UPPER_BOUND) (hb1 : 1 ≤ b)
    (hb : b ≤ 2 ^ 31) (hf : L / 2 + b + 3 ≤ fuel) :
    (∃ aux, Sieve fuel (u32 (Nat.sqrt L + 1)) = some aux ∧
      (∀ k, k ≤ (L / 2 + 1) / b →
        ∃ sk s, blocksRun aux (L / 2 + 1) b fuel k = some sk ∧ sk.low = k * b ∧
          sk.low ≤ L / 2 + 1 ∧ blockBuffer aux (L / 2 + 1) b fuel sk = some s ∧
          (k < (L / 2 + 1) / b ∨ ¬ Nat.Prime (2 * (L / 2 + 1) + 1) →
            ∃ s1, block aux (L / 2 + 1) b fuel sk = some s1)) ∧
      (¬ Nat.Prime (2 * (L / 2 + 1) + 1) →
        ∃ st, blockLoop aux (L / 2 + 1) b fuel fuel (initState (L / 2 + 1)) = some st ∧
          blocksRun aux (L / 2 + 1) b fuel ((L / 2 + 1) / b + 1) = some st ∧
          L / 2 + 1 < st.low ∧
          blocksRun aux (L / 2 + 1) b fuel ((L / 2 + 1) / b + 2) = none) ∧
      (Nat.Prime (2 * (L / 2 + 1) + 1) →
        blockLoop aux (L / 2 + 1) b fuel fuel (initState (L / 2 + 1)) = none ∧
          blocksRun aux (L / 2 + 1) b fuel ((L / 2 + 1) / b + 1) = none)) ∧
    (∀ (aux : List Bool) (f k : Nat) (st : SegState),
      blocksRun aux (L / 2 + 1) 0 f k = some st → st.low = 0) ∧
    (∀ f, Sieve2 f L 0 = none) := by
  refine ⟨?_, fun aux f k st h => run_zero_low aux _ f k st h, fun f => Sieve2_zero_none f L⟩
  obtain ⟨hM, hfuel, aux, haux, _, hok⟩ := design_range L b fuel hL hf
  obtain ⟨hl1, hl2, _⟩ := blockHigh_last (L / 2 + 1) b hb1 hb hM
  have hkb : ∀ k, k ≤ (L / 2 + 1) / b → k * b ≤ L / 2 + 1 := fun k hk =>
    le_trans (Nat.mul_le_mul_right b hk) hl1
  obtain ⟨sl, hsl, hinvl, hlowl⟩ :=
    blocksRun_start aux (L / 2 + 1) b fuel hb1 hb hM hfuel hok ((L / 2 + 1) / b) hl1
  have hsll : sl.low ≤ L / 2 + 1 := by rw [hlowl]; exact hl1
  refine ⟨aux, haux, ?_, ?_, ?_⟩
  · intro k hk
    obtain ⟨sk, hr, hinv, hlow⟩ :=
      blocksRun_start aux (L / 2 + 1) b fuel hb1 hb hM hfuel hok k (hkb k hk)
    have hst : sk.low ≤ L / 2 + 1 := by rw [hlow]; exact hkb k hk
    obtain ⟨i1, P1, N1, N2, s1, hd, hm, _⟩ :=
      block_run aux (L / 2 + 1) b fuel hb1 hb hM hfuel hok sk hinv hst
    refine ⟨sk, s1, hr, hlow, hst, ?_, ?_⟩
    · simp only [blockBuffer, hd, hm, Option.map_some']
    · intro hcase
      have hlast : sk.low + b ≤ L / 2 + 1 ∨ ¬ Nat.Prime (2 * (L / 2 + 1) + 1) := by
        rcases hcase with h | h
        · left
          have := hkb (k + 1) h
          rw [Nat.succ_mul] at this
          rw [hlow]
          exact this
        · exact Or.inr h
      obtain ⟨st1, hb2, _, _⟩ :=
        block_spec aux (L / 2 + 1) b fuel hb1 hb hM hfuel hok sk hinv hst hlast
      exact ⟨st1, hb2⟩
  · intro hp
    obtain ⟨st1, hb2, _, hlow1⟩ :=
      block_spec aux (L / 2 + 1) b fuel hb1 hb hM hfuel hok sl hinvl hsll (Or.inr hp)
    have hrun : blocksRun aux (L / 2 + 1) b fuel ((L / 2 + 1) / b + 1) = some st1 :=
      blocksRun_step aux (L / 2 + 1) b fuel _ sl st1 hsl hsll hb2
    have hlt : L / 2 + 1 < st1.low := by rw [hlow1, hlowl]; exact hl2
    obtain ⟨st, hr, _, _⟩ :=
      blockLoop_spec aux (L / 2 + 1) b fuel hb1 hb hM hfuel hok hp fuel
        (initState (L / 2 + 1)) (by simp only [initState]; omega) (segInv_init _)
    obtain ⟨j, hj, hjl⟩ := blockLoop_run aux (L / 2 + 1) b fuel fuel 0 _ st rfl hr
    rw [Nat.zero_add] at hj
    have hjlow := blocksRun_low aux (L / 2 + 1) b fuel j st hj
    have hj0 : j ≠ 0 := by
      rintro rfl
      rw [Nat.zero_mul] at hjlow
      omega
    obtain ⟨n, rfl⟩ := Nat.exists_eq_succ_of_ne_zero hj0
    obtain ⟨st0, h0, hl0, _⟩ := blocksRun_succ aux (L / 2 + 1) b fuel n st hj
    have hlow0 := blocksRun_low aux (L / 2 + 1) b fuel n st0 h0
    have hn : (L / 2 + 1) / b = n := by
      apply Nat.div_eq_of_lt_le
      · rw [← hlow0]; exact hl0
      · rw [← hjlow]; exact hjl
    rw [hn] at hrun
    rw [hj] at hrun
    have e := Option.some.inj hrun
    subst e
    refine ⟨st, hr, by rw [hn]; exact hj, hlt, ?_⟩
    have hnot : ¬ st.low ≤ L / 2 + 1 := by omega
    rw [hn]
    show blocksRun aux (L / 2 + 1) b fuel (n + 1 + 1) = none
    rw [blocksRun, hj]
    simp only [hnot, if_false]
  · intro hp
    refine ⟨blockLoop_fail aux (L / 2 + 1) b fuel hb1 hb hM hfuel hok hp fuel _
      (segInv_init _) (Nat.zero_le _), ?_⟩
    rw [blocksRun, hsl]
    simp only [hsll, if_true]
    exact block_fail aux (L / 2 + 1) b fuel hb1 hb hM hfuel hok sl hinvl hsll
      (by rw [hlowl]; exact hl2) hp

theorem C20_witness :
    12 ≤ UPPER_BOUND ∧ 1 ≤ 4 ∧ 4 ≤ 2 ^ 31 ∧ 12 / 2 + 4 + 3 ≤ 20 ∧
    ((∃ aux, Sieve 20 (u32 (Nat.sqrt 12 + 1)) = some aux ∧
      (∀ k, k ≤ (12 / 2 + 1) / 4 →
        ∃ sk s, blocksRun aux (12 / 2 + 1) 4 20 k = some sk ∧ sk.low = k * 4 ∧
          sk.low ≤ 12 / 2 + 1 ∧ blockBuffer aux (12 / 2 + 1) 4 20 sk = some s ∧
          (k < (12 / 2 + 1) / 4 ∨ ¬ Nat.Prime (2 * (12 / 2 + 1) + 1) →
            ∃ s1, block aux (12 / 2 + 1) 4 20 sk = some s1)) ∧
      (¬ Nat.Prime (2 * (12 / 2 + 1) + 1) →
        ∃ st, blockLoop aux (12 / 2 + 1) 4 20 20 (initState (12 / 2 + 1)) = some st ∧
          blocksRun aux (12 / 2 + 1) 4 20 ((12 / 2 + 1) / 4 + 1) = some st ∧
          12 / 2 + 1 < st.low ∧
          blocksRun aux (12 / 2 + 1) 4 20 ((12 / 2 + 1) / 4 + 2) = none) ∧
      (Nat.Prime (2 * (12 / 2 + 1) + 1) →
        blockLoop aux (12 / 2 + 1) 4 20 20 (initState (12 / 2 + 1)) = none ∧
          blocksRun aux (12 / 2 + 1) 4 20 ((12 / 2 + 1) / 4 + 1) = none)) ∧
    (∀ (aux : List Bool) (f k : Nat) (st : SegState),
      blocksRun aux (12 / 2 + 1) 0 f k = some st → st.low = 0) ∧
    (∀ f, Sieve2 f 12 0 = none)) :=
  ⟨by decide, by decide, by norm_num, by decide,
    C20_block_count 12 4 20 (by decide) (by decide) (by norm_num) (by decide)⟩

/-- C20 as stated fails. At `L = 2^33`, `b = 2^32 - 1` the first block has
`high = 2^32 - 2`, and its discovery loop does not end: whatever the auxiliary array and
the fuel, the loop gives no result, no second block starts, and the block loop gives no
result. -/
theorem C20_counterexample :
    1 ≤ 2 ^ 32 - 1 ∧
    (¬ ∃ (aux : List Bool) (fuel : Nat) (r : Nat × List Nat × List Nat),
      discoverLoop aux 0 (blockHigh (2 ^ 33 / 2 + 1) (2 ^ 32 - 1) 0) fuel 1 [] [] = some r) ∧
    (¬ ∃ (aux : List Bool) (fuel : Nat) (st : SegState),
      blocksRun aux (2 ^ 33 / 2 + 1) (2 ^ 32 - 1) fuel 1 = some st) ∧
    (¬ ∃ (aux : List Bool) (fuel : Nat) (st : SegState),
      blockLoop aux (2 ^ 33 / 2 + 1) (2 ^ 32 - 1) fuel fuel (initState (2 ^ 33 / 2 + 1)) =
        some st) := by
  have hblock : ∀ (aux : List Bool) (fuel : Nat),
      block aux (2 ^ 33 / 2 + 1) (2 ^ 32 - 1) fuel (initState (2 ^ 33 / 2 + 1)) = none := by
    intro aux fuel
    unfold block
    simp only [initState, blockHigh_two_pow_33]
    rw [discoverLoop_no_exit]
  have h0 : (initState (2 ^ 33 / 2 + 1)).low ≤ 2 ^ 33 / 2 + 1 := Nat.zero_le _
  refine ⟨by norm_num, ?_, ?_, ?_⟩
  · rintro ⟨aux, fuel, r, h⟩
    rw [blockHigh_two_pow_33, discoverLoop_no_exit] at h
    exact Option.noConfusion h
  · rintro ⟨aux, fuel, st, h⟩
    simp only [blocksRun, h0, if_true, hblock] at h
    exact Option.noConfusion h
  · rintro ⟨aux, fuel, st, h⟩
    cases fuel with
    | zero => simp [blockLoop] at h
    | succ n =>
      simp only [blockLoop, h0, if_true, hblock] at h
      exact Option.noConfusion h


end PrimeGen
